import Mathlib

set_option maxRecDepth 100000

/-!
# Verification of the Lexicon associative containers

Shallow embedding of the container engines of the `lexicon` repository
(chained hash table, AVL tree, red-black tree) together with proofs about
the behaviour of their operations.

Keys and values are specialised to `Nat`; the hash function and the
comparator are the parameters `hash : Nat → Nat` and the order on `Nat`,
mirroring the `Hash`/`Less` template parameters of the C++ code.  `float`
load factors are modelled as exact rationals: every constant involved
(`0.75`, `1.0`) and every comparison performed on them in the source is
exact in IEEE single precision for the ranges exercised here.

Operations that can throw return a pair of the post-call state and an
optional error, mirroring the fact that a C++ exception leaves the object
in whatever state it had reached when the throw executed.
-/

namespace HashTable_Chaining

/-- A bucket of the chained hash table: `std::list<std::pair<Key, Value>>`. -/
abbrev Bucket := List (Nat × Nat)

/-- Exceptions of `HashTable_C_Exceptions.hpp`. -/
inductive HTCError where
  | alreadyExists
  | keyNotFound
  | invalidLoadFactor
deriving Repr, DecidableEq

/-- State of `HashTable_Chaining`: element count, table size, the bucket
vector, and the two load factors. -/
structure Table where
  m_number_of_elements : Nat
  m_table_size : Nat
  m_table : List Bucket
  m_load_factor : ℚ
  m_max_load_factor : ℚ
deriving Repr, DecidableEq

/-- The trial-division test of `get_next_prime`'s inner `for` loop:
`for (int i = 2; i <= sqrt(x); ++i) if (x % i == 0)` — the bound
`i ≤ sqrt x` is expressed as the equivalent `i * i ≤ x`. -/
def has_small_divisor (x : Nat) : Bool :=
  (List.range (x + 1)).any (fun i => 2 ≤ i && i * i ≤ x && x % i == 0)

/-- The `while (not_prime)` loop of `get_next_prime`: keeps stepping by 2
until the candidate has no small divisor, then returns it (the C++ code
post-increments and returns `x - 2`, which is the last candidate tested).
The fuel is ample for every argument by Bertrand's postulate; it only
exists to make the recursion structural. -/
def get_next_prime_loop : Nat → Nat → Nat
  | 0, x => x
  | fuel + 1, x => if has_small_divisor x then get_next_prime_loop fuel (x + 2) else x

/-- `HashTable_Chaining::get_next_prime`. -/
def get_next_prime (x : Nat) : Nat :=
  if x ≤ 2 then 3
  else
    let x1 := if x % 2 == 0 then x + 1 else x
    get_next_prime_loop (x1 + 2) x1

/-- `HashTable_Chaining::HashTable_Chaining(size_t tableSize = 19)`.
The float constants `0.75` and `1.0` are exact. -/
def mk (tableSize : Nat) : Table :=
  let sz := get_next_prime tableSize
  { m_number_of_elements := 0
    m_table_size := sz
    m_table := List.replicate sz []
    m_load_factor := mkRat 3 4
    m_max_load_factor := mkRat 1 1 }

/-- `HashTable_Chaining::hash_code`. -/
def hash_code (hash : Nat → Nat) (t : Table) (k : Nat) : Nat :=
  hash k % t.m_table_size

/-- `HashTable_Chaining::size`. -/
def size (t : Table) : Nat := t.m_number_of_elements

/-- `HashTable_Chaining::empty`. -/
def empty (t : Table) : Bool := t.m_number_of_elements == 0

/-- Appending one pair into its bucket of a bucket vector, as
`(*new_table)[index].push_back(par)` does. -/
def push_bucket (hash : Nat → Nat) (n : Nat) (tab : List Bucket) (p : Nat × Nat) :
    List Bucket :=
  let index := hash p.1 % n
  tab.set index (tab.getD index [] ++ [p])

/-- `HashTable_Chaining::rehash`: every pair of every bucket, in traversal
order, is pushed into the bucket of a fresh vector of `new_size` lists. -/
def rehash (hash : Nat → Nat) (new_size : Nat) (t : Table) : Table :=
  let new_table := (t.m_table.flatten).foldl (push_bucket hash new_size)
      (List.replicate new_size [])
  { t with m_table := new_table, m_table_size := new_size }

/-- The load-factor guard at the head of `add`:
`static_cast<float>(m_number_of_elements) / m_table_size > m_load_factor`,
as the exact rational comparison (exact in `float` on the ranges used). -/
def needs_rehash (t : Table) : Bool :=
  Rat.blt t.m_load_factor (mkRat t.m_number_of_elements t.m_table_size)

/-- Whether a bucket holds the key, as the bucket scans of the source do. -/
def bucket_contains (b : Bucket) (k : Nat) : Bool :=
  b.any (fun p => p.1 == k)

/-- The bucket scan and insertion of `add` (everything after its
load-factor guard): a duplicate key raises `HTC_AlreadyExistsException`,
otherwise the pair is appended and the element count incremented. -/
def add_core (hash : Nat → Nat) (k v : Nat) (t : Table) : Table × Option HTCError :=
  let index := hash_code hash t k
  let bucket := t.m_table.getD index []
  if bucket_contains bucket k then
    (t, some .alreadyExists)
  else
    ({ t with
        m_table := t.m_table.set index (bucket ++ [(k, v)])
        m_number_of_elements := t.m_number_of_elements + 1 }, none)

/-- `HashTable_Chaining::add`: rehashes to `m_table_size * 2` when the load
factor is exceeded, then runs the bucket scan and insertion. -/
def add (hash : Nat → Nat) (k v : Nat) (t : Table) : Table × Option HTCError :=
  add_core hash k v (if needs_rehash t then rehash hash (t.m_table_size * 2) t else t)

/-- `HashTable_Chaining::remove`.  Scans the key's bucket erasing every
matching entry and decrementing the element count per erasure, and then
unconditionally raises `HTC_KeyNotFoundException`. -/
def remove (hash : Nat → Nat) (k : Nat) (t : Table) : Table × Option HTCError :=
  let index := hash_code hash t k
  let bucket := t.m_table.getD index []
  let erased := bucket.countP (fun p => p.1 == k)
  ({ t with
      m_table := t.m_table.set index (bucket.filter (fun p => p.1 != k))
      m_number_of_elements := t.m_number_of_elements - erased },
   some .keyNotFound)

/-- `HashTable_Chaining::contains`. -/
def contains (hash : Nat → Nat) (k : Nat) (t : Table) : Bool :=
  bucket_contains (t.m_table.getD (hash_code hash t k) []) k

/-- `HashTable_Chaining::reserve`:
`if (m_number_of_elements > m_table_size * m_load_factor) rehash(n)`. -/
def reserve (hash : Nat → Nat) (n : Nat) (t : Table) : Table :=
  if Rat.blt (Rat.mul (mkRat t.m_table_size 1) t.m_load_factor)
      (mkRat t.m_number_of_elements 1) then
    rehash hash n t
  else t

/-- `HashTable_Chaining::load_factor(float lf)` (the setter): an out-of-range
factor raises `HTC_InvalidLoadFactorException`, otherwise the factor is
stored and `reserve(m_number_of_elements)` runs. -/
def set_load_factor (hash : Nat → Nat) (lf : ℚ) (t : Table) : Table × Option HTCError :=
  if !Rat.blt 0 lf || Rat.blt t.m_max_load_factor lf then
    (t, some .invalidLoadFactor)
  else
    (reserve hash t.m_number_of_elements { t with m_load_factor := lf }, none)

/-- Well-formedness of a reachable table: as many buckets as
`m_table_size`, a positive size, every pair sits in the bucket its hash
selects and is the only pair with its key there, and the element counter
counts the stored pairs. -/
def WF (hash : Nat → Nat) (t : Table) : Prop :=
  t.m_table.length = t.m_table_size ∧
  0 < t.m_table_size ∧
  (∀ i < t.m_table_size, ∀ p ∈ t.m_table.getD i [],
      hash p.1 % t.m_table_size = i ∧
      (t.m_table.getD i []).countP (fun q => q.1 == p.1) = 1) ∧
  t.m_number_of_elements = (t.m_table.map List.length).sum

instance (hash : Nat → Nat) (t : Table) : Decidable (WF hash t) := by
  unfold WF; infer_instance

/-- Driver loop: runs `add` over a list of pairs (per-call errors are
reported to the caller and ignored by the driver, as in the benchmark),
counting how many of the calls fired the load-factor guard — i.e. how many
called `rehash`. -/
def add_step (hash : Nat → Nat) (acc : Table × Nat) (p : Nat × Nat) : Table × Nat :=
  ((add hash p.1 p.2 acc.1).1, acc.2 + if needs_rehash acc.1 then 1 else 0)

/-- Folding `add_step` from a starting table with a zeroed rehash counter. -/
def add_all (hash : Nat → Nat) (ps : List (Nat × Nat)) (t : Table) : Table × Nat :=
  ps.foldl (add_step hash) (t, 0)

/-! ### Auxiliary lemmas -/

theorem getD_set_self {α : Type} (l : List α) (i : Nat) (a d : α) (h : i < l.length) :
    (l.set i a).getD i d = a := by
  simp [List.getD_eq_getElem?_getD, List.getElem?_set_self', List.getElem?_eq_getElem h]

theorem getD_set_ne {α : Type} (l : List α) (i j : Nat) (a d : α) (hne : i ≠ j) :
    (l.set i a).getD j d = l.getD j d := by
  simp [List.getD_eq_getElem?_getD, List.getElem?_set_ne hne]

theorem set_getD_self {α : Type} (l : List α) (i : Nat) (d : α) (_h : i < l.length) :
    l.set i (l.getD i d) = l := by
  apply List.ext_getElem
  · simp
  · intro n h1 h2
    rw [List.getElem_set]
    split
    · rename_i heq
      subst heq
      exact List.getD_eq_getElem l d h2
    · rfl

theorem bucket_contains_iff (b : Bucket) (k : Nat) :
    bucket_contains b k = true ↔ ∃ p ∈ b, p.1 = k := by
  simp [bucket_contains]

/-- Unfolding equations of `remove` (definitional). -/
theorem remove_elements (hash : Nat → Nat) (k : Nat) (t : Table) :
    (remove hash k t).1.m_number_of_elements
      = t.m_number_of_elements
        - (t.m_table.getD (hash_code hash t k) []).countP (fun p => p.1 == k) := rfl

theorem remove_table (hash : Nat → Nat) (k : Nat) (t : Table) :
    (remove hash k t).1.m_table
      = t.m_table.set (hash_code hash t k)
          ((t.m_table.getD (hash_code hash t k) []).filter (fun p => p.1 != k)) := rfl

theorem remove_table_size (hash : Nat → Nat) (k : Nat) (t : Table) :
    (remove hash k t).1.m_table_size = t.m_table_size := rfl

/-- Characterisation of `contains` on a well-formed table: the key is found
iff some stored pair carries it. -/
theorem contains_iff (hash : Nat → Nat) (k : Nat) (t : Table) (hWF : WF hash t) :
    contains hash k t = true ↔ ∃ p ∈ t.m_table.flatten, p.1 = k := by
  obtain ⟨hlen, hpos, hplace, -⟩ := hWF
  constructor
  · rintro hc
    rw [contains, bucket_contains_iff] at hc
    obtain ⟨p, hp, hpk⟩ := hc
    refine ⟨p, ?_, hpk⟩
    rw [List.mem_flatten]
    refine ⟨t.m_table.getD (hash_code hash t k) [], ?_, hp⟩
    have hlt : hash_code hash t k < t.m_table.length := by
      rw [hlen]; exact Nat.mod_lt _ hpos
    rw [List.getD_eq_getElem _ _ hlt]
    exact List.getElem_mem hlt
  · rintro ⟨p, hp, hpk⟩
    rw [List.mem_flatten] at hp
    obtain ⟨b, hb, hpb⟩ := hp
    obtain ⟨j, hj, rfl⟩ := List.getElem_of_mem hb
    have hjsz : j < t.m_table_size := hlen ▸ hj
    have hmem : p ∈ t.m_table.getD j [] := by
      rw [List.getD_eq_getElem _ _ hj]; exact hpb
    have hplace' := (hplace j hjsz p hmem).1
    rw [contains, bucket_contains_iff]
    refine ⟨p, ?_, hpk⟩
    have hji : hash_code hash t k = j := by
      rw [hash_code, ← hpk]; exact hplace'
    rw [hji, List.getD_eq_getElem _ _ hj]
    exact hpb

/-- On a well-formed table a present key occurs in its bucket exactly once. -/
theorem countP_bucket_eq_one (hash : Nat → Nat) (k : Nat) (t : Table) (hWF : WF hash t)
    (hc : contains hash k t = true) :
    (t.m_table.getD (hash_code hash t k) []).countP (fun p => p.1 == k) = 1 := by
  obtain ⟨hlen, hpos, hplace, -⟩ := hWF
  rw [contains, bucket_contains_iff] at hc
  obtain ⟨p, hp, hpk⟩ := hc
  have hi : hash_code hash t k < t.m_table_size := Nat.mod_lt _ hpos
  have := (hplace _ hi p hp).2
  simpa [hpk] using this

/-! ### C1: `remove` throws even after erasing -/

/-- **C1.** For every well-formed chained hash table and key `k`,
`remove(k)` signals `KeyNotFound` unconditionally; when `k` is present the
matching entry is nonetheless erased and `size()` is decremented by one
before the throw. -/
theorem remove_throws_even_after_erasing (hash : Nat → Nat) (k : Nat) (t : Table)
    (hWF : WF hash t) :
    (remove hash k t).2 = some HTCError.keyNotFound ∧
    (contains hash k t = true →
      contains hash k (remove hash k t).1 = false ∧
      size (remove hash k t).1 + 1 = size t) := by
  refine ⟨rfl, fun hc => ?_⟩
  have hcnt := countP_bucket_eq_one hash k t hWF hc
  obtain ⟨hlen, hpos, hplace, hsum⟩ := hWF
  have hi : hash_code hash t k < t.m_table.length := by
    rw [hlen]; exact Nat.mod_lt _ hpos
  constructor
  · have hcode : hash_code hash (remove hash k t).1 k = hash_code hash t k := rfl
    rw [contains, hcode, remove_table, getD_set_self _ _ _ _ hi]
    rw [Bool.eq_false_iff]
    intro hany
    rw [bucket_contains_iff] at hany
    obtain ⟨p, hp, hpk⟩ := hany
    rw [List.mem_filter] at hp
    have := hp.2
    simp [hpk] at this
  · rw [contains, bucket_contains_iff] at hc
    obtain ⟨p, hp, hpk⟩ := hc
    have hble : 1 ≤ (t.m_table.getD (hash_code hash t k) []).length := by
      cases h : t.m_table.getD (hash_code hash t k) [] with
      | nil => rw [h] at hp; simp at hp
      | cons a l => simp
    have hsz : 1 ≤ t.m_number_of_elements := by
      rw [hsum]
      calc 1 ≤ (t.m_table.getD (hash_code hash t k) []).length := hble
        _ ≤ (t.m_table.map List.length).sum := by
            apply List.single_le_sum (by simp)
            rw [List.mem_map]
            exact ⟨_, by rw [List.getD_eq_getElem _ _ hi]; exact List.getElem_mem hi, rfl⟩
    show (remove hash k t).1.m_number_of_elements + 1 = size t
    rw [remove_elements, hcnt]
    show t.m_number_of_elements - 1 + 1 = t.m_number_of_elements
    omega

/-! ### Rehash lemmas -/

theorem push_bucket_length (hash : Nat → Nat) (n : Nat) (tab : List Bucket) (p : Nat × Nat) :
    (push_bucket hash n tab p).length = tab.length := by
  simp [push_bucket]

theorem foldl_push_getD (hash : Nat → Nat) (n : Nat) (ps : List (Nat × Nat))
    (acc : List Bucket) (hacc : acc.length = n) (i : Nat) (hi : i < n) :
    (ps.foldl (push_bucket hash n) acc).getD i []
      = acc.getD i [] ++ ps.filter (fun p => hash p.1 % n == i) := by
  induction ps generalizing acc with
  | nil => simp
  | cons p ps ih =>
    rw [List.foldl_cons,
      ih (push_bucket hash n acc p) (by rw [push_bucket_length]; exact hacc)]
    by_cases hcase : hash p.1 % n = i
    · simp only [push_bucket, hcase, getD_set_self _ _ _ _ (by rw [hacc]; exact hi)]
      simp [List.filter_cons, hcase]
    · simp only [push_bucket, getD_set_ne _ _ _ _ _ hcase]
      simp [List.filter_cons, hcase]

theorem rehash_table_size (hash : Nat → Nat) (n : Nat) (t : Table) :
    (rehash hash n t).m_table_size = n := rfl

theorem rehash_elements (hash : Nat → Nat) (n : Nat) (t : Table) :
    (rehash hash n t).m_number_of_elements = t.m_number_of_elements := rfl

theorem rehash_bucket (hash : Nat → Nat) (n : Nat) (t : Table) (i : Nat) (hi : i < n) :
    (rehash hash n t).m_table.getD i []
      = t.m_table.flatten.filter (fun p => hash p.1 % n == i) := by
  show (t.m_table.flatten.foldl (push_bucket hash n) (List.replicate n [])).getD i [] = _
  rw [foldl_push_getD hash n _ _ (List.length_replicate _ _) i hi]
  simp [List.getD_eq_getElem?_getD, List.getElem?_replicate, hi]

/-- Rehashing preserves key membership: every key found before the rehash
is found after it, and vice versa. -/
theorem contains_rehash (hash : Nat → Nat) (n : Nat) (t : Table) (hn : 0 < n)
    (hWF : WF hash t) (k : Nat) :
    contains hash k (rehash hash n t) = contains hash k t := by
  have hi : hash k % n < n := Nat.mod_lt _ hn
  have hb := rehash_bucket hash n t (hash k % n) hi
  rw [Bool.eq_iff_iff]
  have hcode : hash_code hash (rehash hash n t) k = hash k % n := rfl
  rw [contains, hcode, hb, bucket_contains_iff, contains_iff hash k t hWF]
  constructor
  · rintro ⟨p, hp, hpk⟩
    exact ⟨p, (List.mem_filter.1 hp).1, hpk⟩
  · rintro ⟨p, hp, hpk⟩
    exact ⟨p, List.mem_filter.2 ⟨hp, by simp [hpk]⟩, hpk⟩

/-! ### `add` unfolding lemmas -/

theorem add_core_fst_of_dup (hash : Nat → Nat) (k v : Nat) (t : Table)
    (hs : bucket_contains (t.m_table.getD (hash_code hash t k) []) k = true) :
    add_core hash k v t = (t, some HTCError.alreadyExists) := by
  simp only [add_core, hs, if_true]

theorem add_core_table_size (hash : Nat → Nat) (k v : Nat) (t : Table) :
    (add_core hash k v t).1.m_table_size = t.m_table_size := by
  simp only [add_core]
  split <;> rfl

theorem add_core_fields (hash : Nat → Nat) (k v : Nat) (t : Table) :
    (add_core hash k v t).1.m_table_size = t.m_table_size ∧
    (add_core hash k v t).1.m_load_factor = t.m_load_factor ∧
    (add_core hash k v t).1.m_number_of_elements ≤ t.m_number_of_elements + 1 := by
  simp only [add_core]
  split
  · exact ⟨rfl, rfl, Nat.le_succ _⟩
  · exact ⟨rfl, rfl, Nat.le_refl _⟩

theorem add_core_err_iff (hash : Nat → Nat) (k v : Nat) (t : Table) :
    (add_core hash k v t).2 = some HTCError.alreadyExists ↔
      bucket_contains (t.m_table.getD (hash_code hash t k) []) k = true := by
  simp only [add_core]
  split
  · simp_all
  · simp_all

theorem add_err_iff_dup (hash : Nat → Nat) (k v : Nat) (t : Table) :
    (add hash k v t).2 = some HTCError.alreadyExists ↔
      bucket_contains
        (((if needs_rehash t then rehash hash (t.m_table_size * 2) t else t)).m_table.getD
          (hash_code hash (if needs_rehash t then rehash hash (t.m_table_size * 2) t else t) k)
          []) k = true := by
  rw [add]
  exact add_core_err_iff hash k v _

/-! ### C2: state after failed operations -/

/-- A small concrete table holding the single pair `(1, 2)`. -/
def sample_table : Table := (add id 1 2 (mk 19)).1

/-- Witness for `remove_throws_even_after_erasing` on a concrete table. -/
theorem remove_throws_even_after_erasing_witness :
    WF id sample_table ∧
    ((remove id 1 sample_table).2 = some HTCError.keyNotFound ∧
      (contains id 1 sample_table = true →
        contains id 1 (remove id 1 sample_table).1 = false ∧
        size (remove id 1 sample_table).1 + 1 = size sample_table)) :=
  ⟨by decide, remove_throws_even_after_erasing id 1 sample_table (by decide)⟩

/-- **C2 — counterexample.**  `remove` of the *present* key 1 signals
`KeyNotFound`, yet the element count drops from 1 to 0: the failing call
does not leave the container in its pre-call state, contradicting the claim
that `remove` leaves the table unchanged whenever it throws. -/
theorem remove_mutates_despite_throw :
    (remove id 1 sample_table).2 = some HTCError.keyNotFound ∧
    size sample_table = 1 ∧
    size (remove id 1 sample_table).1 = 0 := by
  decide

/-- **C2 (amended).**  The failure paths that do preserve state: `add` on a
duplicate key preserves `size()` and `contains` for every key (though it may
have grown the bucket array), `remove` on an *absent* key returns the table
unchanged together with its `KeyNotFound` error, and a `load_factor` call
rejected as `InvalidLoadFactor` returns the table unchanged.  (`remove` on a
present key, by contrast, erases the entry and decrements the count before
throwing — see the counterexample.) -/
theorem failed_ops_preserve_state (hash : Nat → Nat) (k v : Nat) (lf : ℚ) (t : Table)
    (hWF : WF hash t) :
    ((add hash k v t).2 = some HTCError.alreadyExists →
      size (add hash k v t).1 = size t ∧
      ∀ k', contains hash k' (add hash k v t).1 = contains hash k' t) ∧
    (contains hash k t = false → remove hash k t = (t, some HTCError.keyNotFound)) ∧
    ((set_load_factor hash lf t).2 = some HTCError.invalidLoadFactor →
      (set_load_factor hash lf t).1 = t) := by
  refine ⟨?_, ?_, ?_⟩
  · intro herr
    have hdup := (add_err_iff_dup hash k v t).1 herr
    have hfst : (add hash k v t).1
        = (if needs_rehash t then rehash hash (t.m_table_size * 2) t else t) := by
      rw [add, add_core_fst_of_dup _ _ _ _ hdup]
    rw [hfst]
    by_cases hg : needs_rehash t = true
    · rw [if_pos hg]
      have h2 : 0 < t.m_table_size * 2 := by have := hWF.2.1; omega
      exact ⟨rehash_elements _ _ _, fun k' => contains_rehash hash _ t h2 hWF k'⟩
    · rw [if_neg hg]
      exact ⟨rfl, fun _ => rfl⟩
  · intro hc
    have hi : hash_code hash t k < t.m_table.length := by
      rw [hWF.1]; exact Nat.mod_lt _ hWF.2.1
    have hbk : ∀ p ∈ t.m_table.getD (hash_code hash t k) [], (p.1 == k) = false := by
      intro p hp
      rw [Bool.eq_false_iff]
      intro hpk
      have hct : contains hash k t = true := by
        rw [contains, bucket_contains_iff]
        exact ⟨p, hp, by simpa using hpk⟩
      rw [hct] at hc
      cases hc
    have hcnt : (t.m_table.getD (hash_code hash t k) []).countP (fun p => p.1 == k) = 0 :=
      List.countP_eq_zero.2 (fun p hp => by rw [hbk p hp]; simp)
    have hfil : (t.m_table.getD (hash_code hash t k) []).filter (fun p => p.1 != k)
        = t.m_table.getD (hash_code hash t k) [] :=
      List.filter_eq_self.2 (fun p hp => by rw [bne, hbk p hp]; rfl)
    simp only [remove, hfil, hcnt, set_getD_self _ _ _ hi, Nat.sub_zero]
  · intro herr
    by_cases hcond : (!Rat.blt 0 lf || Rat.blt t.m_max_load_factor lf) = true
    · simp only [set_load_factor, hcond, if_true]
    · exfalso
      rw [set_load_factor, if_neg hcond] at herr
      exact Option.noConfusion herr

/-- A concrete instance of the amended preservation law: on the well-formed
one-element table `{1 ↦ 2}`, removing the absent key 5 returns the table
unchanged along with `KeyNotFound`. -/
theorem failed_ops_preserve_state_witness :
    WF id sample_table ∧
    remove id 5 sample_table = (sample_table, some HTCError.keyNotFound) :=
  ⟨by decide,
    (failed_ops_preserve_state id 5 0 (mkRat 2 1) sample_table (by decide)).2.1
      (by decide)⟩

/-! ### C3 and C4: rehash scenarios -/

/-- Inserting the pairs `(0,0) … (14,14)` into a fresh table. -/
def keys15 : List (Nat × Nat) := (List.range 15).map fun i => (i, i)

def run15 : Table × Nat := add_all id keys15 (mk 19)

/-- Inserting the pairs `(0,0) … (15,15)` into a fresh table. -/
def keys16 : List (Nat × Nat) := (List.range 16).map fun i => (i, i)

def run16 : Table × Nat := add_all id keys16 (mk 19)

/-- **C3 — counterexample.**  Driving a fresh size-19 table with 16 inserts
fires the load-factor guard exactly once, and the table size after that
rehash is `38 = 2 · 19` — not a prime, and not the next prime ≥ 38 (41):
`add` calls `rehash(m_table_size * 2)` without rounding up to a prime. -/
theorem rehash_size_not_prime :
    run16.2 = 1 ∧ run16.1.m_table_size = 38 ∧ ¬ Nat.Prime 38 ∧ get_next_prime 38 = 41 :=
  ⟨by decide, by decide, by norm_num, by decide⟩

/-- **C3 (amended).**  After the load-factor-triggered rehash inside `add`,
every previously inserted and not-yet-removed key is still found by
`contains`, and the new table size is exactly twice the previous size (the
doubling is not rounded up to a prime; `get_next_prime` is applied only to
the constructor argument). -/
theorem rehash_on_add_preserves_contains (hash : Nat → Nat) (k v : Nat) (t : Table)
    (hWF : WF hash t) (hfire : needs_rehash t = true) :
    (∀ k', contains hash k' (rehash hash (t.m_table_size * 2) t) = contains hash k' t) ∧
    (rehash hash (t.m_table_size * 2) t).m_table_size = t.m_table_size * 2 ∧
    (add hash k v t).1.m_table_size = t.m_table_size * 2 := by
  have h2 : 0 < t.m_table_size * 2 := by have := hWF.2.1; omega
  refine ⟨fun k' => contains_rehash hash _ t h2 hWF k', rfl, ?_⟩
  rw [add, if_pos hfire, add_core_table_size, rehash_table_size]

/-- Witness for `rehash_on_add_preserves_contains`: the table produced by 15
inserts into a fresh size-19 table is well-formed and has the guard fired. -/
theorem rehash_on_add_preserves_contains_witness :
    (WF id run15.1 ∧ needs_rehash run15.1 = true) ∧
    ((∀ k', contains id k' (rehash id (run15.1.m_table_size * 2) run15.1)
        = contains id k' run15.1) ∧
      (rehash id (run15.1.m_table_size * 2) run15.1).m_table_size
        = run15.1.m_table_size * 2 ∧
      (add id 99 0 run15.1).1.m_table_size = run15.1.m_table_size * 2) :=
  ⟨⟨by decide, by decide⟩,
    rehash_on_add_preserves_contains id 99 0 run15.1 (by decide) (by decide)⟩

/-- The load-factor guard of a fresh-constructed (size 19, factor 0.75)
table fires exactly when at least 15 elements are stored. -/
theorem needs_rehash_iff_19 (t : Table) (hsz : t.m_table_size = 19)
    (hlf : t.m_load_factor = mkRat 3 4) :
    needs_rehash t = true ↔ 15 ≤ t.m_number_of_elements := by
  rw [needs_rehash, hsz, hlf]
  rw [show (Rat.blt (mkRat 3 4) (mkRat t.m_number_of_elements 19) = true)
      ↔ (mkRat 3 4 < mkRat t.m_number_of_elements 19) from Iff.rfl]
  rw [Rat.mkRat_eq_div, Rat.mkRat_eq_div]
  rw [div_lt_div_iff₀ (by norm_num) (by norm_num)]
  push_cast
  constructor
  · intro h
    by_contra hc
    push_neg at hc
    interval_cases hn : t.m_number_of_elements <;> norm_num at h
  · intro h
    have h' : (15 : ℚ) ≤ (t.m_number_of_elements : ℚ) := by exact_mod_cast h
    nlinarith

theorem add_no_fire_fields (hash : Nat → Nat) (k v : Nat) (t : Table)
    (hg : needs_rehash t = false) :
    (add hash k v t).1.m_table_size = t.m_table_size ∧
    (add hash k v t).1.m_load_factor = t.m_load_factor ∧
    (add hash k v t).1.m_number_of_elements ≤ t.m_number_of_elements + 1 := by
  rw [add, if_neg (by simp [hg])]
  exact add_core_fields hash k v t

/-- Main induction for C4: as long as at most 15 adds have been issued on a
fresh size-19 table, the guard never fires and the table size stays 19. -/
theorem add_all_aux_no_fire (hash : Nat → Nat) (ps : List (Nat × Nat)) :
    ∀ (t : Table) (c : Nat), t.m_table_size = 19 → t.m_load_factor = mkRat 3 4 →
      t.m_number_of_elements + ps.length ≤ 15 →
      (ps.foldl (add_step hash) (t, c)).2 = c ∧
      (ps.foldl (add_step hash) (t, c)).1.m_table_size = 19 := by
  induction ps with
  | nil => exact fun t c hsz _ _ => ⟨rfl, hsz⟩
  | cons p ps ih =>
    intro t c hsz hlf hel
    have hg : needs_rehash t = false := by
      rw [Bool.eq_false_iff, Ne, needs_rehash_iff_19 t hsz hlf]
      simp only [List.length_cons] at hel
      omega
    obtain ⟨h1, h2, h3⟩ := add_no_fire_fields hash p.1 p.2 t hg
    rw [List.foldl_cons]
    have hstep : add_step hash (t, c) p = ((add hash p.1 p.2 t).1, c) := by
      rw [add_step, hg]
      simp
    rw [hstep]
    apply ih
    · rw [h1, hsz]
    · rw [h2, hlf]
    · simp only [List.length_cons] at hel
      omega

/-- **C4 (amended).**  From a fresh table (constructor argument 19, load
factor 0.75), any sequence of at most 15 `add` calls fires the load-factor
guard zero times — in particular, inserting 15 distinct keys triggers *no*
rehash (the guard compares the pre-call count, `14/19 < 0.75`) and leaves
the table size at 19 — whereas one further `add` issued with 15 elements
stored fires the guard and rehashes to size `38 = 2 · 19`, not to the next
prime ≥ 38 (which is 41). -/
theorem fifteen_inserts_no_rehash (hash : Nat → Nat) (ps : List (Nat × Nat))
    (hlen : ps.length ≤ 15) (k v : Nat) (t : Table)
    (hsz : t.m_table_size = 19) (hlf : t.m_load_factor = mkRat 3 4)
    (hel : t.m_number_of_elements = 15) :
    (add_all hash ps (mk 19)).2 = 0 ∧
    (add_all hash ps (mk 19)).1.m_table_size = 19 ∧
    needs_rehash t = true ∧
    (add hash k v t).1.m_table_size = 38 ∧
    get_next_prime 38 = 41 := by
  have hmk : (mk 19).m_table_size = 19 := by decide
  have hfire : needs_rehash t = true := by
    rw [needs_rehash_iff_19 t hsz hlf, hel]
  have haux := add_all_aux_no_fire hash ps (mk 19) 0 hmk rfl
    (by show 0 + ps.length ≤ 15; omega)
  refine ⟨haux.1, haux.2, hfire, ?_, by decide⟩
  rw [add, if_pos hfire, add_core_table_size, rehash_table_size, hsz]

/-- Witness for `fifteen_inserts_no_rehash`, instantiated with the pairs
`(0,0) … (14,14)` and the table they produce. -/
theorem fifteen_inserts_no_rehash_witness :
    (keys15.length ≤ 15 ∧ run15.1.m_table_size = 19 ∧
      run15.1.m_load_factor = mkRat 3 4 ∧ run15.1.m_number_of_elements = 15) ∧
    ((add_all id keys15 (mk 19)).2 = 0 ∧
      (add_all id keys15 (mk 19)).1.m_table_size = 19 ∧
      needs_rehash run15.1 = true ∧
      (add id 99 0 run15.1).1.m_table_size = 38 ∧
      get_next_prime 38 = 41) :=
  ⟨⟨by decide, by decide, by decide, by decide⟩,
    fifteen_inserts_no_rehash id keys15 (by decide) 99 0 run15.1
      (by decide) (by decide) (by decide)⟩

/-- **C4 — counterexample.**  Inserting the 15 distinct keys `0 … 14` into a
fresh size-19 table triggers *zero* rehashes (not one), and the table size
stays 19 (not the next prime ≥ 38). -/
theorem fifteen_inserts_cx :
    run15.2 = 0 ∧ run15.1.m_table_size = 19 := by
  decide

end HashTable_Chaining

namespace RBTree

/-- Node colors. -/
inductive Color where
  | RED
  | BLACK
deriving Repr, DecidableEq

/-- A red-black subtree.  `nilS` is the shared BLACK sentinel `_NIL`; its
children and parent read as itself in the C++ code, which the operations
below reproduce wherever they dereference it. -/
inductive RBT where
  | nilS
  | node (color : Color) (key value : Nat) (left right : RBT)
deriving Repr, DecidableEq

open Color RBT

/-- Which child a node hangs on. -/
inductive Dir where
  | left
  | right
deriving Repr, DecidableEq

/-- One step of parent context: the hole is the `dir` child of a node with
this color/key/value whose other child is `other`.  A list of frames
(innermost first) models the parent pointers of the C++ nodes. -/
structure Frame where
  dir : Dir
  color : Color
  key : Nat
  value : Nat
  other : RBT
deriving Repr, DecidableEq

abbrev Path := List Frame

/-- Rebuilding the whole tree from a subtree and its context. -/
def plug : RBT → Path → RBT
  | t, [] => t
  | t, ⟨Dir.left, c, k, v, sib⟩ :: p => plug (node c k v t sib) p
  | t, ⟨Dir.right, c, k, v, sib⟩ :: p => plug (node c k v sib t) p

/-- `_root->color = BLACK` (a no-op on the sentinel, which is black). -/
def blacken : RBT → RBT
  | nilS => nilS
  | node _ k v l r => node BLACK k v l r

/-- `node->color = RED` (never applied to the sentinel on the executions
modelled here). -/
def redden : RBT → RBT
  | nilS => nilS
  | node _ k v l r => node RED k v l r

def isRed : RBT → Bool
  | node RED _ _ _ _ => true
  | _ => false

/-- `node->left`; reading the sentinel's left child yields the sentinel. -/
def leftOf : RBT → RBT
  | nilS => nilS
  | node _ _ _ l _ => l

/-- `node->right`; reading the sentinel's right child yields the sentinel. -/
def rightOf : RBT → RBT
  | nilS => nilS
  | node _ _ _ _ r => r

/-- Reattaching a subtree under its parent frame, with a chosen color for
the parent. -/
def assemble (f : Frame) (c : Color) (t : RBT) : RBT :=
  match f.dir with
  | .left => node c f.key f.value t f.other
  | .right => node c f.key f.value f.other t

/-- The descent loop of `RBTree::insert`: walks to the insertion point
collecting the parent context; finding the key raises
`RB_AlreadyExistsException` (`none`). -/
def descend : RBT → Nat → Path → Option Path
  | nilS, _, p => some p
  | node c nk nv l r, k, p =>
    if k = nk then none
    else if k < nk then descend l k (⟨.left, c, nk, nv, r⟩ :: p)
    else descend r k (⟨.right, c, nk, nv, l⟩ :: p)

/-- `RBTree::_insert_fixup`, one loop iteration per call.  The state is the
subtree rooted at `z` together with its context.  The uncle-red case
recolors and moves `z` two levels up; the uncle-black cases perform the one
or two rotations of the source and terminate (after them `z`'s parent is
black, so the loop exits); in every exit the root of the whole tree is
blackened (`_root->color = BLACK`).  The two `unreachable` branches (a red
parent at the root; `z` the sentinel) correspond to states the C++ can only
reach by dereferencing the sentinel, and never arise from the public API. -/
def insert_fixup : RBT → Path → RBT
  | z, [] => blacken z
  | z, f1 :: rest =>
    if f1.color ≠ RED then blacken (plug z (f1 :: rest))
    else match rest with
    | [] => blacken (plug z [f1])  -- unreachable: a red parent is never the root
    | f2 :: rest2 =>
      match f2.dir with
      | .left =>
        if isRed f2.other then
          insert_fixup
            (node RED f2.key f2.value (assemble f1 BLACK z) (blacken f2.other)) rest2
        else
          match f1.dir with
          | .left =>
            blacken (plug (node BLACK f1.key f1.value z
              (node RED f2.key f2.value f1.other f2.other)) rest2)
          | .right =>
            match z with
            | nilS => blacken (plug z (f1 :: rest))  -- unreachable: z is a node
            | node _zc zk zv zl zr =>
              blacken (plug (node BLACK zk zv
                (node f1.color f1.key f1.value f1.other zl)
                (node RED f2.key f2.value zr f2.other)) rest2)
      | .right =>
        if isRed f2.other then
          insert_fixup
            (node RED f2.key f2.value (blacken f2.other) (assemble f1 BLACK z)) rest2
        else
          match f1.dir with
          | .right =>
            blacken (plug (node BLACK f1.key f1.value
              (node RED f2.key f2.value f2.other f1.other) z) rest2)
          | .left =>
            match z with
            | nilS => blacken (plug z (f1 :: rest))  -- unreachable: z is a node
            | node _zc zk zv zl zr =>
              blacken (plug (node BLACK zk zv
                (node RED f2.key f2.value f2.other zl)
                (node f1.color f1.key f1.value zr f1.other)) rest2)

/-- The `RBTree` object: root pointer and element counter. -/
structure TreeState where
  m_size : Nat
  root : RBT
deriving Repr, DecidableEq

/-- Exceptions of `RBTreeExceptions.hpp`. -/
inductive RBError where
  | alreadyExists
  | valueNotFound
deriving Repr, DecidableEq

/-- `RBTree::RBTree()`. -/
def mkTree : TreeState := ⟨0, nilS⟩

/-- `RBTree::insert`: descend, throw `RB_AlreadyExistsException` on a
duplicate key, otherwise attach a new RED leaf, fix up, and increment the
counter. -/
def insert (s : TreeState) (k v : Nat) : TreeState × Option RBError :=
  match descend s.root k [] with
  | none => (s, some .alreadyExists)
  | some path =>
      ({ m_size := s.m_size + 1, root := insert_fixup (node RED k v nilS nilS) path }, none)

/-- `RBTree::_remove_fixup`, one loop iteration per call.  `x` carries the
missing blackness; `f :: rest` is its context.  The red-sibling case
rotates and then runs the rest of the same loop body against the new
sibling (after which every branch of the body terminates, because the
parent has become red).  Exits blacken `x` in place (`x->color = BLACK`);
the both-children-black case pushes the problem one level up. -/
def fixup_case4_left (x : RBT) (pc : Color) (pk pv : Nat) (w : RBT) (rest : Path) : RBT :=
  let w' := if ¬ isRed (rightOf w) then
      match w with
      | node _ wk wv (node _ wlk wlv wll wlr) wr =>
          node BLACK wlk wlv wll (node RED wk wv wlr wr)
      | w => w  -- unreachable: case 3 needs a red left nephew
    else w
  match w' with
  | node _ wk wv wl wr =>
      blacken (plug (node pc wk wv (node BLACK pk pv x wl) (blacken wr)) rest)
  | nilS => blacken (plug (node pc pk pv x nilS) rest)  -- unreachable: sibling is a node

def fixup_case4_right (x : RBT) (pc : Color) (pk pv : Nat) (w : RBT) (rest : Path) : RBT :=
  let w' := if ¬ isRed (leftOf w) then
      match w with
      | node _ wk wv wl (node _ wrk wrv wrl wrr) =>
          node BLACK wrk wrv (node RED wk wv wl wrl) wrr
      | w => w  -- unreachable: case 3 needs a red right nephew
    else w
  match w' with
  | node _ wk wv wl wr =>
      blacken (plug (node pc wk wv (blacken wl) (node BLACK pk pv wr x)) rest)
  | nilS => blacken (plug (node pc pk pv nilS x) rest)  -- unreachable: sibling is a node

def delete_fixup : RBT → Path → RBT
  | x, [] => blacken x
  | x, f :: rest =>
    if isRed x then plug (blacken x) (f :: rest)
    else match f.dir with
    | .left =>
      match f.other with
      | node RED wk wv wl wr =>
        let rest' : Path := ⟨.left, BLACK, wk, wv, wr⟩ :: rest
        if ¬ isRed (leftOf wl) ∧ ¬ isRed (rightOf wl) then
          plug (blacken (node RED f.key f.value x (redden wl))) rest'
        else
          fixup_case4_left x RED f.key f.value wl rest'
      | w =>
        if ¬ isRed (leftOf w) ∧ ¬ isRed (rightOf w) then
          delete_fixup (node f.color f.key f.value x (redden w)) rest
        else
          fixup_case4_left x f.color f.key f.value w rest
    | .right =>
      match f.other with
      | node RED wk wv wl wr =>
        let rest' : Path := ⟨.right, BLACK, wk, wv, wl⟩ :: rest
        if ¬ isRed (rightOf wr) ∧ ¬ isRed (leftOf wr) then
          plug (blacken (node RED f.key f.value (redden wr) x)) rest'
        else
          fixup_case4_right x RED f.key f.value wr rest'
      | w =>
        if ¬ isRed (rightOf w) ∧ ¬ isRed (leftOf w) then
          delete_fixup (node f.color f.key f.value (redden w) x) rest
        else
          fixup_case4_right x f.color f.key f.value w rest

/-- Descent to the leftmost node of a subtree, recording the context
(`_minimum` with the parent pointers it implies). -/
def splice_min : RBT → Path → Option (Color × Nat × Nat × RBT × Path)
  | nilS, _ => none  -- unreachable: called on a node
  | node c k v nilS r, p => some (c, k, v, r, p)
  | node c k v (node lc lk lv ll lr) r, p =>
      splice_min (node lc lk lv ll lr) (⟨.left, c, k, v, r⟩ :: p)

/-- Modelled from the spec: `RBTree::_remove(NodePtr z)` is declared and
called in `RBTree.hpp` but its body is not among the provided sources; §4.2
of the specification describes it (matching the older `_rb_delete` of
`includes/RBTree.h`): if `z` has at most one non-sentinel child it is
spliced out directly, otherwise its in-order successor is spliced out and
the successor's key/value are copied into `z`'s slot; if the spliced-out
node was BLACK, the delete fixup runs on the node that took its place. -/
def rb_delete (z : RBT) (path : Path) : RBT :=
  match z with
  | nilS => plug nilS path  -- unreachable: the caller checked z != NIL
  | node zc _zk _zv zl zr =>
    match zl, zr with
    | nilS, x =>
        if zc = BLACK then delete_fixup x path else plug x path
    | node lc lk lv ll lr, nilS =>
        if zc = BLACK then delete_fixup (node lc lk lv ll lr) path
        else plug (node lc lk lv ll lr) path
    | node lc lk lv ll lr, node rc rk rv rl rr =>
      match splice_min (node rc rk rv rl rr) [] with
      | none => plug z path  -- unreachable
      | some (yc, yk, yv, x, p2) =>
        let fullpath : Path :=
          p2 ++ ⟨.right, zc, yk, yv, node lc lk lv ll lr⟩ :: path
        if yc = BLACK then delete_fixup x fullpath else plug x fullpath

/-- The search loop of `RBTree::remove`, recording the context. -/
def find_path : RBT → Nat → Path → Option (RBT × Path)
  | nilS, _, _ => none
  | node c nk nv l r, k, p =>
    if k = nk then some (node c nk nv l r, p)
    else if k < nk then find_path l k (⟨.left, c, nk, nv, r⟩ :: p)
    else find_path r k (⟨.right, c, nk, nv, l⟩ :: p)

/-- `RBTree::remove`: searches for the key; when found, `_remove(z)` runs
and the counter is decremented; when absent, the function silently returns
— no exception is raised on any path (despite the doc comment promising
one). -/
def remove (s : TreeState) (k : Nat) : TreeState × Option RBError :=
  match find_path s.root k [] with
  | none => (s, none)
  | some (z, p) => ({ m_size := s.m_size - 1, root := rb_delete z p }, none)

/-- `RBTree::_search`. -/
def _search : RBT → Nat → Option (Nat × Nat)
  | nilS, _ => none
  | node _ nk nv l r, k =>
    if nk = k then some (nk, nv)
    else if k < nk then _search l k
    else _search r k

/-- `RBTree::contains`. -/
def contains (s : TreeState) (k : Nat) : Bool :=
  (_search s.root k).isSome

/-- `RBTree::search` (`RB_ValueNotFoundException` on an absent key). -/
def search (s : TreeState) (k : Nat) : Option Nat :=
  (_search s.root k).map Prod.snd

/-- `RBTree::size`. -/
def size (s : TreeState) : Nat := s.m_size

/-- `RBTree::clear`: frees the subtree and resets `_root` to the sentinel —
without touching `m_size`. -/
def clear (s : TreeState) : TreeState :=
  { s with root := nilS }

/-! ### The parent-pointer iterator -/

/-- In-order contents. -/
def inorder : RBT → List (Nat × Nat)
  | nilS => []
  | node _ k v l r => inorder l ++ (k, v) :: inorder r

/-- In-order key sequence. -/
def keysR (t : RBT) : List Nat := (inorder t).map Prod.fst

/-- The binary-search-tree ordering invariant. -/
def BSTR : RBT → Prop
  | nilS => True
  | node _ k _ l r =>
      (∀ x ∈ keysR l, x < k) ∧ (∀ x ∈ keysR r, k < x) ∧ BSTR l ∧ BSTR r

instance : ∀ t : RBT, Decidable (BSTR t)
  | nilS => .isTrue trivial
  | node _ _ _ l r =>
      have := instDecidableBSTR l
      have := instDecidableBSTR r
      inferInstanceAs (Decidable (_ ∧ _))

/-- `_minimum` keeping the context: a node pointer is a subtree plus the
path of parents. -/
def min_loc : RBT → Path → RBT × Path
  | node c k v (node lc lk lv ll lr) r, p =>
      min_loc (node lc lk lv ll lr) (⟨.left, c, k, v, r⟩ :: p)
  | t, p => (t, p)

/-- `RBTree::begin()`: the minimum of the tree, or `end()` (`none`) when
the tree is empty. -/
def rb_begin (root : RBT) : Option (RBT × Path) :=
  match root with
  | nilS => none
  | t => some (min_loc t [])

/-- The ancestor climb of `operator++`: while the current node is its
parent's right child, move up; then step to that parent (or `end()`). -/
def climb : RBT → Path → Option (RBT × Path)
  | t, ⟨.right, c, k, v, sib⟩ :: rest => climb (node c k v sib t) rest
  | t, ⟨.left, c, k, v, sib⟩ :: rest => some (node c k v t sib, rest)
  | _, [] => none

/-- `RBTreeIterator::operator++`: minimum of the right subtree when there
is one, otherwise the ancestor climb. -/
def rb_next : RBT × Path → Option (RBT × Path)
  | (node c k v l (node rc rk rv rl rr), p) =>
      some (min_loc (node rc rk rv rl rr) (⟨.right, c, k, v, l⟩ :: p))
  | (t, p) => climb t p

/-- Dereference-and-increment until `end()`. -/
def rb_list : Nat → Option (RBT × Path) → List (Nat × Nat)
  | 0, _ => []
  | _ + 1, none => []
  | fuel + 1, some (t, p) =>
    match t with
    | nilS => []  -- unreachable: `current` is never the sentinel before `end()`
    | node _ k v _ _ => (k, v) :: rb_list fuel (rb_next (t, p))

/-- The full `begin()`-to-`end()` walk of an `RBTree` object. -/
def iterate (s : TreeState) : List (Nat × Nat) :=
  rb_list ((inorder s.root).length + 1) (rb_begin s.root)

/-! ### The red-black invariants -/

/-- No RED node has a RED child. -/
def noRedRed : RBT → Prop
  | nilS => True
  | node c _ _ l r =>
      (c = RED → isRed l = false ∧ isRed r = false) ∧ noRedRed l ∧ noRedRed r

instance : ∀ t : RBT, Decidable (noRedRed t)
  | nilS => .isTrue trivial
  | node _ _ _ l r =>
      have := instDecidableNoRedRed l
      have := instDecidableNoRedRed r
      inferInstanceAs (Decidable (_ ∧ _))

/-- The number of BLACK nodes on each root-to-sentinel path (one entry per
sentinel leaf, in left-to-right order). -/
def bcounts : RBT → List Nat
  | nilS => [0]
  | node c _ _ l r =>
      (bcounts l ++ bcounts r).map (fun x => x + (if c = BLACK then 1 else 0))

/-- One dictionary operation on the `RBTree` object. -/
inductive OpR where
  | ins (k v : Nat)
  | del (k : Nat)

/-- Applying an operation (a raised exception leaves the object in the
state it reached, per the C++ semantics). -/
def applyOpR (s : TreeState) : OpR → TreeState
  | .ins k v => (insert s k v).1
  | .del k => (remove s k).1

/-- Running a sequence of operations on a freshly constructed tree. -/
def runOpsR (ops : List OpR) : TreeState := ops.foldl applyOpR mkTree

end RBTree

section RBScratch
open RBTree RBTree.Color RBTree.RBT

def insKs (s : RBTree.TreeState) (ks : List Nat) : RBTree.TreeState :=
  ks.foldl (fun s k => (RBTree.insert s k k).1) s

def delKs (s : RBTree.TreeState) (ks : List Nat) : RBTree.TreeState :=
  ks.foldl (fun s k => (RBTree.remove s k).1) s

def rbChk (s : RBTree.TreeState) : Prop :=
  isRed s.root = false ∧ RBTree.noRedRed s.root ∧
    (RBTree.bcounts s.root).Pairwise (fun a b => a = b) ∧ RBTree.BSTR s.root

instance (s : RBTree.TreeState) : Decidable (rbChk s) :=
  inferInstanceAs (Decidable (_ ∧ _))

example : rbChk (insKs RBTree.mkTree [0,1,2,3,4,5,6,7,8,9]) := by decide
example : rbChk (insKs RBTree.mkTree [9,8,7,6,5,4,3,2,1,0]) := by decide
example : rbChk (insKs RBTree.mkTree [5,2,8,1,3,7,9,0,4,6]) := by decide
example : RBTree.iterate (insKs RBTree.mkTree [5,2,8,1,3,7,9,0,4,6]) =
    [(0,0),(1,1),(2,2),(3,3),(4,4),(5,5),(6,6),(7,7),(8,8),(9,9)] := by decide
example : (insKs RBTree.mkTree [5,2,8]).m_size = 3 := by decide
example : (RBTree.insert (insKs RBTree.mkTree [5,2,8]) 2 99) =
    (insKs RBTree.mkTree [5,2,8], some .alreadyExists) := by decide
example : rbChk (delKs (insKs RBTree.mkTree [5,2,8,1,3,7,9,0,4,6]) [5]) := by decide
example : rbChk (delKs (insKs RBTree.mkTree [5,2,8,1,3,7,9,0,4,6]) [0,9,5,2]) := by decide
example : RBTree.iterate (delKs (insKs RBTree.mkTree [5,2,8,1,3,7,9,0,4,6]) [0,9,5,2]) =
    [(1,1),(3,3),(4,4),(6,6),(7,7),(8,8)] := by decide
example : rbChk (delKs (insKs RBTree.mkTree [5,2,8,1,3,7,9,0,4,6])
    [1,2,3,4,5,6,7,8,9,0]) := by decide
example : (delKs (insKs RBTree.mkTree [5,2,8,1,3,7,9,0,4,6])
    [1,2,3,4,5,6,7,8,9,0]).root = nilS := by decide
example : rbChk (delKs (insKs RBTree.mkTree [0,1,2,3,4,5,6,7,8,9]) [9,0,4,7,2]) := by decide
example : RBTree.iterate (delKs (insKs RBTree.mkTree [0,1,2,3,4,5,6,7,8,9]) [9,0,4,7,2]) =
    [(1,1),(3,3),(5,5),(6,6),(8,8)] := by decide
example : rbChk (delKs (insKs RBTree.mkTree [9,8,7,6,5,4,3,2,1,0]) [3,6,9,1]) := by decide
example : RBTree.contains (delKs (insKs RBTree.mkTree [9,8,7,6,5,4,3,2,1,0]) [3,6,9,1]) 3
    = false := by decide
example : RBTree.contains (delKs (insKs RBTree.mkTree [9,8,7,6,5,4,3,2,1,0]) [3,6,9,1]) 4
    = true := by decide
example : RBTree.remove (insKs RBTree.mkTree [5,2,8]) 7 =
    (insKs RBTree.mkTree [5,2,8], none) := by decide
example : rbChk (insKs (delKs (insKs RBTree.mkTree [3,1,4,1,5,9,2,6]) [4,9,3]) [7,0,8,3]) := by
  decide
example : RBTree.iterate (insKs (delKs (insKs RBTree.mkTree [3,1,4,1,5,9,2,6]) [4,9,3])
    [7,0,8,3]) = [(0,0),(1,1),(2,2),(3,3),(5,5),(6,6),(7,7),(8,8)] := by decide

end RBScratch

section HTCScratch
open HashTable_Chaining

example : get_next_prime 19 = 19 := by decide
example : get_next_prime 38 = 41 := by decide
example : (mk 19).m_table_size = 19 := by decide
example : needs_rehash { mk 19 with m_number_of_elements := 14 } = false := by decide
example : needs_rehash { mk 19 with m_number_of_elements := 15 } = true := by decide
example : (add id 1 2 (mk 3)).2 = none := by decide
example : contains id 1 (add id 1 2 (mk 3)).1 = true := by decide
example : WF id (add id 1 2 (mk 3)).1 := by decide

end HTCScratch

namespace AVLTree

/-- `AVLNode`: key, value, left/right child, stored height (1 for a fresh
leaf; a null pointer reads as height 0). -/
inductive AVLNode where
  | nil
  | node (key value : Nat) (left right : AVLNode) (height : Nat)
deriving Repr, DecidableEq

open AVLNode

/-- `AVLTree::_height`: `node ? node->height : 0`. -/
def _height : AVLNode → Nat
  | nil => 0
  | node _ _ _ _ h => h

/-- `AVLTree::_balance`: `_height(node->right) - _height(node->left)`
(only ever called on a non-null node; the `nil` case is a placeholder for
the dereference that cannot happen on the executions modelled here). -/
def _balance : AVLNode → Int
  | nil => 0
  | node _ _ l r _ => (_height r : Int) - (_height l : Int)

/-- The key of a non-null node (the `nil` case is a placeholder for a
dereference that cannot happen under the tree invariants). -/
def nodeKey : AVLNode → Nat
  | nil => 0
  | node k _ _ _ _ => k

/-- `AVLTree::_rotateLeft`: `q = p->right; p->right = q->left; q->left = p`
followed by the two height recomputations, in source order. -/
def _rotateLeft : AVLNode → AVLNode
  | node pk pv pl (node qk qv ql qr _) _ =>
      let p' := node pk pv pl ql (1 + max (_height pl) (_height ql))
      node qk qv p' qr (1 + max (_height p') (_height qr))
  | t => t

/-- `AVLTree::_rotateRight`: mirror image of `_rotateLeft`. -/
def _rotateRight : AVLNode → AVLNode
  | node pk pv (node qk qv ql qr _) pr _ =>
      let p' := node pk pv qr pr (1 + max (_height qr) (_height pr))
      node qk qv ql p' (1 + max (_height ql) (_height p'))
  | t => t

/-- `AVLTree::_fixup_node`: recompute the height, read the balance factor,
and apply one of the four insertion rotation cases selected by comparing
the inserted key against the child key. -/
def _fixup_node (t : AVLNode) (k : Nat) : AVLNode :=
  match t with
  | nil => nil
  | node nk nv l r _ =>
    let h' := 1 + max (_height l) (_height r)
    let bal : Int := (_height r : Int) - (_height l : Int)
    if bal < -1 ∧ k < nodeKey l then
      _rotateRight (node nk nv l r h')
    else if bal < -1 ∧ nodeKey l < k then
      _rotateRight (node nk nv (_rotateLeft l) r h')
    else if bal > 1 ∧ nodeKey r < k then
      _rotateLeft (node nk nv l r h')
    else if bal > 1 ∧ k < nodeKey r then
      _rotateLeft (node nk nv l (_rotateRight r) h')
    else
      node nk nv l r h'

/-- `AVLTree::_insert` (recursive).  The returned Boolean records whether a
new node was created, i.e. whether the C++ code executed `++_size`. -/
def _insert (t : AVLNode) (k v : Nat) : AVLNode × Bool :=
  match t with
  | nil => (node k v nil nil 1, true)
  | node nk nv l r h =>
    if k = nk then (node nk nv l r h, false)
    else if k < nk then
      let res := _insert l k v
      (_fixup_node (node nk nv res.1 r h) k, res.2)
    else
      let res := _insert r k v
      (_fixup_node (node nk nv l res.1 h) k, res.2)

/-- `AVLTree::_fixup_deletion`: recompute the height, then rebalance by the
four deletion cases selected by the child balance factors. -/
def _fixup_deletion (t : AVLNode) : AVLNode :=
  match t with
  | nil => nil
  | node nk nv l r _ =>
    let h' := 1 + max (_height l) (_height r)
    let bal : Int := (_height r : Int) - (_height l : Int)
    if bal < -1 then
      if _balance l ≤ 0 then _rotateRight (node nk nv l r h')
      else _rotateRight (node nk nv (_rotateLeft l) r h')
    else if bal > 1 then
      if _balance r ≥ 0 then _rotateLeft (node nk nv l r h')
      else _rotateLeft (node nk nv l (_rotateRight r) h')
    else
      node nk nv l r h'

/-- `AVLTree::_remove_successor`: descends to the leftmost node of the
successor subtree, returns its key/value (which the caller writes into the
node being removed) and the rebalanced remainder of the subtree. -/
def _remove_successor : AVLNode → AVLNode × (Nat × Nat)
  | nil => (nil, (0, 0))
  | node sk sv nil r _ => (r, (sk, sv))
  | node sk sv (node lk lv ll lr lh) r h =>
      let res := _remove_successor (node lk lv ll lr lh)
      (_fixup_deletion (node sk sv res.1 r h), res.2)

/-- `AVLTree::_remove` (recursive).  The returned Boolean records whether a
node was deleted, i.e. whether the C++ code executed `--_size`.  A node
with no right child is replaced by its left child with no rebalancing on
that frame (the C++ `return child;` path); otherwise the in-order successor
is spliced out and its key/value overwrite the node. -/
def _remove (t : AVLNode) (k : Nat) : AVLNode × Bool :=
  match t with
  | nil => (nil, false)
  | node nk nv l r h =>
    if k < nk then
      let res := _remove l k
      (_fixup_deletion (node nk nv res.1 r h), res.2)
    else if nk < k then
      let res := _remove r k
      (_fixup_deletion (node nk nv l res.1 h), res.2)
    else
      match r with
      | nil => (l, true)
      | node rk rv rl rr rh =>
        let res := _remove_successor (node rk rv rl rr rh)
        (_fixup_deletion (node res.2.1 res.2.2 l res.1 h), true)

/-- `AVLTree::_findNode`: iterative descent by the comparator. -/
def _findNode : AVLNode → Nat → Option (Nat × Nat)
  | nil, _ => none
  | node nk nv l r _, k =>
    if nk = k then some (nk, nv)
    else if nk < k then _findNode r k
    else _findNode l k

/-- The `AVLTree` object: element counter and root pointer. -/
structure Tree where
  _size : Nat
  _root : AVLNode
deriving Repr, DecidableEq

/-- `AVLTree::AVLTree()`. -/
def mkTree : Tree := ⟨0, nil⟩

/-- `AVLTree::insert`. -/
def insert (t : Tree) (k v : Nat) : Tree :=
  let res := _insert t._root k v
  ⟨t._size + (if res.2 then 1 else 0), res.1⟩

/-- `AVLTree::erase`. -/
def erase (t : Tree) (k : Nat) : Tree :=
  let res := _remove t._root k
  ⟨t._size - (if res.2 then 1 else 0), res.1⟩

/-- `AVLTree::contains`. -/
def contains (t : Tree) (k : Nat) : Bool :=
  (_findNode t._root k).isSome

/-- `AVLTree::size`. -/
def size (t : Tree) : Nat := t._size

/-- `AVLTree::at` (`AVL_ValueNotFoundException` on an absent key). -/
def at_ (t : Tree) (k : Nat) : Option Nat :=
  (_findNode t._root k).map Prod.snd

/-! ### Specification predicates -/

/-- In-order contents of a subtree. -/
def inorder : AVLNode → List (Nat × Nat)
  | nil => []
  | node k v l r _ => inorder l ++ (k, v) :: inorder r

/-- In-order key sequence. -/
def keys (t : AVLNode) : List Nat := (inorder t).map Prod.fst

/-- The AVL invariant of §3 of the specification, at every node: the stored
height is `1 + max` of the children's stored heights, and the balance
factor lies in `{-1, 0, 1}`. -/
def AVLInv : AVLNode → Prop
  | nil => True
  | node _ _ l r h =>
      h = 1 + max (_height l) (_height r) ∧
      (_height l : Int) - _height r ≤ 1 ∧
      (_height r : Int) - _height l ≤ 1 ∧
      AVLInv l ∧ AVLInv r

/-- The binary-search-tree ordering invariant. -/
def BST : AVLNode → Prop
  | nil => True
  | node k _ l r _ =>
      (∀ x ∈ keys l, x < k) ∧ (∀ x ∈ keys r, k < x) ∧ BST l ∧ BST r

instance : ∀ t : AVLNode, Decidable (AVLInv t)
  | nil => .isTrue trivial
  | node _ _ l r _ =>
      have := instDecidableAVLInv l
      have := instDecidableAVLInv r
      inferInstanceAs (Decidable (_ ∧ _))

instance : ∀ t : AVLNode, Decidable (BST t)
  | nil => .isTrue trivial
  | node _ _ l r _ =>
      have := instDecidableBST l
      have := instDecidableBST r
      inferInstanceAs (Decidable (_ ∧ _))

/-! ### Basic lemmas -/

@[simp] theorem height_nil : _height nil = 0 := rfl

@[simp] theorem height_node (k v : Nat) (l r : AVLNode) (h : Nat) :
    _height (node k v l r h) = h := rfl

@[simp] theorem inorder_nil : inorder nil = [] := rfl

@[simp] theorem inorder_node (k v : Nat) (l r : AVLNode) (h : Nat) :
    inorder (node k v l r h) = inorder l ++ (k, v) :: inorder r := rfl

@[simp] theorem keys_nil : keys nil = [] := rfl

@[simp] theorem keys_node (k v : Nat) (l r : AVLNode) (h : Nat) :
    keys (node k v l r h) = keys l ++ k :: keys r := by
  simp [keys, inorder]

theorem keys_eq_map (t : AVLNode) : keys t = (inorder t).map Prod.fst := rfl

/-- Right rotation of a node whose left child is a node, written out. -/
theorem rotateRight_eq (nk nv lk lv : Nat) (ll lr r : AVLNode) (hl h0 : Nat) :
    _rotateRight (node nk nv (node lk lv ll lr hl) r h0)
      = node lk lv ll (node nk nv lr r (1 + max (_height lr) (_height r)))
          (1 + max (_height ll) (1 + max (_height lr) (_height r))) := rfl

/-- Left rotation of a node whose right child is a node, written out. -/
theorem rotateLeft_eq (nk nv rk rv : Nat) (l rl rr : AVLNode) (hr h0 : Nat) :
    _rotateLeft (node nk nv l (node rk rv rl rr hr) h0)
      = node rk rv (node nk nv l rl (1 + max (_height l) (_height rl))) rr
          (1 + max (1 + max (_height l) (_height rl)) (_height rr)) := rfl

/-- A subtree of positive stored height is a node (under `AVLInv` a `nil`
child always reads as height 0). -/
theorem node_of_height_pos (t : AVLNode) (h : 0 < _height t) :
    ∃ k v l r hh, t = node k v l r hh := by
  cases t with
  | nil => simp at h
  | node k v l r hh => exact ⟨k, v, l, r, hh, rfl⟩

/-- Rotations do not change the in-order contents. -/
theorem inorder_rotateRight (t : AVLNode) : inorder (_rotateRight t) = inorder t := by
  match t with
  | nil => rfl
  | node nk nv nil r h0 => rfl
  | node nk nv (node lk lv ll lr hl) r h0 =>
    rw [rotateRight_eq]
    simp

theorem inorder_rotateLeft (t : AVLNode) : inorder (_rotateLeft t) = inorder t := by
  match t with
  | nil => rfl
  | node nk nv l nil h0 => rfl
  | node nk nv l (node rk rv rl rr hr) h0 =>
    rw [rotateLeft_eq]
    simp

theorem keys_rotateRight (t : AVLNode) : keys (_rotateRight t) = keys t := by
  rw [keys_eq_map, keys_eq_map, inorder_rotateRight]

theorem keys_rotateLeft (t : AVLNode) : keys (_rotateLeft t) = keys t := by
  rw [keys_eq_map, keys_eq_map, inorder_rotateLeft]

/-! ### The deletion fixup -/

/-- Behaviour of `_fixup_deletion` at a node whose children are AVL and
whose balance is off by at most 2 (the situation after a child deletion):
the result is AVL, its height is the recomputed height or one less, and the
in-order contents are unchanged. -/
theorem fixup_deletion_spec (nk nv : Nat) (l r : AVLNode) (h0 : Nat)
    (hIl : AVLInv l) (hIr : AVLInv r)
    (hd : (_height l : Int) - _height r ≤ 2) (hd' : (_height r : Int) - _height l ≤ 2) :
    AVLInv (_fixup_deletion (node nk nv l r h0)) ∧
    (_height (_fixup_deletion (node nk nv l r h0)) = 1 + max (_height l) (_height r) ∨
      (_height (_fixup_deletion (node nk nv l r h0)) + 1 = 1 + max (_height l) (_height r) ∧
        ((_height l : Int) - _height r = 2 ∨ (_height r : Int) - _height l = 2))) ∧
    inorder (_fixup_deletion (node nk nv l r h0)) = inorder l ++ (nk, nv) :: inorder r := by
  simp only [_fixup_deletion, height_node]
  by_cases hb1 : ((_height r : Int) - _height l < -1)
  · rw [if_pos hb1]
    -- left-heavy by exactly 2
    obtain ⟨lk, lv, ll, lr, hl, rfl⟩ := node_of_height_pos l (by omega)
    simp only [AVLInv] at hIl
    obtain ⟨hle, hlb1, hlb2, hIll, hIlr⟩ := hIl
    simp only [height_node] at *
    by_cases hb2 : _balance (node lk lv ll lr hl) ≤ 0
    · rw [if_pos hb2]
      simp only [_balance, height_node] at hb2
      rw [rotateRight_eq]
      refine ⟨?_, ?_, by simp⟩
      · simp only [AVLInv, height_node]
        repeat' apply And.intro
        all_goals first | trivial | omega
      · simp only [height_node]
        omega
    · rw [if_neg hb2]
      simp only [_balance, height_node] at hb2
      -- inner (left-right) case: the left child's right subtree is higher
      obtain ⟨mk, mv, ml, mr, hm, rfl⟩ := node_of_height_pos lr (by omega)
      simp only [AVLInv] at hIlr
      obtain ⟨hme, hmb1, hmb2, hIml, hImr⟩ := hIlr
      simp only [height_node] at *
      rw [rotateLeft_eq, rotateRight_eq]
      refine ⟨?_, ?_, by simp⟩
      · simp only [AVLInv, height_node]
        repeat' apply And.intro
        all_goals first | trivial | omega
      · simp only [height_node]
        omega
  · rw [if_neg hb1]
    by_cases hb3 : ((_height r : Int) - _height l > 1)
    · rw [if_pos hb3]
      -- right-heavy by exactly 2
      obtain ⟨rk, rv, rl, rr, hr, rfl⟩ := node_of_height_pos r (by omega)
      simp only [AVLInv] at hIr
      obtain ⟨hre, hrb1, hrb2, hIrl, hIrr⟩ := hIr
      simp only [height_node] at *
      by_cases hb4 : _balance (node rk rv rl rr hr) ≥ 0
      · rw [if_pos hb4]
        simp only [_balance, height_node] at hb4
        rw [rotateLeft_eq]
        refine ⟨?_, ?_, by simp⟩
        · simp only [AVLInv, height_node]
          repeat' apply And.intro
          all_goals first | trivial | omega
        · simp only [height_node]
          omega
      · rw [if_neg hb4]
        simp only [_balance, height_node] at hb4
        obtain ⟨mk, mv, ml, mr, hm, rfl⟩ := node_of_height_pos rl (by omega)
        simp only [AVLInv] at hIrl
        obtain ⟨hme, hmb1, hmb2, hIml, hImr⟩ := hIrl
        simp only [height_node] at *
        rw [rotateRight_eq, rotateLeft_eq]
        refine ⟨?_, ?_, by simp⟩
        · simp only [AVLInv, height_node]
          repeat' apply And.intro
          all_goals first | trivial | omega
        · simp only [height_node]
          omega
    · rw [if_neg hb3]
      refine ⟨?_, Or.inl rfl, by simp⟩
      simp only [AVLInv, height_node]
      repeat' apply And.intro
      all_goals first | trivial | omega

/-! ### BST preservation -/

@[simp] theorem nodeKey_node (k v : Nat) (l r : AVLNode) (h : Nat) :
    nodeKey (node k v l r h) = k := rfl

theorem BST_rotateRight (t : AVLNode) (h : BST t) : BST (_rotateRight t) := by
  match t with
  | nil => exact h
  | node nk nv nil r h0 => exact h
  | node nk nv (node lk lv ll lr hl) r h0 =>
    rw [rotateRight_eq]
    simp only [BST, keys_node, List.forall_mem_append, List.forall_mem_cons] at h ⊢
    obtain ⟨⟨h1, h2, h3⟩, h4, ⟨h5, h6, h7, h8⟩, h9⟩ := h
    refine ⟨h5, ⟨h6, h2, ?_⟩, h7, ⟨h3, h4, h8, h9⟩⟩
    intro x hx
    exact lt_trans h2 (h4 x hx)

theorem BST_rotateLeft (t : AVLNode) (h : BST t) : BST (_rotateLeft t) := by
  match t with
  | nil => exact h
  | node nk nv l nil h0 => exact h
  | node nk nv l (node rk rv rl rr hr) h0 =>
    rw [rotateLeft_eq]
    simp only [BST, keys_node, List.forall_mem_append, List.forall_mem_cons] at h ⊢
    obtain ⟨h1, ⟨h2, h3, h4⟩, h5, ⟨h6, h7, h8, h9⟩⟩ := h
    refine ⟨⟨?_, h3, h6⟩, h7, ⟨h1, h2, h5, h8⟩, h9⟩
    intro x hx
    exact lt_trans (h1 x hx) h3

theorem BST_fixup_node (nk nv k : Nat) (l r : AVLNode) (h0 h1 : Nat)
    (h : BST (node nk nv l r h0)) : BST (_fixup_node (node nk nv l r h1) k) := by
  obtain ⟨g1, g2, g3, g4⟩ := h
  simp only [_fixup_node]
  split
  · exact BST_rotateRight _ ⟨g1, g2, g3, g4⟩
  · split
    · refine BST_rotateRight _ ⟨?_, g2, BST_rotateLeft _ g3, g4⟩
      rw [keys_rotateLeft]; exact g1
    · split
      · exact BST_rotateLeft _ ⟨g1, g2, g3, g4⟩
      · split
        · refine BST_rotateLeft _ ⟨g1, ?_, g3, BST_rotateRight _ g4⟩
          rw [keys_rotateRight]; exact g2
        · exact ⟨g1, g2, g3, g4⟩

theorem BST_fixup_deletion (nk nv : Nat) (l r : AVLNode) (h0 h1 : Nat)
    (h : BST (node nk nv l r h0)) : BST (_fixup_deletion (node nk nv l r h1)) := by
  obtain ⟨g1, g2, g3, g4⟩ := h
  simp only [_fixup_deletion]
  split
  · split
    · exact BST_rotateRight _ ⟨g1, g2, g3, g4⟩
    · refine BST_rotateRight _ ⟨?_, g2, BST_rotateLeft _ g3, g4⟩
      rw [keys_rotateLeft]; exact g1
  · split
    · split
      · exact BST_rotateLeft _ ⟨g1, g2, g3, g4⟩
      · refine BST_rotateLeft _ ⟨g1, ?_, g3, BST_rotateRight _ g4⟩
        rw [keys_rotateRight]; exact g2
    · exact ⟨g1, g2, g3, g4⟩

theorem inorder_fixup_node (nk nv k : Nat) (l r : AVLNode) (h0 : Nat) :
    inorder (_fixup_node (node nk nv l r h0) k) = inorder l ++ (nk, nv) :: inorder r := by
  simp only [_fixup_node]
  repeat' split
  all_goals simp [inorder_rotateRight, inorder_rotateLeft]

theorem keys_fixup_node (nk nv k : Nat) (l r : AVLNode) (h0 : Nat) :
    keys (_fixup_node (node nk nv l r h0) k) = keys l ++ nk :: keys r := by
  rw [keys_eq_map, inorder_fixup_node]
  simp [keys_eq_map]

theorem inorder_fixup_deletion (nk nv : Nat) (l r : AVLNode) (h0 : Nat) :
    inorder (_fixup_deletion (node nk nv l r h0)) = inorder l ++ (nk, nv) :: inorder r := by
  simp only [_fixup_deletion]
  repeat' split
  all_goals simp [inorder_rotateRight, inorder_rotateLeft]

theorem keys_fixup_deletion (nk nv : Nat) (l r : AVLNode) (h0 : Nat) :
    keys (_fixup_deletion (node nk nv l r h0)) = keys l ++ nk :: keys r := by
  rw [keys_eq_map, inorder_fixup_deletion]
  simp [keys_eq_map]

/-- The no-rotation path of `_fixup_node`: when the balance is within
`[-1, 1]` only the stored height is recomputed. -/
theorem fixup_node_noop (nk nv k : Nat) (l r : AVLNode) (h0 : Nat)
    (hbal1 : -1 ≤ (_height r : Int) - _height l)
    (hbal2 : (_height r : Int) - _height l ≤ 1) :
    _fixup_node (node nk nv l r h0) k = node nk nv l r (1 + max (_height l) (_height r)) := by
  simp only [_fixup_node]
  rw [if_neg (by rintro ⟨h, -⟩; omega), if_neg (by rintro ⟨h, -⟩; omega),
    if_neg (by rintro ⟨h, -⟩; omega), if_neg (by rintro ⟨h, -⟩; omega)]

/-! ### The insertion fixup -/

/-- Behaviour of `_fixup_node` at a node whose children are AVL after a
child insertion: the balance is off by at most 2 and, in the `±2` cases,
the inserted key selects the matching rotation (facts the insertion
induction establishes).  The result is AVL; without a rotation the node is
returned with its height recomputed, with a rotation the height is one less
than the recomputed value. -/
theorem fixup_node_spec (nk nv k : Nat) (l r : AVLNode) (h0 : Nat)
    (hIl : AVLInv l) (hIr : AVLInv r)
    (hd : -2 ≤ (_height r : Int) - _height l) (hd' : (_height r : Int) - _height l ≤ 2)
    (hL : (_height r : Int) - _height l = -2 →
      (k < nodeKey l ∧ _balance l = -1) ∨ (nodeKey l < k ∧ _balance l = 1))
    (hR : (_height r : Int) - _height l = 2 →
      (nodeKey r < k ∧ _balance r = 1) ∨ (k < nodeKey r ∧ _balance r = -1)) :
    AVLInv (_fixup_node (node nk nv l r h0) k) ∧
    ((-1 ≤ (_height r : Int) - _height l ∧ (_height r : Int) - _height l ≤ 1 ∧
        _fixup_node (node nk nv l r h0) k
          = node nk nv l r (1 + max (_height l) (_height r))) ∨
      (((_height r : Int) - _height l = -2 ∨ (_height r : Int) - _height l = 2) ∧
        _height (_fixup_node (node nk nv l r h0) k) = max (_height l) (_height r))) := by
  by_cases hc1 : (_height r : Int) - _height l = -2
  · obtain ⟨lk, lv, ll, lr, hl, rfl⟩ := node_of_height_pos l (by omega)
    simp only [AVLInv] at hIl
    obtain ⟨hle, hlb1, hlb2, hIll, hIlr⟩ := hIl
    simp only [height_node] at hc1 hle hlb1 hlb2 ⊢
    rcases hL hc1 with ⟨hkey, hbal⟩ | ⟨hkey, hbal⟩
    · -- left-left: single right rotation
      simp only [_balance, height_node, nodeKey_node] at hbal hkey
      simp only [_fixup_node, height_node, nodeKey_node]
      rw [if_pos ⟨by omega, hkey⟩, rotateRight_eq]
      constructor
      · simp only [AVLInv, height_node]
        repeat' apply And.intro
        all_goals first | trivial | omega
      · refine Or.inr ⟨Or.inl (by omega), ?_⟩
        try simp only [height_node]
        omega
    · -- left-right: double rotation
      simp only [_balance, height_node, nodeKey_node] at hbal hkey
      obtain ⟨mk, mv, ml, mr, hm, rfl⟩ := node_of_height_pos lr (by omega)
      simp only [AVLInv] at hIlr
      obtain ⟨hme, hmb1, hmb2, hIml, hImr⟩ := hIlr
      simp only [height_node] at hc1 hle hlb1 hlb2 hme hmb1 hmb2 hbal ⊢
      simp only [_fixup_node, height_node, nodeKey_node]
      rw [if_neg (by rintro ⟨-, hx⟩; omega), if_pos ⟨by omega, hkey⟩,
        rotateLeft_eq, rotateRight_eq]
      constructor
      · simp only [AVLInv, height_node]
        repeat' apply And.intro
        all_goals first | trivial | omega
      · refine Or.inr ⟨Or.inl (by omega), ?_⟩
        try simp only [height_node]
        omega
  · by_cases hc2 : (_height r : Int) - _height l = 2
    · obtain ⟨rk, rv, rl, rr, hr, rfl⟩ := node_of_height_pos r (by omega)
      simp only [AVLInv] at hIr
      obtain ⟨hre, hrb1, hrb2, hIrl, hIrr⟩ := hIr
      simp only [height_node] at hc2 hre hrb1 hrb2 ⊢
      rcases hR hc2 with ⟨hkey, hbal⟩ | ⟨hkey, hbal⟩
      · -- right-right: single left rotation
        simp only [_balance, height_node, nodeKey_node] at hbal hkey
        simp only [_fixup_node, height_node, nodeKey_node]
        rw [if_neg (by rintro ⟨hx, -⟩; omega), if_neg (by rintro ⟨hx, -⟩; omega),
          if_pos ⟨by omega, hkey⟩, rotateLeft_eq]
        constructor
        · simp only [AVLInv, height_node]
          repeat' apply And.intro
          all_goals first | trivial | omega
        · refine Or.inr ⟨Or.inr (by omega), ?_⟩
          try simp only [height_node]
          omega
      · -- right-left: double rotation
        simp only [_balance, height_node, nodeKey_node] at hbal hkey
        obtain ⟨mk, mv, ml, mr, hm, rfl⟩ := node_of_height_pos rl (by omega)
        simp only [AVLInv] at hIrl
        obtain ⟨hme, hmb1, hmb2, hIml, hImr⟩ := hIrl
        simp only [height_node] at hc2 hre hrb1 hrb2 hme hmb1 hmb2 hbal ⊢
        simp only [_fixup_node, height_node, nodeKey_node]
        rw [if_neg (by rintro ⟨hx, -⟩; omega), if_neg (by rintro ⟨hx, -⟩; omega),
          if_neg (by rintro ⟨-, hx⟩; omega), if_pos ⟨by omega, hkey⟩,
          rotateRight_eq, rotateLeft_eq]
        constructor
        · simp only [AVLInv, height_node]
          repeat' apply And.intro
          all_goals first | trivial | omega
        · refine Or.inr ⟨Or.inr (by omega), ?_⟩
          try simp only [height_node]
          omega
    · rw [fixup_node_noop nk nv k l r h0 (by omega) (by omega)]
      refine ⟨?_, Or.inl ⟨by omega, by omega, rfl⟩⟩
      simp only [AVLInv, height_node]
      repeat' apply And.intro
      all_goals first | trivial | omega

/-! ### Insertion -/

/-- Inserting a key that is already present returns the subtree unchanged
and reports that no node was created (the existing value is kept and the
new value discarded). -/
theorem insert_present (k v : Nat) : ∀ (t : AVLNode), BST t → AVLInv t →
    k ∈ keys t → _insert t k v = (t, false) := by
  intro t
  induction t with
  | nil => intro _ _ hk; simp at hk
  | node nk nv l r h ihl ihr =>
    intro hB hI hk
    obtain ⟨hb1, hb2, hBl, hBr⟩ := hB
    obtain ⟨hie, hib1, hib2, hIl, hIr⟩ := hI
    by_cases hknk : k = nk
    · simp [_insert, hknk]
    · simp only [keys_node, List.mem_append, List.mem_cons] at hk
      rcases hk with hkl | hkeq | hkr
      · have hklt : k < nk := hb1 k hkl
        have hres : _insert (node nk nv l r h) k v
            = (_fixup_node (node nk nv (_insert l k v).1 r h) k, (_insert l k v).2) := by
          simp [_insert, hknk, hklt]
        rw [hres, ihl hBl hIl hkl]
        rw [fixup_node_noop nk nv k l r h (by omega) (by omega), ← hie]
      · exact absurd hkeq hknk
      · have hkgt : nk < k := hb2 k hkr
        have hnlt : ¬ k < nk := by omega
        have hres : _insert (node nk nv l r h) k v
            = (_fixup_node (node nk nv l (_insert r k v).1 h) k, (_insert r k v).2) := by
          simp [_insert, hknk, hnlt]
        rw [hres, ihr hBr hIr hkr]
        rw [fixup_node_noop nk nv k l r h (by omega) (by omega), ← hie]

/-- The insertion induction: on a BST satisfying the AVL invariant,
`_insert` preserves both invariants, adds `k` to the key set, grows the
height by at most one, and on growth keeps the root key with the balance
tilted towards the inserted side. -/
theorem insert_spec (k v : Nat) : ∀ (t : AVLNode), BST t → AVLInv t →
    BST (_insert t k v).1 ∧ AVLInv (_insert t k v).1 ∧
    (∀ x, x ∈ keys (_insert t k v).1 ↔ x ∈ keys t ∨ x = k) ∧
    _height t ≤ _height (_insert t k v).1 ∧
    _height (_insert t k v).1 ≤ _height t + 1 ∧
    (_height (_insert t k v).1 = _height t + 1 →
      t = nil ∨
      (nodeKey (_insert t k v).1 = nodeKey t ∧ k ≠ nodeKey t ∧
        (k < nodeKey t → _balance (_insert t k v).1 = -1) ∧
        (nodeKey t < k → _balance (_insert t k v).1 = 1))) := by
  intro t
  induction t with
  | nil =>
    intro _ _
    refine ⟨?_, ?_, ?_, ?_, ?_, fun _ => Or.inl rfl⟩ <;>
      simp [_insert, BST, AVLInv, keys, inorder, _height]
  | node nk nv l r h ihl ihr =>
    intro hB hI
    have hBsave := hB
    have hIsave := hI
    obtain ⟨hb1, hb2, hBl, hBr⟩ := hB
    obtain ⟨hie, hib1, hib2, hIl, hIr⟩ := hI
    by_cases hknk : k = nk
    · have hres : _insert (node nk nv l r h) k v = (node nk nv l r h, false) := by
        simp [_insert, hknk]
      rw [hres]
      refine ⟨hBsave, hIsave, ?_, le_refl _, Nat.le_succ _, ?_⟩
      · intro x
        constructor
        · exact Or.inl
        · rintro (hx | rfl)
          · exact hx
          · rw [hknk]; simp
      · simp
    · by_cases hklt : k < nk
      · -- insert into the left subtree
        obtain ⟨hBl', hIl', hkeys', hg1, hg2, hgrow⟩ := ihl hBl hIl
        have hres : _insert (node nk nv l r h) k v
            = (_fixup_node (node nk nv (_insert l k v).1 r h) k, (_insert l k v).2) := by
          simp [_insert, hknk, hklt]
        rw [hres]
        have hlb : ∀ x ∈ keys (_insert l k v).1, x < nk := by
          intro x hx
          rcases (hkeys' x).1 hx with hx' | rfl
          · exact hb1 x hx'
          · exact hklt
        have hL : (_height r : Int) - _height (_insert l k v).1 = -2 →
            (k < nodeKey (_insert l k v).1 ∧ _balance (_insert l k v).1 = -1) ∨
            (nodeKey (_insert l k v).1 < k ∧ _balance (_insert l k v).1 = 1) := by
          intro hm2
          have hgrew : _height (_insert l k v).1 = _height l + 1 := by omega
          rcases hgrow hgrew with hnil | ⟨hkeyeq, hkne, hbal1, hbal2⟩
          · exfalso
            have hl0 : _height l = 0 := by rw [hnil]; rfl
            omega
          · rcases Nat.lt_trichotomy k (nodeKey l) with hlt | heq | hgt
            · exact Or.inl ⟨by rw [hkeyeq]; exact hlt, hbal1 hlt⟩
            · exact absurd heq hkne
            · exact Or.inr ⟨by rw [hkeyeq]; exact hgt, hbal2 hgt⟩
        have hR : (_height r : Int) - _height (_insert l k v).1 = 2 →
            (nodeKey r < k ∧ _balance r = 1) ∨
            (k < nodeKey r ∧ _balance r = -1) := by
          intro hm2
          exfalso
          omega
        have hfix := fixup_node_spec nk nv k (_insert l k v).1 r h hIl' hIr
          (by omega) (by omega) hL hR
        obtain ⟨hInv', hcase⟩ := hfix
        refine ⟨BST_fixup_node nk nv k _ r h h ⟨hlb, hb2, hBl', hBr⟩, hInv', ?_, ?_, ?_, ?_⟩
        · intro x
          rw [keys_fixup_node]
          simp only [keys_node, List.mem_append, List.mem_cons]
          constructor
          · rintro (hx | rfl | hx)
            · rcases (hkeys' x).1 hx with hx' | rfl
              · exact Or.inl (Or.inl hx')
              · exact Or.inr rfl
            · exact Or.inl (Or.inr (Or.inl rfl))
            · exact Or.inl (Or.inr (Or.inr hx))
          · rintro ((hx | rfl | hx) | hxk)
            · exact Or.inl ((hkeys' x).2 (Or.inl hx))
            · exact Or.inr (Or.inl rfl)
            · exact Or.inr (Or.inr hx)
            · exact Or.inl ((hkeys' x).2 (Or.inr hxk))
        · rcases hcase with ⟨hbb1, hbb2, heq⟩ | ⟨hpm, hh⟩
          · rw [heq]; simp only [height_node]; omega
          · simp only [height_node] at hh ⊢; omega
        · rcases hcase with ⟨hbb1, hbb2, heq⟩ | ⟨hpm, hh⟩
          · rw [heq]; simp only [height_node]; omega
          · simp only [height_node] at hh ⊢; omega
        · intro hgrowth
          right
          rcases hcase with ⟨hbb1, hbb2, heq⟩ | ⟨hpm, hh⟩
          · rw [heq] at hgrowth ⊢
            simp only [height_node] at hgrowth
            refine ⟨by simp, by simpa using hknk, ?_, ?_⟩
            · intro hkn
              simp only [_balance, height_node, nodeKey_node]
              omega
            · intro hkn
              simp only [nodeKey_node] at hkn
              omega
          · exfalso
            simp only [height_node] at hh hgrowth
            omega
      · -- insert into the right subtree
        have hkgt : nk < k := by omega
        obtain ⟨hBr', hIr', hkeys', hg1, hg2, hgrow⟩ := ihr hBr hIr
        have hres : _insert (node nk nv l r h) k v
            = (_fixup_node (node nk nv l (_insert r k v).1 h) k, (_insert r k v).2) := by
          simp [_insert, hknk, hklt]
        rw [hres]
        have hrb : ∀ x ∈ keys (_insert r k v).1, nk < x := by
          intro x hx
          rcases (hkeys' x).1 hx with hx' | rfl
          · exact hb2 x hx'
          · exact hkgt
        have hR : (_height (_insert r k v).1 : Int) - _height l = 2 →
            (nodeKey (_insert r k v).1 < k ∧ _balance (_insert r k v).1 = 1) ∨
            (k < nodeKey (_insert r k v).1 ∧ _balance (_insert r k v).1 = -1) := by
          intro hm2
          have hgrew : _height (_insert r k v).1 = _height r + 1 := by omega
          rcases hgrow hgrew with hnil | ⟨hkeyeq, hkne, hbal1, hbal2⟩
          · exfalso
            have hl0 : _height r = 0 := by rw [hnil]; rfl
            omega
          · rcases Nat.lt_trichotomy k (nodeKey r) with hlt | heq | hgt
            · exact Or.inr ⟨by rw [hkeyeq]; exact hlt, hbal1 hlt⟩
            · exact absurd heq hkne
            · exact Or.inl ⟨by rw [hkeyeq]; exact hgt, hbal2 hgt⟩
        have hL : (_height (_insert r k v).1 : Int) - _height l = -2 →
            (k < nodeKey l ∧ _balance l = -1) ∨
            (nodeKey l < k ∧ _balance l = 1) := by
          intro hm2
          exfalso
          omega
        have hfix := fixup_node_spec nk nv k l (_insert r k v).1 h hIl hIr'
          (by omega) (by omega) hL hR
        obtain ⟨hInv', hcase⟩ := hfix
        refine ⟨BST_fixup_node nk nv k l _ h h ⟨hb1, hrb, hBl, hBr'⟩, hInv', ?_, ?_, ?_, ?_⟩
        · intro x
          rw [keys_fixup_node]
          simp only [keys_node, List.mem_append, List.mem_cons]
          constructor
          · rintro (hx | rfl | hx)
            · exact Or.inl (Or.inl hx)
            · exact Or.inl (Or.inr (Or.inl rfl))
            · rcases (hkeys' x).1 hx with hx' | rfl
              · exact Or.inl (Or.inr (Or.inr hx'))
              · exact Or.inr rfl
          · rintro ((hx | rfl | hx) | hxk)
            · exact Or.inl hx
            · exact Or.inr (Or.inl rfl)
            · exact Or.inr (Or.inr ((hkeys' x).2 (Or.inl hx)))
            · exact Or.inr (Or.inr ((hkeys' x).2 (Or.inr hxk)))
        · rcases hcase with ⟨hbb1, hbb2, heq⟩ | ⟨hpm, hh⟩
          · rw [heq]; simp only [height_node]; omega
          · simp only [height_node] at hh ⊢; omega
        · rcases hcase with ⟨hbb1, hbb2, heq⟩ | ⟨hpm, hh⟩
          · rw [heq]; simp only [height_node]; omega
          · simp only [height_node] at hh ⊢; omega
        · intro hgrowth
          right
          rcases hcase with ⟨hbb1, hbb2, heq⟩ | ⟨hpm, hh⟩
          · rw [heq] at hgrowth ⊢
            simp only [height_node] at hgrowth
            refine ⟨by simp, by simpa using hknk, ?_, ?_⟩
            · intro hkn
              simp only [nodeKey_node] at hkn
              omega
            · intro hkn
              simp only [_balance, height_node, nodeKey_node]
              omega
          · exfalso
            simp only [height_node] at hh hgrowth
            omega

/-! ### Deletion -/

/-- Height bookkeeping after a deletion in the left subtree: the fixed-up
node is at most as high as before and at most one lower. -/
theorem del_height_bounds (f a b c h : Nat)
    (hfh : f = 1 + max a b ∨
      (f + 1 = 1 + max a b ∧ ((a : Int) - b = 2 ∨ (b : Int) - a = 2)))
    (hie : h = 1 + max c b)
    (sh1 : a ≤ c) (sh2 : c ≤ a + 1)
    (hib1 : (c : Int) - b ≤ 1) (hib2 : (b : Int) - c ≤ 1) :
    f ≤ h ∧ h ≤ f + 1 := by
  constructor <;> omega

/-- Height bookkeeping after a deletion in the right subtree. -/
theorem del_height_bounds_right (f a b c h : Nat)
    (hfh : f = 1 + max b a ∨
      (f + 1 = 1 + max b a ∧ ((b : Int) - a = 2 ∨ (a : Int) - b = 2)))
    (hie : h = 1 + max b c)
    (sh1 : a ≤ c) (sh2 : c ≤ a + 1)
    (hib1 : (c : Int) - b ≤ 1) (hib2 : (b : Int) - c ≤ 1) :
    f ≤ h ∧ h ≤ f + 1 := by
  constructor <;> omega

/-- The successor-removal induction: on a nonempty AVL BST,
`_remove_successor` returns the minimum key/value pair together with the
rebalanced remainder, whose height shrinks by at most one. -/
theorem remove_successor_spec : ∀ (s : AVLNode), BST s → AVLInv s → s ≠ nil →
    AVLInv (_remove_successor s).1 ∧ BST (_remove_successor s).1 ∧
    _height (_remove_successor s).1 ≤ _height s ∧
    _height s ≤ _height (_remove_successor s).1 + 1 ∧
    (_remove_successor s).2.1 ∈ keys s ∧
    (∀ x ∈ keys (_remove_successor s).1, (_remove_successor s).2.1 < x) ∧
    (∀ x, (x ∈ keys (_remove_successor s).1 ∨ x = (_remove_successor s).2.1)
        ↔ x ∈ keys s) := by
  intro s
  induction s with
  | nil => intro _ _ hne; exact absurd rfl hne
  | node sk sv l r h ihl ihr =>
    intro hB hI hne
    obtain ⟨hb1, hb2, hBl, hBr⟩ := hB
    obtain ⟨hie, hib1, hib2, hIl, hIr⟩ := hI
    cases l with
    | nil =>
      simp only [_remove_successor]
      simp only [height_nil] at hie hib1 hib2
      refine ⟨hIr, hBr, ?_, ?_, ?_, ?_, ?_⟩
      · simp only [height_node]; omega
      · simp only [height_node]; omega
      · simp
      · exact hb2
      · intro x
        simp
        tauto
    | node lk lv ll lr lh =>
      have hstep : _remove_successor (node sk sv (node lk lv ll lr lh) r h)
          = (_fixup_deletion
              (node sk sv (_remove_successor (node lk lv ll lr lh)).1 r h),
             (_remove_successor (node lk lv ll lr lh)).2) := by
        simp [_remove_successor]
      have hlne : (node lk lv ll lr lh) ≠ nil := by simp
      set L := node lk lv ll lr lh with hLdef
      rw [hstep]
      obtain ⟨sIl', sBl', sh1, sh2, smem, smin, siff⟩ := ihl hBl hIl hlne
      set res := _remove_successor L with hres
      have hfix := fixup_deletion_spec sk sv res.1 r h sIl' hIr
        (by omega) (by omega)
      obtain ⟨fInv, fh, fino⟩ := hfix
      have fkeys : keys (_fixup_deletion (node sk sv res.1 r h))
          = keys res.1 ++ sk :: keys r := keys_fixup_deletion sk sv res.1 r h
      refine ⟨fInv, ?_, ?_, ?_, ?_, ?_, ?_⟩
      · refine BST_fixup_deletion sk sv res.1 r h h ⟨?_, hb2, sBl', hBr⟩
        intro x hx
        exact hb1 x ((siff x).1 (Or.inl hx))
      · simp only [height_node]
        exact (del_height_bounds _ _ _ _ _ fh hie sh1 sh2 hib1 hib2).1
      · simp only [height_node]
        exact (del_height_bounds _ _ _ _ _ fh hie sh1 sh2 hib1 hib2).2
      · rw [keys_node]
        exact List.mem_append_left _ smem
      · intro x hx
        rw [fkeys] at hx
        rcases List.mem_append.1 hx with hx | hx
        · exact smin x hx
        · have hsk : res.2.1 < sk := hb1 _ smem
          rcases List.mem_cons.1 hx with rfl | hx
          · exact hsk
          · exact lt_trans hsk (hb2 x hx)
      · intro x
        rw [fkeys, keys_node]
        simp only [List.mem_append, List.mem_cons]
        constructor
        · rintro ((hx | rfl | hx) | hxk)
          · exact Or.inl ((siff x).1 (Or.inl hx))
          · exact Or.inr (Or.inl rfl)
          · exact Or.inr (Or.inr hx)
          · exact Or.inl ((siff x).1 (Or.inr hxk))
        · rintro (hx | rfl | hx)
          · rcases (siff x).2 hx with hx' | hx'
            · exact Or.inl (Or.inl hx')
            · exact Or.inr hx'
          · exact Or.inl (Or.inr (Or.inl rfl))
          · exact Or.inl (Or.inr (Or.inr hx))

/-- The removal induction: on an AVL BST, `_remove` preserves both
invariants, removes exactly the requested key, and shrinks the height by at
most one. -/
theorem remove_spec (k : Nat) : ∀ (t : AVLNode), BST t → AVLInv t →
    BST (_remove t k).1 ∧ AVLInv (_remove t k).1 ∧
    _height (_remove t k).1 ≤ _height t ∧
    _height t ≤ _height (_remove t k).1 + 1 ∧
    (∀ x, x ∈ keys (_remove t k).1 ↔ x ∈ keys t ∧ x ≠ k) := by
  intro t
  induction t with
  | nil =>
    intro _ _
    refine ⟨trivial, trivial, ?_, ?_, ?_⟩ <;> simp [_remove]
  | node nk nv l r h ihl ihr =>
    intro hB hI
    obtain ⟨hb1, hb2, hBl, hBr⟩ := hB
    obtain ⟨hie, hib1, hib2, hIl, hIr⟩ := hI
    by_cases hklt : k < nk
    · obtain ⟨rBl, rIl, rh1, rh2, rkeys⟩ := ihl hBl hIl
      have hres : _remove (node nk nv l r h) k
          = (_fixup_deletion (node nk nv (_remove l k).1 r h), (_remove l k).2) := by
        simp [_remove, hklt]
      rw [hres]
      have hfix := fixup_deletion_spec nk nv (_remove l k).1 r h rIl hIr
        (by omega) (by omega)
      obtain ⟨fInv, fh, fino⟩ := hfix
      have fkeys : keys (_fixup_deletion (node nk nv (_remove l k).1 r h))
          = keys (_remove l k).1 ++ nk :: keys r :=
        keys_fixup_deletion nk nv (_remove l k).1 r h
      refine ⟨?_, fInv, ?_, ?_, ?_⟩
      · refine BST_fixup_deletion nk nv (_remove l k).1 r h h ⟨?_, hb2, rBl, hBr⟩
        intro x hx
        exact hb1 x ((rkeys x).1 hx).1
      · simp only [height_node]
        exact (del_height_bounds _ _ _ _ _ fh hie rh1 rh2 hib1 hib2).1
      · simp only [height_node]
        exact (del_height_bounds _ _ _ _ _ fh hie rh1 rh2 hib1 hib2).2
      · intro x
        rw [fkeys]
        simp only [keys_node, List.mem_append, List.mem_cons]
        constructor
        · rintro (hx | rfl | hx)
          · obtain ⟨hx1, hx2⟩ := (rkeys x).1 hx
            exact ⟨Or.inl hx1, hx2⟩
          · exact ⟨Or.inr (Or.inl rfl), by omega⟩
          · have := hb2 x hx
            exact ⟨Or.inr (Or.inr hx), by omega⟩
        · rintro ⟨hx | rfl | hx, hne⟩
          · exact Or.inl ((rkeys x).2 ⟨hx, hne⟩)
          · exact Or.inr (Or.inl rfl)
          · exact Or.inr (Or.inr hx)
    · by_cases hkgt : nk < k
      · obtain ⟨rBr, rIr, rh1, rh2, rkeys⟩ := ihr hBr hIr
        have hres : _remove (node nk nv l r h) k
            = (_fixup_deletion (node nk nv l (_remove r k).1 h), (_remove r k).2) := by
          simp [_remove, hklt, hkgt]
        rw [hres]
        have hfix := fixup_deletion_spec nk nv l (_remove r k).1 h hIl rIr
          (by omega) (by omega)
        obtain ⟨fInv, fh, fino⟩ := hfix
        have fkeys : keys (_fixup_deletion (node nk nv l (_remove r k).1 h))
            = keys l ++ nk :: keys (_remove r k).1 :=
          keys_fixup_deletion nk nv l (_remove r k).1 h
        refine ⟨?_, fInv, ?_, ?_, ?_⟩
        · refine BST_fixup_deletion nk nv l (_remove r k).1 h h ⟨hb1, ?_, hBl, rBr⟩
          intro x hx
          exact hb2 x ((rkeys x).1 hx).1
        · simp only [height_node]
          exact (del_height_bounds_right _ _ _ _ _ fh hie rh1 rh2 hib2 hib1).1
        · simp only [height_node]
          exact (del_height_bounds_right _ _ _ _ _ fh hie rh1 rh2 hib2 hib1).2
        · intro x
          rw [fkeys]
          simp only [keys_node, List.mem_append, List.mem_cons]
          constructor
          · rintro (hx | rfl | hx)
            · have := hb1 x hx
              exact ⟨Or.inl hx, by omega⟩
            · exact ⟨Or.inr (Or.inl rfl), by omega⟩
            · obtain ⟨hx1, hx2⟩ := (rkeys x).1 hx
              exact ⟨Or.inr (Or.inr hx1), hx2⟩
          · rintro ⟨hx | rfl | hx, hne⟩
            · exact Or.inl hx
            · exact Or.inr (Or.inl rfl)
            · exact Or.inr (Or.inr ((rkeys x).2 ⟨hx, hne⟩))
      · -- k = nk: remove this node
        have hk : k = nk := by omega
        cases r with
        | nil =>
          have hres : _remove (node nk nv l nil h) k = (l, true) := by
            simp [_remove, hklt, hkgt]
          rw [hres]
          simp only [height_nil] at hib1 hib2
          simp only [height_nil, Nat.max_zero] at hie
          refine ⟨hBl, hIl, ?_, ?_, ?_⟩
          · simp only [height_node]; omega
          · simp only [height_node]; omega
          · intro x
            simp only [keys_node, keys_nil, List.mem_append, List.mem_cons,
              List.not_mem_nil, or_false]
            constructor
            · intro hx
              have := hb1 x hx
              exact ⟨Or.inl hx, by omega⟩
            · rintro ⟨hx | rfl, hne⟩
              · exact hx
              · omega
        | node rk rv rl rr rh =>
          have hstep : _remove (node nk nv l (node rk rv rl rr rh) h) k
              = (_fixup_deletion
                  (node (_remove_successor (node rk rv rl rr rh)).2.1
                    (_remove_successor (node rk rv rl rr rh)).2.2 l
                    (_remove_successor (node rk rv rl rr rh)).1 h), true) := by
            simp [_remove, hklt, hkgt]
          have hrne : (node rk rv rl rr rh) ≠ nil := by simp
          set R := node rk rv rl rr rh with hRdef
          rw [hstep]
          obtain ⟨sIr', sBr', sh1, sh2, smem, smin, siff⟩ :=
            remove_successor_spec R hBr hIr hrne
          set res := _remove_successor R with hresdef
          have hsucc_gt : nk < res.2.1 := hb2 _ smem
          have hfix := fixup_deletion_spec res.2.1 res.2.2 l res.1 h hIl sIr'
            (by omega) (by omega)
          obtain ⟨fInv, fh, fino⟩ := hfix
          have fkeys : keys (_fixup_deletion (node res.2.1 res.2.2 l res.1 h))
              = keys l ++ res.2.1 :: keys res.1 :=
            keys_fixup_deletion res.2.1 res.2.2 l res.1 h
          refine ⟨?_, fInv, ?_, ?_, ?_⟩
          · refine BST_fixup_deletion res.2.1 res.2.2 l res.1 h h ⟨?_, smin, hBl, sBr'⟩
            intro x hx
            exact lt_trans (hb1 x hx) hsucc_gt
          · simp only [height_node]
            exact (del_height_bounds_right _ _ _ _ _ fh hie sh1 sh2 hib2 hib1).1
          · simp only [height_node]
            exact (del_height_bounds_right _ _ _ _ _ fh hie sh1 sh2 hib2 hib1).2
          · intro x
            rw [fkeys, keys_node]
            simp only [List.mem_append, List.mem_cons]
            constructor
            · rintro (hx | rfl | hx)
              · have := hb1 x hx
                exact ⟨Or.inl hx, by omega⟩
              · refine ⟨Or.inr (Or.inr ((siff _).1 (Or.inr rfl))), by omega⟩
              · have hgt := smin x hx
                refine ⟨Or.inr (Or.inr ((siff _).1 (Or.inl hx))), by omega⟩
            · rintro ⟨hx | rfl | hx, hne⟩
              · exact Or.inl hx
              · omega
              · rcases (siff x).2 hx with hx' | hx'
                · exact Or.inr (Or.inr hx')
                · exact Or.inr (Or.inl hx')

/-! ### Operation sequences (C7) -/

/-- One dictionary operation of the benchmark workload. -/
inductive Op where
  | ins (k v : Nat)
  | del (k : Nat)

/-- Applying an operation to an `AVLTree` object. -/
def applyOp (t : Tree) : Op → Tree
  | .ins k v => insert t k v
  | .del k => erase t k

/-- Running a sequence of operations on a freshly constructed tree. -/
def runOps (ops : List Op) : Tree := ops.foldl applyOp mkTree

theorem applyOp_inv (t : Tree) (op : Op) (hB : BST t._root) (hI : AVLInv t._root) :
    BST (applyOp t op)._root ∧ AVLInv (applyOp t op)._root := by
  cases op with
  | ins k v =>
    have h := insert_spec k v t._root hB hI
    exact ⟨h.1, h.2.1⟩
  | del k =>
    have h := remove_spec k t._root hB hI
    exact ⟨h.1, h.2.1⟩

theorem foldl_applyOp_inv (ops : List Op) : ∀ (t : Tree),
    BST t._root → AVLInv t._root →
    BST (ops.foldl applyOp t)._root ∧ AVLInv (ops.foldl applyOp t)._root := by
  induction ops with
  | nil => exact fun t hB hI => ⟨hB, hI⟩
  | cons op ops ih =>
    intro t hB hI
    rw [List.foldl_cons]
    obtain ⟨hB', hI'⟩ := applyOp_inv t op hB hI
    exact ih _ hB' hI'

/-! ### The stack-based iterator (C9) -/

/-- `AVLTreeIterator` state: the current node and the traversal stack.  A
node pointer is modelled by the subtree it heads, which is everything the
iterator dereferences. -/
structure Iter where
  current : Option AVLNode
  traversal_stack : List AVLNode
deriving Repr, DecidableEq

/-- `AVLTreeIterator::push_left`. -/
def push_left : AVLNode → List AVLNode → List AVLNode
  | nil, st => st
  | node k v l r h, st => push_left l (node k v l r h :: st)

/-- Popping the stack top into `current`, as both the constructor and
`operator++` do after their `push_left`. -/
def popState : List AVLNode → Iter
  | [] => ⟨none, []⟩
  | n :: rest => ⟨some n, rest⟩

/-- `AVLTreeIterator::AVLTreeIterator(root)` — `begin()`. -/
def iter_begin (root : AVLNode) : Iter := popState (push_left root [])

/-- What `current->right` reads. -/
def rightChild : AVLNode → AVLNode
  | nil => nil
  | node _ _ _ r _ => r

/-- `AVLTreeIterator::operator++`: push the left spine of `current->right`
(no-op when there is none), then pop the stack into `current`.  The
`none` case models the undefined `++end()`, which the begin-to-end walk
never performs. -/
def iter_next : Iter → Iter
  | ⟨none, st⟩ => ⟨none, st⟩
  | ⟨some cur, st⟩ => popState (push_left (rightChild cur) st)

/-- The list of key/value pairs produced by repeatedly dereferencing and
incrementing, until `current` is null (`end()`). -/
def iter_list : Nat → Iter → List (Nat × Nat)
  | 0, _ => []
  | fuel + 1, it =>
    match it.current with
    | none => []
    | some nil => []
    | some (node k v _ _ _) => (k, v) :: iter_list fuel (iter_next it)

/-- The full `begin()`-to-`end()` walk of a tree. -/
def iterate (t : Tree) : List (Nat × Nat) :=
  iter_list ((inorder t._root).length + 1) (iter_begin t._root)

/-- The pairs an iterator stack still owes: for every stacked node, its own
pair and then its right subtree. -/
def stack_rest : List AVLNode → List (Nat × Nat)
  | [] => []
  | nil :: st => stack_rest st
  | node k v _ r _ :: st => (k, v) :: inorder r ++ stack_rest st

@[simp] theorem stack_rest_nil : stack_rest [] = [] := rfl

@[simp] theorem stack_rest_cons (k v : Nat) (l r : AVLNode) (h : Nat) (st : List AVLNode) :
    stack_rest (node k v l r h :: st) = (k, v) :: inorder r ++ stack_rest st := rfl

/-- The iterator protocol invariant: starting from pushing the left spine
of `t` onto a `nil`-free stack `st`, the walk produces exactly the in-order
contents of `t` followed by what the stack owes. -/
theorem iter_list_push (fuel : Nat) : ∀ (t : AVLNode) (st : List AVLNode),
    (∀ x ∈ st, x ≠ nil) →
    (inorder t).length + (stack_rest st).length ≤ fuel →
    iter_list fuel (popState (push_left t st)) = inorder t ++ stack_rest st := by
  induction fuel with
  | zero =>
    intro t st hst hlen
    have h1 : inorder t = [] := List.length_eq_zero.1 (by omega)
    have h2 : stack_rest st = [] := List.length_eq_zero.1 (by omega)
    rw [h1, h2]
    simp [iter_list]
  | succ n ih =>
    intro t st
    induction t generalizing st with
    | nil =>
      intro hst hlen
      simp only [push_left]
      cases st with
      | nil => simp [popState, iter_list]
      | cons hd rest =>
        cases hd with
        | nil => exact absurd rfl (hst _ (List.mem_cons_self _ _))
        | node k v l r hh =>
          simp only [popState]
          simp only [iter_list, iter_next, rightChild]
          rw [ih r rest (fun x hx => hst x (List.mem_cons_of_mem _ hx))
            (by simp only [stack_rest_cons, inorder_nil] at hlen ⊢
                simp at hlen ⊢
                omega)]
          simp

    | node k v l r hh ihl ihr =>
      intro hst hlen
      simp only [push_left]
      rw [ihl (node k v l r hh :: st) ?hst ?hlen]
      case hst =>
        intro x hx
        rcases List.mem_cons.1 hx with rfl | hx
        · simp
        · exact hst x hx
      case hlen =>
        simp only [stack_rest_cons, inorder_node] at hlen ⊢
        simp at hlen ⊢
        omega
      simp

/-- `begin()`-to-`end()` iteration yields exactly the in-order contents. -/
theorem iterate_eq_inorder (t : Tree) : iterate t = inorder t._root := by
  have h := iter_list_push ((inorder t._root).length + 1) t._root []
    (by intro x hx; cases hx) (by simp)
  simpa [iterate, iter_begin] using h

/-- The key sequence of a BST, in order, is strictly sorted. -/
theorem keys_sorted (t : AVLNode) (h : BST t) : (keys t).Sorted (· < ·) := by
  induction t with
  | nil => simp [keys, inorder]
  | node k v l r hh ihl ihr =>
    obtain ⟨h1, h2, h3, h4⟩ := h
    rw [keys_node]
    show List.Pairwise (· < ·) (keys l ++ k :: keys r)
    rw [List.pairwise_append]
    refine ⟨ihl h3, ?_, ?_⟩
    · rw [List.pairwise_cons]
      exact ⟨h2, ihr h4⟩
    · intro x hx y hy
      rcases List.mem_cons.1 hy with rfl | hy
      · exact h1 x hx
      · exact lt_trans (h1 x hx) (h2 y hy)

/-- **C7.**  For every sequence of `insert` and `erase` operations applied
to an initially empty AVL tree, every node of the resulting tree satisfies
the AVL invariant: its stored height equals `1 + max(height(left),
height(right))` and `|height(left) - height(right)| ≤ 1`. -/
theorem avl_invariant_all_sequences (ops : List Op) :
    AVLInv (runOps ops)._root :=
  (foldl_applyOp_inv ops mkTree trivial trivial).2

end AVLTree

namespace RBTree

open Color RBT

/-! ### Basic red-black lemmas -/

@[simp] theorem inorder_nilS : inorder nilS = [] := rfl

@[simp] theorem inorder_nodeR (c : Color) (k v : Nat) (l r : RBT) :
    inorder (node c k v l r) = inorder l ++ (k, v) :: inorder r := rfl

@[simp] theorem keysR_nil : keysR nilS = [] := rfl

@[simp] theorem keysR_node (c : Color) (k v : Nat) (l r : RBT) :
    keysR (node c k v l r) = keysR l ++ k :: keysR r := by
  simp [keysR, inorder]

/-- The descent of `insert` raises `RB_AlreadyExistsException` whenever the
key is already stored. -/
theorem descend_mem_none (k : Nat) : ∀ (t : RBT), BSTR t → k ∈ keysR t →
    ∀ (acc : Path), descend t k acc = none := by
  intro t
  induction t with
  | nilS => intro _ hk; simp at hk
  | node c nk nv l r ihl ihr =>
    intro hB hk acc
    obtain ⟨hb1, hb2, hBl, hBr⟩ := hB
    by_cases hknk : k = nk
    · simp [descend, hknk]
    · simp only [keysR_node, List.mem_append, List.mem_cons] at hk
      rcases hk with hkl | hkeq | hkr
      · have hlt : k < nk := hb1 _ hkl
        simp only [descend, if_neg hknk, if_pos hlt]
        exact ihl hBl hkl _
      · exact absurd hkeq hknk
      · have hgt : nk < k := hb2 _ hkr
        have hnlt : ¬ k < nk := by omega
        simp only [descend, if_neg hknk, if_neg hnlt]
        exact ihr hBr hkr _

/-- **C10.**  `clear()` resets `_root` to the sentinel without resetting
`m_size`: afterwards `contains` returns `false` for every key and the
`begin()`-to-`end()` walk is empty, yet `size()` still reports the number of
elements the tree held before the call. -/
theorem clear_keeps_size_counter (s : TreeState) (k : Nat) :
    contains (clear s) k = false ∧ iterate (clear s) = [] ∧
      size (clear s) = size s :=
  ⟨rfl, rfl, rfl⟩

/-- **C5.**  `remove` of an absent key does not signal `KeyNotFound`: on the
tree {2, 5, 8} built by three inserts, `remove 7` returns with the tree
untouched and **no** error condition — `RBTree::remove` checks `z == _NIL`
and silently returns, contradicting the contract `remove(key) -> success |
KeyNotFound`. -/
theorem remove_absent_no_exception :
    remove (insKs mkTree [5, 2, 8]) 7 = (insKs mkTree [5, 2, 8], none) := by
  decide

end RBTree

/-- **C6.**  Inserting an already-present key never changes the container's
contents: an AVL tree is returned entirely unchanged (size and the stored
value included — the new value is discarded), while a Red-Black tree raises
`RB_AlreadyExistsException` and keeps its state. -/
theorem insert_duplicate_no_change :
    (∀ (t : AVLTree.Tree) (k v : Nat), AVLTree.BST t._root →
      AVLTree.AVLInv t._root → k ∈ AVLTree.keys t._root →
      AVLTree.insert t k v = t) ∧
    (∀ (s : RBTree.TreeState) (k v : Nat), RBTree.BSTR s.root →
      k ∈ RBTree.keysR s.root →
      RBTree.insert s k v = (s, some RBTree.RBError.alreadyExists)) := by
  constructor
  · intro t k v hB hI hk
    have h := AVLTree.insert_present k v t._root hB hI hk
    cases t with
    | mk sz rt => simp [AVLTree.insert, h]
  · intro s k v hB hk
    have h := RBTree.descend_mem_none k s.root hB hk []
    simp [RBTree.insert, h]

/-- A concrete instance of the duplicate-insert law: the AVL tree {1, 2}
keeps its contents when 2 is re-inserted, and the Red-Black tree {2, 5, 8}
rejects a re-insert of 2 with `AlreadyExists`. -/
theorem insert_duplicate_no_change_witness :
    AVLTree.insert (AVLTree.insert (AVLTree.insert AVLTree.mkTree 2 5) 1 4) 2 99 =
      AVLTree.insert (AVLTree.insert AVLTree.mkTree 2 5) 1 4 ∧
    RBTree.insert (insKs RBTree.mkTree [5, 2, 8]) 2 99 =
      (insKs RBTree.mkTree [5, 2, 8], some RBTree.RBError.alreadyExists) :=
  ⟨insert_duplicate_no_change.1 (AVLTree.insert (AVLTree.insert AVLTree.mkTree 2 5) 1 4)
      2 99 (by decide) (by decide) (by decide),
    insert_duplicate_no_change.2 (insKs RBTree.mkTree [5, 2, 8]) 2 99
      (by decide) (by decide)⟩

namespace RBTree

open Color RBT

/-! ### The iterator visits the in-order sequence -/

/-- The pairs an iterator standing at a location still has to deliver from
its context: everything hanging to the right of the path's spine. -/
def path_rest : Path → List (Nat × Nat)
  | [] => []
  | ⟨.left, _, k, v, sib⟩ :: p => (k, v) :: (inorder sib ++ path_rest p)
  | ⟨.right, _, _, _, _⟩ :: p => path_rest p

@[simp] theorem path_rest_nil : path_rest [] = [] := rfl

@[simp] theorem path_rest_left (c : Color) (k v : Nat) (sib : RBT) (p : Path) :
    path_rest (⟨Dir.left, c, k, v, sib⟩ :: p) = (k, v) :: (inorder sib ++ path_rest p) := rfl

@[simp] theorem path_rest_right (c : Color) (k v : Nat) (sib : RBT) (p : Path) :
    path_rest (⟨Dir.right, c, k, v, sib⟩ :: p) = path_rest p := rfl

@[simp] theorem min_loc_nil_left (c : Color) (k v : Nat) (r : RBT) (p : Path) :
    min_loc (node c k v nilS r) p = (node c k v nilS r, p) := rfl

theorem min_loc_cons (c lc : Color) (k v lk lv : Nat) (ll lr r : RBT) (p : Path) :
    min_loc (node c k v (node lc lk lv ll lr) r) p =
      min_loc (node lc lk lv ll lr) (⟨Dir.left, c, k, v, r⟩ :: p) := rfl

@[simp] theorem climb_nil (t : RBT) : climb t [] = none := rfl

@[simp] theorem climb_right (t : RBT) (c : Color) (k v : Nat) (sib : RBT) (p : Path) :
    climb t (⟨Dir.right, c, k, v, sib⟩ :: p) = climb (node c k v sib t) p := rfl

@[simp] theorem climb_left (t : RBT) (c : Color) (k v : Nat) (sib : RBT) (p : Path) :
    climb t (⟨Dir.left, c, k, v, sib⟩ :: p) = some (node c k v t sib, p) := rfl

theorem rb_next_right_nil (c : Color) (k v : Nat) (l : RBT) (p : Path) :
    rb_next (node c k v l nilS, p) = climb (node c k v l nilS) p := rfl

theorem rb_next_right_node (c rc : Color) (k v rk rv : Nat) (l rl rr : RBT) (p : Path) :
    rb_next (node c k v l (node rc rk rv rl rr), p) =
      some (min_loc (node rc rk rv rl rr) (⟨Dir.right, c, k, v, l⟩ :: p)) := rfl

/-- The two halves of the iterator walk: starting at the minimum of a
subtree delivers that subtree's in-order pairs and then the context's rest;
the ancestor climb delivers exactly the context's rest. -/
theorem rb_list_spec (fuel : Nat) :
    (∀ (t : RBT), t ≠ nilS → ∀ (p : Path),
      (inorder t).length + (path_rest p).length ≤ fuel →
      rb_list fuel (some (min_loc t p)) = inorder t ++ path_rest p) ∧
    (∀ (p : Path) (t : RBT), (path_rest p).length ≤ fuel →
      rb_list fuel (climb t p) = path_rest p) := by
  induction fuel with
  | zero =>
    constructor
    · intro t ht p hlen
      exfalso
      cases t with
      | nilS => exact ht rfl
      | node c k v l r => simp at hlen
    · intro p t hlen
      have h0 : path_rest p = [] := List.length_eq_zero.1 (Nat.le_zero.1 hlen)
      cases hcl : climb t p with
      | none => simp [rb_list, h0]
      | some st => simp [rb_list, h0]
  | succ n ih =>
    constructor
    · intro t
      induction t with
      | nilS => intro ht; exact absurd rfl ht
      | node c k v l r ihl ihr =>
        intro _ p hlen
        cases l with
        | node lc lk lv ll lr =>
          rw [min_loc_cons]
          rw [ihl (by exact nofun) (⟨Dir.left, c, k, v, r⟩ :: p) (by simp at hlen ⊢; omega)]
          simp
        | nilS =>
          rw [min_loc_nil_left, rb_list]
          cases r with
          | nilS =>
            rw [rb_next_right_nil]
            rw [ih.2 p (node c k v nilS nilS) (by simp at hlen; omega)]
            simp
          | node rc rk rv rl rr =>
            rw [rb_next_right_node]
            rw [ih.1 (node rc rk rv rl rr) (by exact nofun)
              (⟨Dir.right, c, k, v, nilS⟩ :: p) (by simp at hlen ⊢; omega)]
            simp
    · intro p
      induction p with
      | nil => intro t _; simp [rb_list]
      | cons f rest ihp =>
        intro t hlen
        obtain ⟨d, fc, fk, fv, sib⟩ := f
        cases d with
        | right =>
          rw [climb_right]
          exact ihp (node fc fk fv sib t) (by simpa using hlen)
        | left =>
          rw [climb_left, rb_list]
          cases sib with
          | nilS =>
            rw [rb_next_right_nil]
            rw [ih.2 rest (node fc fk fv t nilS) (by simp at hlen; omega)]
            simp
          | node sc sk sv sl sr =>
            rw [rb_next_right_node]
            rw [ih.1 (node sc sk sv sl sr) (by exact nofun)
              (⟨Dir.right, fc, fk, fv, t⟩ :: rest) (by simp at hlen ⊢; omega)]
            simp

/-- The full `begin()`-to-`end()` walk of an `RBTree` object delivers
exactly the in-order contents. -/
theorem iterate_eq_inorder_rb (s : TreeState) : iterate s = inorder s.root := by
  unfold iterate
  cases hr : s.root with
  | nilS => rfl
  | node c k v l r =>
    show rb_list _ (some (min_loc (node c k v l r) [])) = _
    rw [(rb_list_spec ((inorder (node c k v l r)).length + 1)).1
      (node c k v l r) (by exact nofun) [] (by simp)]
    simp

end RBTree

namespace RBTree

open Color RBT

/-! ### The fixups permute nothing: in-order contents through `plug` -/

@[simp] theorem plug_nil_path (t : RBT) : plug t [] = t := rfl

@[simp] theorem plug_left (t : RBT) (c : Color) (k v : Nat) (sib : RBT) (p : Path) :
    plug t (⟨Dir.left, c, k, v, sib⟩ :: p) = plug (node c k v t sib) p := rfl

@[simp] theorem plug_right (t : RBT) (c : Color) (k v : Nat) (sib : RBT) (p : Path) :
    plug t (⟨Dir.right, c, k, v, sib⟩ :: p) = plug (node c k v sib t) p := rfl

@[simp] theorem inorder_blacken (t : RBT) : inorder (blacken t) = inorder t := by
  cases t <;> rfl

@[simp] theorem inorder_redden (t : RBT) : inorder (redden t) = inorder t := by
  cases t <;> rfl

/-- The pairs a context contributes to the left of its hole. -/
def pathL : Path → List (Nat × Nat)
  | [] => []
  | ⟨.left, _, _, _, _⟩ :: p => pathL p
  | ⟨.right, _, k, v, sib⟩ :: p => pathL p ++ inorder sib ++ [(k, v)]

@[simp] theorem pathL_nil : pathL [] = [] := rfl

@[simp] theorem pathL_left (c : Color) (k v : Nat) (sib : RBT) (p : Path) :
    pathL (⟨Dir.left, c, k, v, sib⟩ :: p) = pathL p := rfl

@[simp] theorem pathL_right (c : Color) (k v : Nat) (sib : RBT) (p : Path) :
    pathL (⟨Dir.right, c, k, v, sib⟩ :: p) = pathL p ++ inorder sib ++ [(k, v)] := rfl

theorem inorder_plug (p : Path) : ∀ z : RBT,
    inorder (plug z p) = pathL p ++ inorder z ++ path_rest p := by
  induction p with
  | nil => intro z; simp
  | cons f p ih =>
    intro z
    obtain ⟨d, c, k, v, sib⟩ := f
    cases d with
    | left => rw [plug_left, ih]; simp
    | right => rw [plug_right, ih]; simp

/-- `_insert_fixup` only recolors and rotates: the in-order contents of the
whole tree are those of the tree it was handed. -/
theorem inorder_insert_fixup : ∀ (fuel : Nat) (p : Path), p.length ≤ fuel →
    ∀ z : RBT, inorder (insert_fixup z p) = inorder (plug z p) := by
  intro fuel
  induction fuel with
  | zero =>
    intro p hp z
    have h0 : p = [] := List.length_eq_zero.1 (Nat.le_zero.1 hp)
    subst h0
    simp [insert_fixup]
  | succ n ih =>
    intro p hp z
    match p with
    | [] => simp [insert_fixup]
    | [f1] =>
      obtain ⟨d1, c1, k1, v1, s1⟩ := f1
      cases c1 <;> simp [insert_fixup]
    | f1 :: f2 :: rest2 =>
      obtain ⟨d1, c1, k1, v1, s1⟩ := f1
      obtain ⟨d2, c2, k2, v2, s2⟩ := f2
      have hr2 : rest2.length ≤ n := by simp at hp; omega
      cases c1 with
      | BLACK => simp [insert_fixup]
      | RED =>
        cases d2 with
        | left =>
          cases hu : isRed s2 with
          | true =>
            have hstep : insert_fixup z
                (⟨d1, RED, k1, v1, s1⟩ :: ⟨Dir.left, c2, k2, v2, s2⟩ :: rest2) =
                insert_fixup (node RED k2 v2 (assemble ⟨d1, RED, k1, v1, s1⟩ BLACK z)
                  (blacken s2)) rest2 := by
              simp [insert_fixup, hu]
            rw [hstep, ih rest2 hr2]
            cases d1 <;>
              simp [assemble, inorder_plug, List.append_assoc]
          | false =>
            cases d1 with
            | left =>
              simp [insert_fixup, hu, inorder_plug, List.append_assoc]
            | right =>
              cases z with
              | nilS => simp [insert_fixup, hu, inorder_plug]
              | node zc zk zv zl zr =>
                simp [insert_fixup, hu, inorder_plug, List.append_assoc]
        | right =>
          cases hu : isRed s2 with
          | true =>
            have hstep : insert_fixup z
                (⟨d1, RED, k1, v1, s1⟩ :: ⟨Dir.right, c2, k2, v2, s2⟩ :: rest2) =
                insert_fixup (node RED k2 v2 (blacken s2)
                  (assemble ⟨d1, RED, k1, v1, s1⟩ BLACK z)) rest2 := by
              simp [insert_fixup, hu]
            rw [hstep, ih rest2 hr2]
            cases d1 <;>
              simp [assemble, inorder_plug, List.append_assoc]
          | false =>
            cases d1 with
            | right =>
              simp [insert_fixup, hu, inorder_plug, List.append_assoc]
            | left =>
              cases z with
              | nilS => simp [insert_fixup, hu, inorder_plug]
              | node zc zk zv zl zr =>
                simp [insert_fixup, hu, inorder_plug, List.append_assoc]

end RBTree

namespace RBTree

open Color RBT

theorem inorder_case4_left (x : RBT) (pc : Color) (pk pv : Nat) (w : RBT) (rest : Path) :
    inorder (fixup_case4_left x pc pk pv w rest) =
      inorder (plug (node pc pk pv x w) rest) := by
  by_cases hw : isRed (rightOf w)
  · cases w with
    | nilS => simp [isRed, rightOf] at hw
    | node wc wk wv wl wr =>
      simp [fixup_case4_left, hw, inorder_plug, List.append_assoc]
  · cases w with
    | nilS => simp [fixup_case4_left, hw, inorder_plug]
    | node wc wk wv wl wr =>
      cases wl with
      | nilS => simp [fixup_case4_left, hw, inorder_plug, List.append_assoc]
      | node wlc wlk wlv wll wlr =>
        simp [fixup_case4_left, hw, inorder_plug, List.append_assoc]

theorem inorder_case4_right (x : RBT) (pc : Color) (pk pv : Nat) (w : RBT) (rest : Path) :
    inorder (fixup_case4_right x pc pk pv w rest) =
      inorder (plug (node pc pk pv w x) rest) := by
  by_cases hw : isRed (leftOf w)
  · cases w with
    | nilS => simp [isRed, leftOf] at hw
    | node wc wk wv wl wr =>
      simp [fixup_case4_right, hw, inorder_plug, List.append_assoc]
  · cases w with
    | nilS => simp [fixup_case4_right, hw, inorder_plug]
    | node wc wk wv wl wr =>
      cases wr with
      | nilS => simp [fixup_case4_right, hw, inorder_plug, List.append_assoc]
      | node wrc wrk wrv wrl wrr =>
        simp [fixup_case4_right, hw, inorder_plug, List.append_assoc]

/-- `_remove_fixup` only recolors and rotates: the in-order contents of the
whole tree are those of the tree it was handed. -/
theorem inorder_delete_fixup : ∀ (fuel : Nat) (p : Path), p.length ≤ fuel →
    ∀ x : RBT, inorder (delete_fixup x p) = inorder (plug x p) := by
  intro fuel
  induction fuel with
  | zero =>
    intro p hp x
    have h0 : p = [] := List.length_eq_zero.1 (Nat.le_zero.1 hp)
    subst h0
    simp [delete_fixup]
  | succ n ih =>
    intro p hp x
    match p with
    | [] => simp [delete_fixup]
    | f :: rest =>
      obtain ⟨d, c, k, v, sib⟩ := f
      have hr : rest.length ≤ n := by simp at hp; omega
      cases hx : isRed x with
      | true => simp [delete_fixup, hx, inorder_plug]
      | false =>
        cases d with
        | left =>
          match sib with
          | node RED wk wv wl wr =>
            by_cases hbb : ¬ isRed (leftOf wl) = true ∧ ¬ isRed (rightOf wl) = true
            · simp [delete_fixup, hx, hbb, inorder_plug, List.append_assoc]
            · simp only [delete_fixup, hx, Bool.false_eq_true, if_false, if_neg hbb]
              rw [inorder_case4_left]
              simp [inorder_plug, List.append_assoc]
          | nilS =>
            by_cases hbb : ¬ isRed (leftOf nilS) = true ∧ ¬ isRed (rightOf nilS) = true
            · simp only [delete_fixup, hx, Bool.false_eq_true, if_false, if_pos hbb]
              rw [ih rest hr]
              simp [inorder_plug]
            · simp [leftOf, rightOf, isRed] at hbb
          | node BLACK wk wv wl wr =>
            by_cases hbb : ¬ isRed (leftOf (node BLACK wk wv wl wr)) = true ∧
                ¬ isRed (rightOf (node BLACK wk wv wl wr)) = true
            · simp only [delete_fixup, hx, Bool.false_eq_true, if_false, if_pos hbb]
              rw [ih rest hr]
              simp [inorder_plug, List.append_assoc]
            · simp only [delete_fixup, hx, Bool.false_eq_true, if_false, if_neg hbb]
              rw [inorder_case4_left]
              simp [inorder_plug, List.append_assoc]
        | right =>
          match sib with
          | node RED wk wv wl wr =>
            by_cases hbb : ¬ isRed (rightOf wr) = true ∧ ¬ isRed (leftOf wr) = true
            · simp [delete_fixup, hx, hbb, inorder_plug, List.append_assoc]
            · simp only [delete_fixup, hx, Bool.false_eq_true, if_false, if_neg hbb]
              rw [inorder_case4_right]
              simp [inorder_plug, List.append_assoc]
          | nilS =>
            by_cases hbb : ¬ isRed (rightOf nilS) = true ∧ ¬ isRed (leftOf nilS) = true
            · simp only [delete_fixup, hx, Bool.false_eq_true, if_false, if_pos hbb]
              rw [ih rest hr]
              simp [inorder_plug]
            · simp [leftOf, rightOf, isRed] at hbb
          | node BLACK wk wv wl wr =>
            by_cases hbb : ¬ isRed (rightOf (node BLACK wk wv wl wr)) = true ∧
                ¬ isRed (leftOf (node BLACK wk wv wl wr)) = true
            · simp only [delete_fixup, hx, Bool.false_eq_true, if_false, if_pos hbb]
              rw [ih rest hr]
              simp [inorder_plug, List.append_assoc]
            · simp only [delete_fixup, hx, Bool.false_eq_true, if_false, if_neg hbb]
              rw [inorder_case4_right]
              simp [inorder_plug, List.append_assoc]

end RBTree



namespace RBTree

open Color RBT

/-! ### Structural lemmas of the descents -/

@[simp] theorem pathL_append (q p : Path) : pathL (q ++ p) = pathL p ++ pathL q := by
  induction q with
  | nil => simp
  | cons f q ih =>
    obtain ⟨d, c, k, v, sib⟩ := f
    cases d <;> simp [ih, List.append_assoc]

@[simp] theorem path_rest_append (q p : Path) :
    path_rest (q ++ p) = path_rest q ++ path_rest p := by
  induction q with
  | nil => simp
  | cons f q ih =>
    obtain ⟨d, c, k, v, sib⟩ := f
    cases d <;> simp [ih, List.append_assoc]

/-- Skipping one element in the middle of a concatenation is a sublist. -/
theorem sublist_skip_cons {α : Type} (X Y : List α) (a : α) :
    List.Sublist (X ++ Y) (X ++ a :: Y) :=
  ((List.Sublist.refl Y).cons a).append_left X

/-- The insert descent builds the context of the tree it walked: plugging
the sentinel back reproduces the tree. -/
theorem descend_plug (k : Nat) : ∀ (t : RBT) (acc p : Path),
    descend t k acc = some p → plug nilS p = plug t acc := by
  intro t
  induction t with
  | nilS =>
    intro acc p h
    simp [descend] at h
    subst h; rfl
  | node c nk nv l r ihl ihr =>
    intro acc p h
    by_cases hk : k = nk
    · simp [descend, hk] at h
    · by_cases hlt : k < nk
      · simp only [descend, if_neg hk, if_pos hlt] at h
        rw [ihl _ _ h, plug_left]
      · simp only [descend, if_neg hk, if_neg hlt] at h
        rw [ihr _ _ h, plug_right]

/-- The remove search builds the context of the node it found. -/
theorem find_path_plug (k : Nat) : ∀ (t : RBT) (acc : Path) (z : RBT) (p : Path),
    find_path t k acc = some (z, p) → plug z p = plug t acc := by
  intro t
  induction t with
  | nilS => intro acc z p h; simp [find_path] at h
  | node c nk nv l r ihl ihr =>
    intro acc z p h
    by_cases hk : k = nk
    · simp only [find_path, if_pos hk] at h
      cases h
      rfl
    · by_cases hlt : k < nk
      · simp only [find_path, if_neg hk, if_pos hlt] at h
        rw [ihl _ _ _ h, plug_left]
      · simp only [find_path, if_neg hk, if_neg hlt] at h
        rw [ihr _ _ _ h, plug_right]

/-- The successor splice builds the context of the minimum it extracted,
descending only through left children. -/
theorem splice_min_spec : ∀ (t : RBT) (acc : Path) (yc : Color) (yk yv : Nat)
    (x : RBT) (p2 : Path), splice_min t acc = some (yc, yk, yv, x, p2) →
    plug (node yc yk yv nilS x) p2 = plug t acc ∧ pathL p2 = pathL acc := by
  intro t
  induction t with
  | nilS => intro acc yc yk yv x p2 h; simp [splice_min] at h
  | node c nk nv l r ihl ihr =>
    intro acc yc yk yv x p2 h
    cases l with
    | nilS =>
      simp only [splice_min] at h
      cases h
      exact ⟨rfl, rfl⟩
    | node lc lk lv ll lr =>
      have h' : splice_min (node lc lk lv ll lr)
          (⟨Dir.left, c, nk, nv, r⟩ :: acc) = some (yc, yk, yv, x, p2) := h
      obtain ⟨hp, hL⟩ := ihl _ _ _ _ _ _ h'
      exact ⟨by rw [hp, plug_left], by simpa using hL⟩

/-- Deletion only loses pairs: the contents after `_remove(z)` are a
sublist of the contents before. -/
theorem inorder_rb_delete (z : RBT) (p : Path) :
    List.Sublist (inorder (rb_delete z p)) (inorder (plug z p)) := by
  cases z with
  | nilS => simp [rb_delete]
  | node zc zk zv zl zr =>
    cases zl with
    | nilS =>
      have hres : inorder (rb_delete (node zc zk zv nilS zr) p) = inorder (plug zr p) := by
        by_cases hc : zc = BLACK
        · simp only [rb_delete, if_pos hc]
          exact inorder_delete_fixup p.length p (le_refl _) zr
        · simp only [rb_delete, if_neg hc]
      rw [hres, inorder_plug, inorder_plug]
      simp only [inorder_nodeR, inorder_nilS, List.nil_append, List.append_assoc]
      exact ((List.Sublist.refl _).cons _).append_left _
    | node lc lk lv ll lr =>
      cases zr with
      | nilS =>
        have hres : inorder (rb_delete (node zc zk zv (node lc lk lv ll lr) nilS) p) =
            inorder (plug (node lc lk lv ll lr) p) := by
          by_cases hc : zc = BLACK
          · simp only [rb_delete, if_pos hc]
            exact inorder_delete_fixup p.length p (le_refl _) _
          · simp only [rb_delete, if_neg hc]
        rw [hres, inorder_plug, inorder_plug]
        simp only [inorder_nodeR, inorder_nilS, List.append_assoc, List.cons_append,
          List.nil_append]
        refine List.Sublist.append_left ?_ _
        refine List.Sublist.append_left ?_ _
        refine List.Sublist.cons₂ _ ?_
        exact sublist_skip_cons _ _ _
      | node rc rk rv rl rr =>
        cases hsp : splice_min (node rc rk rv rl rr) [] with
        | none =>
          simp only [rb_delete, hsp]
          exact List.Sublist.refl _
        | some res =>
          obtain ⟨yc, yk, yv, x, p2⟩ := res
          obtain ⟨hplug, hL⟩ := splice_min_spec _ _ _ _ _ _ _ hsp
          rw [plug_nil_path] at hplug
          rw [pathL_nil] at hL
          have hres : inorder (rb_delete (node zc zk zv (node lc lk lv ll lr)
              (node rc rk rv rl rr)) p) =
              inorder (plug x (p2 ++ ⟨Dir.right, zc, yk, yv, node lc lk lv ll lr⟩ :: p)) := by
            by_cases hc : yc = BLACK
            · simp only [rb_delete, hsp, if_pos hc]
              exact inorder_delete_fixup _ _ (le_refl _) x
            · simp only [rb_delete, hsp, if_neg hc]
          have hzr : inorder (node rc rk rv rl rr) =
              (yk, yv) :: (inorder x ++ path_rest p2) := by
            rw [← hplug, inorder_plug, hL]
            simp
          rw [hres, inorder_plug, inorder_plug,
            inorder_nodeR zc zk zv (node lc lk lv ll lr) (node rc rk rv rl rr), hzr]
          simp only [pathL_append, path_rest_append, pathL_right, hL,
            path_rest_right, List.append_assoc, List.cons_append,
            List.nil_append, List.append_nil, List.singleton_append]
          refine List.Sublist.append_left ?_ _
          refine List.Sublist.append_left ?_ _
          exact (List.Sublist.refl _).cons _

end RBTree

namespace RBTree

open Color RBT

/-! ### Sorted keys through every operation -/

/-- A strictly sorted in-order key sequence forces the search-tree
ordering at every node. -/
theorem sorted_BSTR : ∀ t : RBT, List.Sorted (· < ·) (keysR t) → BSTR t := by
  intro t
  induction t with
  | nilS => intro _; trivial
  | node c k v l r ihl ihr =>
    intro hs
    rw [keysR_node] at hs
    have hs' : List.Pairwise (· < ·) (keysR l ++ k :: keysR r) := hs
    rw [List.pairwise_append] at hs'
    obtain ⟨hl, hkr, cross⟩ := hs'
    rw [List.pairwise_cons] at hkr
    obtain ⟨hk, hr⟩ := hkr
    exact ⟨fun x hx => cross x hx k (List.mem_cons_self _ _), hk, ihl hl, ihr hr⟩

/-- Along a successful insert descent, everything the context keeps to the
left of the hole is below the new key and everything to the right is above
it. -/
theorem descend_bounds (k : Nat) : ∀ (t : RBT) (acc p : Path), BSTR t →
    (∀ x ∈ (pathL acc).map Prod.fst, x < k) →
    (∀ x ∈ (path_rest acc).map Prod.fst, k < x) →
    descend t k acc = some p →
    (∀ x ∈ (pathL p).map Prod.fst, x < k) ∧
    (∀ x ∈ (path_rest p).map Prod.fst, k < x) := by
  intro t
  induction t with
  | nilS =>
    intro acc p _ hLa hRa h
    simp [descend] at h
    subst h
    exact ⟨hLa, hRa⟩
  | node c nk nv l r ihl ihr =>
    intro acc p hB hLa hRa h
    obtain ⟨hb1, hb2, hBl, hBr⟩ := hB
    by_cases hk : k = nk
    · simp [descend, hk] at h
    · by_cases hlt : k < nk
      · simp only [descend, if_neg hk, if_pos hlt] at h
        refine ihl _ _ hBl (by simpa using hLa) ?_ h
        intro x hx
        simp only [path_rest_left, List.map_cons, List.map_append, List.mem_cons,
          List.mem_append] at hx
        rcases hx with rfl | hx | hx
        · exact hlt
        · have : nk < x := hb2 x hx
          omega
        · exact hRa x hx
      · simp only [descend, if_neg hk, if_neg hlt] at h
        refine ihr _ _ hBr ?_ (by simpa using hRa) h
        intro x hx
        simp only [pathL_right, List.map_append, List.mem_append, List.map_cons,
          List.mem_singleton, List.map_nil] at hx
        rcases hx with (hx | hx) | rfl
        · exact hLa x hx
        · have : x < nk := hb1 x hx
          omega
        · omega

/-- `RBTree::insert` keeps the in-order key sequence strictly sorted. -/
theorem insert_sorted (s : TreeState) (k v : Nat)
    (hs : List.Sorted (· < ·) (keysR s.root)) :
    List.Sorted (· < ·) (keysR ((insert s k v).1).root) := by
  cases hd : descend s.root k [] with
  | none => simpa only [insert, hd] using hs
  | some p =>
    simp only [insert, hd]
    have hio : inorder (insert_fixup (node RED k v nilS nilS) p) =
        pathL p ++ (k, v) :: path_rest p := by
      rw [inorder_insert_fixup p.length p (le_refl _), inorder_plug]
      simp
    have hpl : plug nilS p = s.root := by
      have := descend_plug k s.root [] p hd
      rwa [plug_nil_path] at this
    have hold : inorder s.root = pathL p ++ path_rest p := by
      rw [← hpl, inorder_plug]
      simp
    have hB : BSTR s.root := sorted_BSTR _ hs
    obtain ⟨hL, hR⟩ := descend_bounds k s.root [] p hB (by simp) (by simp) hd
    show List.Sorted (· < ·) ((inorder _).map Prod.fst)
    rw [hio]
    have hs' : List.Pairwise (· < ·)
        ((pathL p).map Prod.fst ++ (path_rest p).map Prod.fst) := by
      have : List.Pairwise (· < ·) ((inorder s.root).map Prod.fst) := hs
      rw [hold, List.map_append] at this
      exact this
    rw [List.pairwise_append] at hs'
    obtain ⟨pl, pr, cross⟩ := hs'
    show List.Pairwise (· < ·) _
    rw [List.map_append, List.map_cons]
    rw [List.pairwise_append]
    refine ⟨pl, ?_, ?_⟩
    · rw [List.pairwise_cons]
      exact ⟨hR, pr⟩
    · intro a ha b hb
      rcases List.mem_cons.1 hb with rfl | hb
      · exact hL a ha
      · exact cross a ha b hb

/-- `RBTree::remove` keeps the in-order key sequence strictly sorted. -/
theorem remove_sorted (s : TreeState) (k : Nat)
    (hs : List.Sorted (· < ·) (keysR s.root)) :
    List.Sorted (· < ·) (keysR ((remove s k).1).root) := by
  cases hf : find_path s.root k [] with
  | none => simpa only [remove, hf] using hs
  | some zp =>
    obtain ⟨z, p⟩ := zp
    simp only [remove, hf]
    have hplug := find_path_plug k s.root [] z p hf
    rw [plug_nil_path] at hplug
    have hsub := inorder_rb_delete z p
    rw [hplug] at hsub
    show List.Pairwise (· < ·) ((inorder _).map Prod.fst)
    exact List.Pairwise.sublist (hsub.map Prod.fst) hs

theorem foldl_sorted (ops : List OpR) : ∀ s : TreeState,
    List.Sorted (· < ·) (keysR s.root) →
    List.Sorted (· < ·) (keysR (ops.foldl applyOpR s).root) := by
  induction ops with
  | nil => exact fun s hs => hs
  | cons op ops ih =>
    intro s hs
    rw [List.foldl_cons]
    cases op with
    | ins k v => exact ih _ (insert_sorted s k v hs)
    | del k => exact ih _ (remove_sorted s k hs)

/-- Every tree reachable through the public API has a strictly sorted
in-order key sequence. -/
theorem runOpsR_sorted (ops : List OpR) :
    List.Sorted (· < ·) (keysR (runOpsR ops).root) :=
  foldl_sorted ops mkTree List.sorted_nil

end RBTree

/-- **C9.**  For every AVL tree and every Red-Black tree reachable by a
sequence of operations on a fresh object, iterating from `begin()` to
`end()` yields exactly the stored (key, value) pairs — the in-order
contents — with keys in strictly ascending order, so every stored key is
visited exactly once. -/
theorem iteration_sorted_unique :
    (∀ ops : List AVLTree.Op,
      AVLTree.iterate (AVLTree.runOps ops) =
        AVLTree.inorder (AVLTree.runOps ops)._root ∧
      List.Sorted (· < ·) (AVLTree.keys (AVLTree.runOps ops)._root)) ∧
    (∀ ops : List RBTree.OpR,
      RBTree.iterate (RBTree.runOpsR ops) =
        RBTree.inorder (RBTree.runOpsR ops).root ∧
      List.Sorted (· < ·) (RBTree.keysR (RBTree.runOpsR ops).root)) := by
  constructor
  · intro ops
    refine ⟨AVLTree.iterate_eq_inorder _, ?_⟩
    exact AVLTree.keys_sorted _
      (AVLTree.foldl_applyOp_inv ops AVLTree.mkTree trivial trivial).1
  · intro ops
    exact ⟨RBTree.iterate_eq_inorder_rb _, RBTree.runOpsR_sorted ops⟩

namespace RBTree

open Color RBT

/-! ### The color invariants (C8) -/

/-- Black-height `n` and no RED-RED violation inside `t`; the root color is
unconstrained (a red root needs black children). -/
inductive OkT : RBT → Nat → Prop where
  | nil : OkT nilS 0
  | red {k v : Nat} {l r : RBT} {n : Nat} :
      OkT l n → OkT r n → isRed l = false → isRed r = false →
      OkT (node RED k v l r) n
  | black {k v : Nat} {l r : RBT} {n : Nat} :
      OkT l n → OkT r n → OkT (node BLACK k v l r) (n + 1)

/-- The innermost frame of a context is black (false for the empty
context). -/
def firstBlack : Path → Prop
  | [] => False
  | f :: _ => f.color = BLACK

/-- The outermost frame of a context is black (trivially true for the
empty context, whose hole is the root). -/
def lastBlack : Path → Prop
  | [] => True
  | [f] => f.color = BLACK
  | _ :: p => lastBlack p

/-- A well-formed context around a hole of black-height `n` in a tree of
black-height `m`: every sibling has the height its side demands and every
red frame hangs below a black one with a black sibling. -/
inductive OkP : Path → Nat → Nat → Prop where
  | nil {n : Nat} : OkP [] n n
  | consB {d : Dir} {k v : Nat} {sib : RBT} {p : Path} {n m : Nat} :
      OkT sib n → OkP p (n + 1) m →
      OkP (⟨d, BLACK, k, v, sib⟩ :: p) n m
  | consR {d : Dir} {k v : Nat} {sib : RBT} {p : Path} {n m : Nat} :
      OkT sib n → isRed sib = false → OkP p n m → firstBlack p →
      OkP (⟨d, RED, k, v, sib⟩ :: p) n m

theorem OkT_nilS_inv {n : Nat} (h : OkT nilS n) : n = 0 := by
  cases h; rfl

theorem OkT_red_inv {k v : Nat} {l r : RBT} {n : Nat}
    (h : OkT (node RED k v l r) n) :
    OkT l n ∧ OkT r n ∧ isRed l = false ∧ isRed r = false := by
  cases h with
  | red h1 h2 h3 h4 => exact ⟨h1, h2, h3, h4⟩

theorem OkT_black_inv {k v : Nat} {l r : RBT} {n : Nat}
    (h : OkT (node BLACK k v l r) n) :
    ∃ n0, n = n0 + 1 ∧ OkT l n0 ∧ OkT r n0 := by
  cases h with
  | black h1 h2 => exact ⟨_, rfl, h1, h2⟩

/-- A black-rooted tree of positive black-height is a black node. -/
theorem OkT_black_node {t : RBT} {n : Nat} (h : OkT t (n + 1))
    (hb : isRed t = false) :
    ∃ k v l r, t = node BLACK k v l r ∧ OkT l n ∧ OkT r n := by
  cases h with
  | red h1 h2 h3 h4 => simp [isRed] at hb
  | black h1 h2 => exact ⟨_, _, _, _, rfl, h1, h2⟩

@[simp] theorem isRed_blacken (t : RBT) : isRed (blacken t) = false := by
  cases t <;> rfl

@[simp] theorem isRed_nilS : isRed nilS = false := rfl

theorem blacken_ok {t : RBT} {n : Nat} (h : OkT t n) :
    ∃ m, OkT (blacken t) m := by
  cases h with
  | nil => exact ⟨0, OkT.nil⟩
  | red h1 h2 h3 h4 => exact ⟨_, OkT.black h1 h2⟩
  | black h1 h2 => exact ⟨_, OkT.black h1 h2⟩

/-- Plugging a fitting subtree into a well-formed context yields a tree of
the context's black-height (a red subtree needs a black innermost frame). -/
theorem plug_ok : ∀ (p : Path) {n m : Nat}, OkP p n m → ∀ {z : RBT}, OkT z n →
    (isRed z = true → firstBlack p) → OkT (plug z p) m := by
  intro p
  induction p with
  | nil =>
    intro n m hp z hz _
    cases hp
    exact hz
  | cons f rest ih =>
    intro n m hp z hz hred
    obtain ⟨d, c, k, v, sib⟩ := f
    cases hp with
    | consB hsib hrest =>
      cases d with
      | left =>
        rw [plug_left]
        exact ih hrest (OkT.black hz hsib) (by intro h; simp [isRed] at h)
      | right =>
        rw [plug_right]
        exact ih hrest (OkT.black hsib hz) (by intro h; simp [isRed] at h)
    | consR hsib hsb hrest hfb =>
      have hzb : isRed z = false := by
        by_contra hcon
        have := hred (by revert hcon; cases isRed z <;> simp)
        simp [firstBlack] at this
      cases d with
      | left =>
        rw [plug_left]
        exact ih hrest (OkT.red hz hsib hzb hsb) (fun _ => hfb)
      | right =>
        rw [plug_right]
        exact ih hrest (OkT.red hsib hz hsb hzb) (fun _ => hfb)

@[simp] theorem lastBlack_nil : lastBlack [] := trivial

theorem lastBlack_cons_cons (f g : Frame) (p : Path) :
    lastBlack (f :: g :: p) = lastBlack (g :: p) := rfl

theorem lastBlack_tail {f : Frame} {p : Path} (h : lastBlack (f :: p)) :
    lastBlack p := by
  cases p with
  | nil => trivial
  | cons g p' => rwa [lastBlack_cons_cons] at h

theorem lastBlack_push {f g : Frame} {p : Path} (h : lastBlack (f :: p))
    (hg : g.color = BLACK) : lastBlack (g :: p) := by
  cases p with
  | nil => exact hg
  | cons g' p' => rwa [lastBlack_cons_cons] at h ⊢

theorem lastBlack_append : ∀ (q : Path) {f : Frame} {p : Path},
    lastBlack (f :: p) → lastBlack (q ++ f :: p) := by
  intro q
  induction q with
  | nil => intro f p h; exact h
  | cons g q ih =>
    intro f p h
    have : lastBlack (q ++ f :: p) := ih h
    cases hq : q ++ f :: p with
    | nil => simp at hq
    | cons a b =>
      show lastBlack (g :: q ++ f :: p)
      rw [List.cons_append, hq, lastBlack_cons_cons, ← hq]
      exact this

/-- The root of a plugged tree is black whenever the outermost frame is
(or, for the empty context, whenever the subtree's root is). -/
theorem plug_red_last : ∀ (p : Path) (z : RBT), p ≠ [] → lastBlack p →
    isRed (plug z p) = false := by
  intro p
  induction p with
  | nil => intro z h; exact absurd rfl h
  | cons f rest ih =>
    intro z _ hlb
    obtain ⟨d, c, k, v, sib⟩ := f
    cases rest with
    | nil =>
      have hc : c = BLACK := hlb
      subst hc
      cases d <;> simp [plug, isRed]
    | cons g rest' =>
      have : lastBlack (g :: rest') := hlb
      cases d with
      | left => rw [plug_left]; exact ih _ (by simp) this
      | right => rw [plug_right]; exact ih _ (by simp) this

theorem isRed_plug {p : Path} {z : RBT} (hlb : lastBlack p)
    (hz : isRed z = false) : isRed (plug z p) = false := by
  cases p with
  | nil => exact hz
  | cons f rest => exact plug_red_last _ _ (by simp) hlb

end RBTree

namespace RBTree

open Color RBT

/-- The insert descent turns a well-formed tree into a well-formed context
around a black-height-0 hole. -/
theorem descend_okp (k : Nat) : ∀ (t : RBT) (acc p : Path) (n m : Nat),
    descend t k acc = some p → OkT t n → OkP acc n m →
    (isRed t = true → firstBlack acc) → OkP p 0 m := by
  intro t
  induction t with
  | nilS =>
    intro acc p n m h ht hacc _
    simp [descend] at h
    subst h
    have h0 : n = 0 := OkT_nilS_inv ht
    subst h0
    exact hacc
  | node c nk nv l r ihl ihr =>
    intro acc p n m h ht hacc hred
    by_cases hk : k = nk
    · simp [descend, hk] at h
    · cases c with
      | RED =>
        obtain ⟨hl, hr, hlb, hrb⟩ := OkT_red_inv ht
        have hfb : firstBlack acc := hred rfl
        by_cases hlt : k < nk
        · simp only [descend, if_neg hk, if_pos hlt] at h
          exact ihl _ _ _ _ h hl (OkP.consR hr hrb hacc hfb)
            (by intro hc; rw [hlb] at hc; cases hc)
        · simp only [descend, if_neg hk, if_neg hlt] at h
          exact ihr _ _ _ _ h hr (OkP.consR hl hlb hacc hfb)
            (by intro hc; rw [hrb] at hc; cases hc)
      | BLACK =>
        obtain ⟨n0, hn, hl, hr⟩ := OkT_black_inv ht
        subst hn
        by_cases hlt : k < nk
        · simp only [descend, if_neg hk, if_pos hlt] at h
          exact ihl _ _ _ _ h hl (OkP.consB hr hacc) (fun _ => rfl)
        · simp only [descend, if_neg hk, if_neg hlt] at h
          exact ihr _ _ _ _ h hr (OkP.consB hl hacc) (fun _ => rfl)

/-- `_insert_fixup` restores the color invariants: handed a red subtree
with balanced black heights inside a well-formed context, it returns a
black-rooted, black-height-balanced tree with no RED-RED violation. -/
theorem insert_fixup_ok : ∀ (fuel : Nat) (p : Path), p.length ≤ fuel →
    ∀ (z : RBT) (n m : Nat), OkT z n → isRed z = true → OkP p n m →
    ∃ m', OkT (insert_fixup z p) m' ∧ isRed (insert_fixup z p) = false := by
  intro fuel
  induction fuel with
  | zero =>
    intro p hp z n m hz _ _
    have h0 : p = [] := List.length_eq_zero.1 (Nat.le_zero.1 hp)
    subst h0
    show ∃ m', OkT (blacken z) m' ∧ isRed (blacken z) = false
    obtain ⟨m', hm⟩ := blacken_ok hz
    exact ⟨m', hm, isRed_blacken z⟩
  | succ nf ih =>
    intro p hp z n m hz hzr hokp
    match p with
    | [] =>
      show ∃ m', OkT (blacken z) m' ∧ isRed (blacken z) = false
      obtain ⟨m', hm⟩ := blacken_ok hz
      exact ⟨m', hm, isRed_blacken z⟩
    | [f1] =>
      obtain ⟨d1, c1, k1, v1, s1⟩ := f1
      cases c1 with
      | BLACK =>
        have heq : insert_fixup z [⟨d1, BLACK, k1, v1, s1⟩] =
            blacken (plug z [⟨d1, BLACK, k1, v1, s1⟩]) := by
          simp [insert_fixup]
        rw [heq]
        have hplug := plug_ok _ hokp hz (fun _ => rfl)
        obtain ⟨m', hm⟩ := blacken_ok hplug
        exact ⟨m', hm, isRed_blacken _⟩
      | RED =>
        cases hokp with
        | consR _ _ _ hfb => exact absurd hfb (by simp [firstBlack])
    | f1 :: f2 :: rest2 =>
      obtain ⟨d1, c1, k1, v1, s1⟩ := f1
      obtain ⟨d2, c2, k2, v2, s2⟩ := f2
      have hr2 : rest2.length ≤ nf := by simp at hp; omega
      cases c1 with
      | BLACK =>
        have heq : insert_fixup z
            (⟨d1, BLACK, k1, v1, s1⟩ :: ⟨d2, c2, k2, v2, s2⟩ :: rest2) =
            blacken (plug z
              (⟨d1, BLACK, k1, v1, s1⟩ :: ⟨d2, c2, k2, v2, s2⟩ :: rest2)) := by
          simp [insert_fixup]
        rw [heq]
        have hplug := plug_ok _ hokp hz (fun _ => rfl)
        obtain ⟨m', hm⟩ := blacken_ok hplug
        exact ⟨m', hm, isRed_blacken _⟩
      | RED =>
        cases hokp with
        | consR hs1 hs1b hrest hfb =>
          have hc2 : c2 = BLACK := hfb
          subst hc2
          cases hrest with
          | consB hs2 hrest2 =>
            cases d2 with
            | left =>
              cases hu : isRed s2 with
              | true =>
                have hstep : insert_fixup z
                    (⟨d1, RED, k1, v1, s1⟩ :: ⟨Dir.left, BLACK, k2, v2, s2⟩ :: rest2) =
                    insert_fixup (node RED k2 v2
                      (assemble ⟨d1, RED, k1, v1, s1⟩ BLACK z) (blacken s2)) rest2 := by
                  simp [insert_fixup, hu]
                rw [hstep]
                have hP : OkT (assemble ⟨d1, RED, k1, v1, s1⟩ BLACK z) (n + 1) := by
                  cases d1 with
                  | left => exact OkT.black hz hs1
                  | right => exact OkT.black hs1 hz
                have hY : OkT (blacken s2) (n + 1) := by
                  cases s2 with
                  | nilS => simp [isRed] at hu
                  | node sc sk sv sl sr =>
                    cases sc with
                    | BLACK => simp [isRed] at hu
                    | RED =>
                      obtain ⟨h1, h2, _, _⟩ := OkT_red_inv hs2
                      exact OkT.black h1 h2
                have hZ : OkT (node RED k2 v2
                    (assemble ⟨d1, RED, k1, v1, s1⟩ BLACK z) (blacken s2)) (n + 1) :=
                  OkT.red hP hY (by cases d1 <;> rfl) (isRed_blacken _)
                exact ih rest2 hr2 _ (n + 1) m hZ rfl hrest2
              | false =>
                cases d1 with
                | left =>
                  have heq : insert_fixup z
                      (⟨Dir.left, RED, k1, v1, s1⟩ :: ⟨Dir.left, BLACK, k2, v2, s2⟩ :: rest2) =
                      blacken (plug (node BLACK k1 v1 z
                        (node RED k2 v2 s1 s2)) rest2) := by
                    simp [insert_fixup, hu]
                  rw [heq]
                  have hS : OkT (node BLACK k1 v1 z (node RED k2 v2 s1 s2)) (n + 1) :=
                    OkT.black hz (OkT.red hs1 hs2 hs1b hu)
                  have hplug := plug_ok _ hrest2 hS (by intro hc; cases hc)
                  obtain ⟨m', hm⟩ := blacken_ok hplug
                  exact ⟨m', hm, isRed_blacken _⟩
                | right =>
                  cases z with
                  | nilS => simp [isRed] at hzr
                  | node zc zk zv zl zr =>
                    have hzc : zc = RED := by
                      cases zc with
                      | RED => rfl
                      | BLACK => simp [isRed] at hzr
                    subst hzc
                    obtain ⟨hzl, hzr2, hzlb, hzrb⟩ := OkT_red_inv hz
                    have heq : insert_fixup (node RED zk zv zl zr)
                        (⟨Dir.right, RED, k1, v1, s1⟩ :: ⟨Dir.left, BLACK, k2, v2, s2⟩ :: rest2) =
                        blacken (plug (node BLACK zk zv
                          (node RED k1 v1 s1 zl) (node RED k2 v2 zr s2)) rest2) := by
                      simp [insert_fixup, hu]
                    rw [heq]
                    have hS : OkT (node BLACK zk zv
                        (node RED k1 v1 s1 zl) (node RED k2 v2 zr s2)) (n + 1) :=
                      OkT.black (OkT.red hs1 hzl hs1b hzlb) (OkT.red hzr2 hs2 hzrb hu)
                    have hplug := plug_ok _ hrest2 hS (by intro hc; cases hc)
                    obtain ⟨m', hm⟩ := blacken_ok hplug
                    exact ⟨m', hm, isRed_blacken _⟩
            | right =>
              cases hu : isRed s2 with
              | true =>
                have hstep : insert_fixup z
                    (⟨d1, RED, k1, v1, s1⟩ :: ⟨Dir.right, BLACK, k2, v2, s2⟩ :: rest2) =
                    insert_fixup (node RED k2 v2 (blacken s2)
                      (assemble ⟨d1, RED, k1, v1, s1⟩ BLACK z)) rest2 := by
                  simp [insert_fixup, hu]
                rw [hstep]
                have hP : OkT (assemble ⟨d1, RED, k1, v1, s1⟩ BLACK z) (n + 1) := by
                  cases d1 with
                  | left => exact OkT.black hz hs1
                  | right => exact OkT.black hs1 hz
                have hY : OkT (blacken s2) (n + 1) := by
                  cases s2 with
                  | nilS => simp [isRed] at hu
                  | node sc sk sv sl sr =>
                    cases sc with
                    | BLACK => simp [isRed] at hu
                    | RED =>
                      obtain ⟨h1, h2, _, _⟩ := OkT_red_inv hs2
                      exact OkT.black h1 h2
                have hZ : OkT (node RED k2 v2 (blacken s2)
                    (assemble ⟨d1, RED, k1, v1, s1⟩ BLACK z)) (n + 1) :=
                  OkT.red hY hP (isRed_blacken _) (by cases d1 <;> rfl)
                exact ih rest2 hr2 _ (n + 1) m hZ rfl hrest2
              | false =>
                cases d1 with
                | right =>
                  have heq : insert_fixup z
                      (⟨Dir.right, RED, k1, v1, s1⟩ :: ⟨Dir.right, BLACK, k2, v2, s2⟩ :: rest2) =
                      blacken (plug (node BLACK k1 v1
                        (node RED k2 v2 s2 s1) z) rest2) := by
                    simp [insert_fixup, hu]
                  rw [heq]
                  have hS : OkT (node BLACK k1 v1 (node RED k2 v2 s2 s1) z) (n + 1) :=
                    OkT.black (OkT.red hs2 hs1 hu hs1b) hz
                  have hplug := plug_ok _ hrest2 hS (by intro hc; cases hc)
                  obtain ⟨m', hm⟩ := blacken_ok hplug
                  exact ⟨m', hm, isRed_blacken _⟩
                | left =>
                  cases z with
                  | nilS => simp [isRed] at hzr
                  | node zc zk zv zl zr =>
                    have hzc : zc = RED := by
                      cases zc with
                      | RED => rfl
                      | BLACK => simp [isRed] at hzr
                    subst hzc
                    obtain ⟨hzl, hzr2, hzlb, hzrb⟩ := OkT_red_inv hz
                    have heq : insert_fixup (node RED zk zv zl zr)
                        (⟨Dir.left, RED, k1, v1, s1⟩ :: ⟨Dir.right, BLACK, k2, v2, s2⟩ :: rest2) =
                        blacken (plug (node BLACK zk zv
                          (node RED k2 v2 s2 zl) (node RED k1 v1 zr s1)) rest2) := by
                      simp [insert_fixup, hu]
                    rw [heq]
                    have hS : OkT (node BLACK zk zv
                        (node RED k2 v2 s2 zl) (node RED k1 v1 zr s1)) (n + 1) :=
                      OkT.black (OkT.red hs2 hzl hu hzlb) (OkT.red hzr2 hs1 hzrb hs1b)
                    have hplug := plug_ok _ hrest2 hS (by intro hc; cases hc)
                    obtain ⟨m', hm⟩ := blacken_ok hplug
                    exact ⟨m', hm, isRed_blacken _⟩

end RBTree

namespace RBTree

open Color RBT

theorem blacken_red_ok {x : RBT} {n : Nat} (h : OkT x n) (hx : isRed x = true) :
    OkT (blacken x) (n + 1) := by
  cases x with
  | nilS => cases hx
  | node c k v l r =>
    cases c with
    | BLACK => cases hx
    | RED =>
      obtain ⟨h1, h2, _, _⟩ := OkT_red_inv h
      exact OkT.black h1 h2

theorem delete_fixup_red (x : RBT) (p : Path) (hx : isRed x = true) :
    delete_fixup x p = plug (blacken x) p := by
  cases p with
  | nil => rfl
  | cons f rest => simp [delete_fixup, hx]

/-- Cases 3/4 of the left arm of `_remove_fixup`: with a black sibling that
has a red nephew, one or two rotations finish the repair. -/
theorem fixup_case4_left_ok (x : RBT) (pc : Color) (pk pv : Nat) (w : RBT)
    (rest : Path) (n m : Nat)
    (hx : OkT x n) (hw : OkT w (n + 1)) (hwb : isRed w = false)
    (hnf : isRed (leftOf w) = true ∨ isRed (rightOf w) = true)
    (hctx : (pc = BLACK ∧ OkP rest (n + 2) m) ∨
      (pc = RED ∧ OkP rest (n + 1) m ∧ firstBlack rest)) :
    ∃ m', OkT (fixup_case4_left x pc pk pv w rest) m' ∧
      isRed (fixup_case4_left x pc pk pv w rest) = false := by
  obtain ⟨wk, wv, wl, wr, rfl, hwl, hwr⟩ := OkT_black_node hw hwb
  by_cases hq : isRed (rightOf (node BLACK wk wv wl wr)) = true
  · have hq' : isRed wr = true := hq
    have heq : fixup_case4_left x pc pk pv (node BLACK wk wv wl wr) rest =
        blacken (plug (node pc wk wv (node BLACK pk pv x wl) (blacken wr)) rest) := by
      simp [fixup_case4_left, hq]
    rw [heq]
    have hwrB : OkT (blacken wr) (n + 1) := blacken_red_ok hwr hq'
    have hleft : OkT (node BLACK pk pv x wl) (n + 1) := OkT.black hx hwl
    rcases hctx with ⟨hpc, hrest⟩ | ⟨hpc, hrest, hfb⟩
    · subst hpc
      have hS : OkT (node BLACK wk wv (node BLACK pk pv x wl) (blacken wr)) (n + 2) :=
        OkT.black hleft hwrB
      have hplug := plug_ok _ hrest hS (by intro hc; cases hc)
      obtain ⟨m', hm⟩ := blacken_ok hplug
      exact ⟨m', hm, isRed_blacken _⟩
    · subst hpc
      have hS : OkT (node RED wk wv (node BLACK pk pv x wl) (blacken wr)) (n + 1) :=
        OkT.red hleft hwrB rfl (isRed_blacken _)
      have hplug := plug_ok _ hrest hS (fun _ => hfb)
      obtain ⟨m', hm⟩ := blacken_ok hplug
      exact ⟨m', hm, isRed_blacken _⟩
  · have hwlred : isRed wl = true := by
      rcases hnf with h | h
      · exact h
      · exact absurd h hq
    cases wl with
    | nilS => cases hwlred
    | node wlc wlk wlv wll wlr =>
      have hwlc : wlc = RED := by
        cases wlc with
        | RED => rfl
        | BLACK => cases hwlred
      subst hwlc
      obtain ⟨hwll, hwlr, hwllb, hwlrb⟩ := OkT_red_inv hwl
      have hwrb : isRed wr = false := by
        simpa [rightOf] using hq
      have heq : fixup_case4_left x pc pk pv
          (node BLACK wk wv (node RED wlk wlv wll wlr) wr) rest =
          blacken (plug (node pc wlk wlv (node BLACK pk pv x wll)
            (blacken (node RED wk wv wlr wr))) rest) := by
        simp [fixup_case4_left, hq]
      rw [heq]
      have hright : OkT (blacken (node RED wk wv wlr wr)) (n + 1) :=
        OkT.black hwlr hwr
      have hleft : OkT (node BLACK pk pv x wll) (n + 1) := OkT.black hx hwll
      rcases hctx with ⟨hpc, hrest⟩ | ⟨hpc, hrest, hfb⟩
      · subst hpc
        have hS : OkT (node BLACK wlk wlv (node BLACK pk pv x wll)
            (blacken (node RED wk wv wlr wr))) (n + 2) :=
          OkT.black hleft hright
        have hplug := plug_ok _ hrest hS (by intro hc; cases hc)
        obtain ⟨m', hm⟩ := blacken_ok hplug
        exact ⟨m', hm, isRed_blacken _⟩
      · subst hpc
        have hS : OkT (node RED wlk wlv (node BLACK pk pv x wll)
            (blacken (node RED wk wv wlr wr))) (n + 1) :=
          OkT.red hleft hright rfl (isRed_blacken _)
        have hplug := plug_ok _ hrest hS (fun _ => hfb)
        obtain ⟨m', hm⟩ := blacken_ok hplug
        exact ⟨m', hm, isRed_blacken _⟩

/-- Cases 3/4 of the right arm of `_remove_fixup`. -/
theorem fixup_case4_right_ok (x : RBT) (pc : Color) (pk pv : Nat) (w : RBT)
    (rest : Path) (n m : Nat)
    (hx : OkT x n) (hw : OkT w (n + 1)) (hwb : isRed w = false)
    (hnf : isRed (leftOf w) = true ∨ isRed (rightOf w) = true)
    (hctx : (pc = BLACK ∧ OkP rest (n + 2) m) ∨
      (pc = RED ∧ OkP rest (n + 1) m ∧ firstBlack rest)) :
    ∃ m', OkT (fixup_case4_right x pc pk pv w rest) m' ∧
      isRed (fixup_case4_right x pc pk pv w rest) = false := by
  obtain ⟨wk, wv, wl, wr, rfl, hwl, hwr⟩ := OkT_black_node hw hwb
  by_cases hq : isRed (leftOf (node BLACK wk wv wl wr)) = true
  · have hq' : isRed wl = true := hq
    have heq : fixup_case4_right x pc pk pv (node BLACK wk wv wl wr) rest =
        blacken (plug (node pc wk wv (blacken wl) (node BLACK pk pv wr x)) rest) := by
      simp [fixup_case4_right, hq]
    rw [heq]
    have hwlB : OkT (blacken wl) (n + 1) := blacken_red_ok hwl hq'
    have hright : OkT (node BLACK pk pv wr x) (n + 1) := OkT.black hwr hx
    rcases hctx with ⟨hpc, hrest⟩ | ⟨hpc, hrest, hfb⟩
    · subst hpc
      have hS : OkT (node BLACK wk wv (blacken wl) (node BLACK pk pv wr x)) (n + 2) :=
        OkT.black hwlB hright
      have hplug := plug_ok _ hrest hS (by intro hc; cases hc)
      obtain ⟨m', hm⟩ := blacken_ok hplug
      exact ⟨m', hm, isRed_blacken _⟩
    · subst hpc
      have hS : OkT (node RED wk wv (blacken wl) (node BLACK pk pv wr x)) (n + 1) :=
        OkT.red hwlB hright (isRed_blacken _) rfl
      have hplug := plug_ok _ hrest hS (fun _ => hfb)
      obtain ⟨m', hm⟩ := blacken_ok hplug
      exact ⟨m', hm, isRed_blacken _⟩
  · have hwrred : isRed wr = true := by
      rcases hnf with h | h
      · exact absurd h hq
      · exact h
    cases wr with
    | nilS => cases hwrred
    | node wrc wrk wrv wrl wrr =>
      have hwrc : wrc = RED := by
        cases wrc with
        | RED => rfl
        | BLACK => cases hwrred
      subst hwrc
      obtain ⟨hwrl, hwrr, hwrlb, hwrrb⟩ := OkT_red_inv hwr
      have hwlb : isRed wl = false := by
        simpa [leftOf] using hq
      have heq : fixup_case4_right x pc pk pv
          (node BLACK wk wv wl (node RED wrk wrv wrl wrr)) rest =
          blacken (plug (node pc wrk wrv (blacken (node RED wk wv wl wrl))
            (node BLACK pk pv wrr x)) rest) := by
        simp [fixup_case4_right, hq]
      rw [heq]
      have hleft : OkT (blacken (node RED wk wv wl wrl)) (n + 1) :=
        OkT.black hwl hwrl
      have hright : OkT (node BLACK pk pv wrr x) (n + 1) := OkT.black hwrr hx
      rcases hctx with ⟨hpc, hrest⟩ | ⟨hpc, hrest, hfb⟩
      · subst hpc
        have hS : OkT (node BLACK wrk wrv (blacken (node RED wk wv wl wrl))
            (node BLACK pk pv wrr x)) (n + 2) :=
          OkT.black hleft hright
        have hplug := plug_ok _ hrest hS (by intro hc; cases hc)
        obtain ⟨m', hm⟩ := blacken_ok hplug
        exact ⟨m', hm, isRed_blacken _⟩
      · subst hpc
        have hS : OkT (node RED wrk wrv (blacken (node RED wk wv wl wrl))
            (node BLACK pk pv wrr x)) (n + 1) :=
          OkT.red hleft hright (isRed_blacken _) rfl
        have hplug := plug_ok _ hrest hS (fun _ => hfb)
        obtain ⟨m', hm⟩ := blacken_ok hplug
        exact ⟨m', hm, isRed_blacken _⟩

end RBTree


namespace RBTree

open Color RBT

/-- `_remove_fixup` restores the color invariants: handed a subtree one
black short of what its well-formed context expects, it returns a
black-rooted, balanced tree with no RED-RED violation. -/
theorem delete_fixup_ok : ∀ (fuel : Nat) (p : Path), p.length ≤ fuel →
    ∀ (x : RBT) (n m : Nat), OkT x n → OkP p (n + 1) m → lastBlack p →
    ∃ m', OkT (delete_fixup x p) m' ∧ isRed (delete_fixup x p) = false := by
  intro fuel
  induction fuel with
  | zero =>
    intro p hp x n m hx _ _
    have h0 : p = [] := List.length_eq_zero.1 (Nat.le_zero.1 hp)
    subst h0
    show ∃ m', OkT (blacken x) m' ∧ isRed (blacken x) = false
    obtain ⟨m', hm⟩ := blacken_ok hx
    exact ⟨m', hm, isRed_blacken x⟩
  | succ nf ih =>
    intro p hp x n m hx hokp hlb
    match p with
    | [] =>
      show ∃ m', OkT (blacken x) m' ∧ isRed (blacken x) = false
      obtain ⟨m', hm⟩ := blacken_ok hx
      exact ⟨m', hm, isRed_blacken x⟩
    | f :: rest =>
      obtain ⟨d, c, k, v, w⟩ := f
      have hr : rest.length ≤ nf := by simp at hp; omega
      cases hxr : isRed x with
      | true =>
        have heq : delete_fixup x (⟨d, c, k, v, w⟩ :: rest) =
            plug (blacken x) (⟨d, c, k, v, w⟩ :: rest) := by
          simp [delete_fixup, hxr]
        rw [heq]
        have hxB : OkT (blacken x) (n + 1) := blacken_red_ok hx hxr
        have hok := plug_ok _ hokp hxB (by simp)
        exact ⟨m, hok, isRed_plug hlb (isRed_blacken x)⟩
      | false =>
        cases d with
        | left =>
          cases hokp with
          | consB hw hrest =>
            cases w with
            | nilS =>
              have := OkT_nilS_inv hw
              omega
            | node wc wk wv wl wr =>
              cases wc with
              | RED =>
                obtain ⟨hwl, hwr, hwlb, hwrb⟩ := OkT_red_inv hw
                obtain ⟨a, b, wll, wlr, hwlshape, hwll, hwlr⟩ := OkT_black_node hwl hwlb
                subst hwlshape
                have hrest' : OkP (⟨Dir.left, BLACK, wk, wv, wr⟩ :: rest) (n + 1) m :=
                  OkP.consB hwr hrest
                have hlb' : lastBlack (⟨Dir.left, BLACK, wk, wv, wr⟩ :: rest) :=
                  lastBlack_push hlb rfl
                by_cases hbb : isRed wll = false ∧ isRed wlr = false
                · have heq : delete_fixup x
                      (⟨Dir.left, BLACK, k, v,
                        node RED wk wv (node BLACK a b wll wlr) wr⟩ :: rest) =
                      plug (node BLACK k v x (node RED a b wll wlr))
                        (⟨Dir.left, BLACK, wk, wv, wr⟩ :: rest) := by
                    simp [delete_fixup, hxr, leftOf, rightOf, hbb.1, hbb.2,
                      blacken, redden]
                  rw [heq]
                  have hS : OkT (node BLACK k v x (node RED a b wll wlr)) (n + 1) :=
                    OkT.black hx (OkT.red hwll hwlr hbb.1 hbb.2)
                  have hok := plug_ok _ hrest' hS (by intro hc; cases hc)
                  exact ⟨m, hok, isRed_plug hlb' rfl⟩
                · have heq : delete_fixup x
                      (⟨Dir.left, BLACK, k, v,
                        node RED wk wv (node BLACK a b wll wlr) wr⟩ :: rest) =
                      fixup_case4_left x RED k v (node BLACK a b wll wlr)
                        (⟨Dir.left, BLACK, wk, wv, wr⟩ :: rest) := by
                    simp [delete_fixup, hxr, leftOf, rightOf, hbb]
                  rw [heq]
                  have hnf : isRed (leftOf (node BLACK a b wll wlr)) = true ∨
                      isRed (rightOf (node BLACK a b wll wlr)) = true := by
                    cases h1 : isRed wll with
                    | true => exact Or.inl (by simpa [leftOf] using h1)
                    | false =>
                      cases h2 : isRed wlr with
                      | true => exact Or.inr (by simpa [rightOf] using h2)
                      | false => exact absurd ⟨h1, h2⟩ hbb
                  exact fixup_case4_left_ok x RED k v _ _ n m hx hwl hwlb hnf
                    (Or.inr ⟨rfl, hrest', rfl⟩)
              | BLACK =>
                obtain ⟨n0, hn0, hwl, hwr⟩ := OkT_black_inv hw
                have hneq : n0 = n := by omega
                rw [hneq] at hwl hwr
                by_cases hbb : isRed wl = false ∧ isRed wr = false
                · have heq : delete_fixup x
                      (⟨Dir.left, BLACK, k, v, node BLACK wk wv wl wr⟩ :: rest) =
                      delete_fixup (node BLACK k v x (node RED wk wv wl wr)) rest := by
                    simp [delete_fixup, hxr, leftOf, rightOf, hbb.1, hbb.2, redden]
                  rw [heq]
                  have hx' : OkT (node BLACK k v x (node RED wk wv wl wr)) (n + 1) :=
                    OkT.black hx (OkT.red hwl hwr hbb.1 hbb.2)
                  exact ih rest hr _ (n + 1) m hx' hrest (lastBlack_tail hlb)
                · have heq : delete_fixup x
                      (⟨Dir.left, BLACK, k, v, node BLACK wk wv wl wr⟩ :: rest) =
                      fixup_case4_left x BLACK k v (node BLACK wk wv wl wr) rest := by
                    simp [delete_fixup, hxr, leftOf, rightOf, hbb]
                  rw [heq]
                  have hnf : isRed (leftOf (node BLACK wk wv wl wr)) = true ∨
                      isRed (rightOf (node BLACK wk wv wl wr)) = true := by
                    cases h1 : isRed wl with
                    | true => exact Or.inl (by simpa [leftOf] using h1)
                    | false =>
                      cases h2 : isRed wr with
                      | true => exact Or.inr (by simpa [rightOf] using h2)
                      | false => exact absurd ⟨h1, h2⟩ hbb
                  exact fixup_case4_left_ok x BLACK k v _ _ n m hx hw rfl hnf
                    (Or.inl ⟨rfl, hrest⟩)
          | consR hw hwb hrest hfb =>
            obtain ⟨wk, wv, wl, wr, hwshape, hwl, hwr⟩ := OkT_black_node hw hwb
            subst hwshape
            by_cases hbb : isRed wl = false ∧ isRed wr = false
            · have heq : delete_fixup x
                  (⟨Dir.left, RED, k, v, node BLACK wk wv wl wr⟩ :: rest) =
                  delete_fixup (node RED k v x (node RED wk wv wl wr)) rest := by
                simp [delete_fixup, hxr, leftOf, rightOf, hbb.1, hbb.2, redden]
              rw [heq, delete_fixup_red (node RED k v x (node RED wk wv wl wr)) rest rfl]
              have heq2 : blacken (node RED k v x (node RED wk wv wl wr)) =
                  node BLACK k v x (node RED wk wv wl wr) := rfl
              rw [heq2]
              have hS : OkT (node BLACK k v x (node RED wk wv wl wr)) (n + 1) :=
                OkT.black hx (OkT.red hwl hwr hbb.1 hbb.2)
              have hok := plug_ok _ hrest hS (by intro hc; cases hc)
              exact ⟨m, hok, isRed_plug (lastBlack_tail hlb) rfl⟩
            · have heq : delete_fixup x
                  (⟨Dir.left, RED, k, v, node BLACK wk wv wl wr⟩ :: rest) =
                  fixup_case4_left x RED k v (node BLACK wk wv wl wr) rest := by
                simp [delete_fixup, hxr, leftOf, rightOf, hbb]
              rw [heq]
              have hnf : isRed (leftOf (node BLACK wk wv wl wr)) = true ∨
                  isRed (rightOf (node BLACK wk wv wl wr)) = true := by
                cases h1 : isRed wl with
                | true => exact Or.inl (by simpa [leftOf] using h1)
                | false =>
                  cases h2 : isRed wr with
                  | true => exact Or.inr (by simpa [rightOf] using h2)
                  | false => exact absurd ⟨h1, h2⟩ hbb
              exact fixup_case4_left_ok x RED k v _ _ n m hx hw rfl hnf
                (Or.inr ⟨rfl, hrest, hfb⟩)
        | right =>
          cases hokp with
          | consB hw hrest =>
            cases w with
            | nilS =>
              have := OkT_nilS_inv hw
              omega
            | node wc wk wv wl wr =>
              cases wc with
              | RED =>
                obtain ⟨hwl, hwr, hwlb, hwrb⟩ := OkT_red_inv hw
                obtain ⟨a, b, wrl, wrr, hwrshape, hwrl, hwrr⟩ := OkT_black_node hwr hwrb
                subst hwrshape
                have hrest' : OkP (⟨Dir.right, BLACK, wk, wv, wl⟩ :: rest) (n + 1) m :=
                  OkP.consB hwl hrest
                have hlb' : lastBlack (⟨Dir.right, BLACK, wk, wv, wl⟩ :: rest) :=
                  lastBlack_push hlb rfl
                by_cases hbb : isRed wrr = false ∧ isRed wrl = false
                · have heq : delete_fixup x
                      (⟨Dir.right, BLACK, k, v,
                        node RED wk wv wl (node BLACK a b wrl wrr)⟩ :: rest) =
                      plug (node BLACK k v (node RED a b wrl wrr) x)
                        (⟨Dir.right, BLACK, wk, wv, wl⟩ :: rest) := by
                    simp [delete_fixup, hxr, leftOf, rightOf, hbb.1, hbb.2,
                      blacken, redden]
                  rw [heq]
                  have hS : OkT (node BLACK k v (node RED a b wrl wrr) x) (n + 1) :=
                    OkT.black (OkT.red hwrl hwrr hbb.2 hbb.1) hx
                  have hok := plug_ok _ hrest' hS (by intro hc; cases hc)
                  exact ⟨m, hok, isRed_plug hlb' rfl⟩
                · have heq : delete_fixup x
                      (⟨Dir.right, BLACK, k, v,
                        node RED wk wv wl (node BLACK a b wrl wrr)⟩ :: rest) =
                      fixup_case4_right x RED k v (node BLACK a b wrl wrr)
                        (⟨Dir.right, BLACK, wk, wv, wl⟩ :: rest) := by
                    simp [delete_fixup, hxr, leftOf, rightOf, hbb]
                  rw [heq]
                  have hnf : isRed (leftOf (node BLACK a b wrl wrr)) = true ∨
                      isRed (rightOf (node BLACK a b wrl wrr)) = true := by
                    cases h1 : isRed wrl with
                    | true => exact Or.inl (by simpa [leftOf] using h1)
                    | false =>
                      cases h2 : isRed wrr with
                      | true => exact Or.inr (by simpa [rightOf] using h2)
                      | false => exact absurd ⟨h2, h1⟩ hbb
                  exact fixup_case4_right_ok x RED k v _ _ n m hx hwr hwrb hnf
                    (Or.inr ⟨rfl, hrest', rfl⟩)
              | BLACK =>
                obtain ⟨n0, hn0, hwl, hwr⟩ := OkT_black_inv hw
                have hneq : n0 = n := by omega
                rw [hneq] at hwl hwr
                by_cases hbb : isRed wr = false ∧ isRed wl = false
                · have heq : delete_fixup x
                      (⟨Dir.right, BLACK, k, v, node BLACK wk wv wl wr⟩ :: rest) =
                      delete_fixup (node BLACK k v (node RED wk wv wl wr) x) rest := by
                    simp [delete_fixup, hxr, leftOf, rightOf, hbb.1, hbb.2, redden]
                  rw [heq]
                  have hx' : OkT (node BLACK k v (node RED wk wv wl wr) x) (n + 1) :=
                    OkT.black (OkT.red hwl hwr hbb.2 hbb.1) hx
                  exact ih rest hr _ (n + 1) m hx' hrest (lastBlack_tail hlb)
                · have heq : delete_fixup x
                      (⟨Dir.right, BLACK, k, v, node BLACK wk wv wl wr⟩ :: rest) =
                      fixup_case4_right x BLACK k v (node BLACK wk wv wl wr) rest := by
                    simp [delete_fixup, hxr, leftOf, rightOf, hbb]
                  rw [heq]
                  have hnf : isRed (leftOf (node BLACK wk wv wl wr)) = true ∨
                      isRed (rightOf (node BLACK wk wv wl wr)) = true := by
                    cases h1 : isRed wl with
                    | true => exact Or.inl (by simpa [leftOf] using h1)
                    | false =>
                      cases h2 : isRed wr with
                      | true => exact Or.inr (by simpa [rightOf] using h2)
                      | false => exact absurd ⟨h2, h1⟩ hbb
                  exact fixup_case4_right_ok x BLACK k v _ _ n m hx hw rfl hnf
                    (Or.inl ⟨rfl, hrest⟩)
          | consR hw hwb hrest hfb =>
            obtain ⟨wk, wv, wl, wr, hwshape, hwl, hwr⟩ := OkT_black_node hw hwb
            subst hwshape
            by_cases hbb : isRed wr = false ∧ isRed wl = false
            · have heq : delete_fixup x
                  (⟨Dir.right, RED, k, v, node BLACK wk wv wl wr⟩ :: rest) =
                  delete_fixup (node RED k v (node RED wk wv wl wr) x) rest := by
                simp [delete_fixup, hxr, leftOf, rightOf, hbb.1, hbb.2, redden]
              rw [heq, delete_fixup_red (node RED k v (node RED wk wv wl wr) x) rest rfl]
              have heq2 : blacken (node RED k v (node RED wk wv wl wr) x) =
                  node BLACK k v (node RED wk wv wl wr) x := rfl
              rw [heq2]
              have hS : OkT (node BLACK k v (node RED wk wv wl wr) x) (n + 1) :=
                OkT.black (OkT.red hwl hwr hbb.2 hbb.1) hx
              have hok := plug_ok _ hrest hS (by intro hc; cases hc)
              exact ⟨m, hok, isRed_plug (lastBlack_tail hlb) rfl⟩
            · have heq : delete_fixup x
                  (⟨Dir.right, RED, k, v, node BLACK wk wv wl wr⟩ :: rest) =
                  fixup_case4_right x RED k v (node BLACK wk wv wl wr) rest := by
                simp [delete_fixup, hxr, leftOf, rightOf, hbb]
              rw [heq]
              have hnf : isRed (leftOf (node BLACK wk wv wl wr)) = true ∨
                  isRed (rightOf (node BLACK wk wv wl wr)) = true := by
                cases h1 : isRed wl with
                | true => exact Or.inl (by simpa [leftOf] using h1)
                | false =>
                  cases h2 : isRed wr with
                  | true => exact Or.inr (by simpa [rightOf] using h2)
                  | false => exact absurd ⟨h2, h1⟩ hbb
              exact fixup_case4_right_ok x RED k v _ _ n m hx hw rfl hnf
                (Or.inr ⟨rfl, hrest, hfb⟩)

end RBTree

namespace RBTree

open Color RBT

/-- The remove search hands back a well-formed subtree in a well-formed
context. -/
theorem find_path_okt (k : Nat) : ∀ (t : RBT) (acc : Path) (z : RBT) (p : Path)
    (n m : Nat), find_path t k acc = some (z, p) → OkT t n → OkP acc n m →
    (isRed t = true → firstBlack acc) →
    ∃ n', OkT z n' ∧ OkP p n' m ∧ (isRed z = true → firstBlack p) := by
  intro t
  induction t with
  | nilS => intro acc z p n m h; simp [find_path] at h
  | node c nk nv l r ihl ihr =>
    intro acc z p n m h ht hacc hred
    by_cases hk : k = nk
    · simp only [find_path, if_pos hk] at h
      cases h
      exact ⟨n, ht, hacc, hred⟩
    · cases c with
      | RED =>
        obtain ⟨hl, hr, hlb, hrb⟩ := OkT_red_inv ht
        have hfb : firstBlack acc := hred rfl
        by_cases hlt : k < nk
        · simp only [find_path, if_neg hk, if_pos hlt] at h
          exact ihl _ _ _ _ _ h hl (OkP.consR hr hrb hacc hfb)
            (by intro hc; rw [hlb] at hc; cases hc)
        · simp only [find_path, if_neg hk, if_neg hlt] at h
          exact ihr _ _ _ _ _ h hr (OkP.consR hl hlb hacc hfb)
            (by intro hc; rw [hrb] at hc; cases hc)
      | BLACK =>
        obtain ⟨n0, hn, hl, hr⟩ := OkT_black_inv ht
        subst hn
        by_cases hlt : k < nk
        · simp only [find_path, if_neg hk, if_pos hlt] at h
          exact ihl _ _ _ _ _ h hl (OkP.consB hr hacc) (fun _ => rfl)
        · simp only [find_path, if_neg hk, if_neg hlt] at h
          exact ihr _ _ _ _ _ h hr (OkP.consB hl hacc) (fun _ => rfl)

/-- The remove search keeps the outermost frame black (it is the black
root of the original tree, unless the hit was the root itself). -/
theorem find_path_lastBlack (k : Nat) : ∀ (t : RBT) (acc : Path) (z : RBT) (p : Path),
    find_path t k acc = some (z, p) → lastBlack acc →
    (acc = [] → isRed t = false) → lastBlack p := by
  intro t
  induction t with
  | nilS => intro acc z p h; simp [find_path] at h
  | node c nk nv l r ihl ihr =>
    intro acc z p h hlb hnil
    have hnext : lastBlack (⟨Dir.left, c, nk, nv, r⟩ :: acc) ∧
        lastBlack (⟨Dir.right, c, nk, nv, l⟩ :: acc) := by
      cases acc with
      | nil =>
        have hc : c = BLACK := by
          cases c with
          | BLACK => rfl
          | RED => cases hnil rfl
        subst hc
        exact ⟨rfl, rfl⟩
      | cons g acc' => exact ⟨hlb, hlb⟩
    by_cases hk : k = nk
    · simp only [find_path, if_pos hk] at h
      cases h
      exact hlb
    · by_cases hlt : k < nk
      · simp only [find_path, if_neg hk, if_pos hlt] at h
        exact ihl _ _ _ h hnext.1 (fun hc => absurd hc (List.cons_ne_nil _ _))
      · simp only [find_path, if_neg hk, if_neg hlt] at h
        exact ihr _ _ _ h hnext.2 (fun hc => absurd hc (List.cons_ne_nil _ _))

theorem splice_min_append : ∀ (t : RBT) (acc : Path) (yc : Color) (yk yv : Nat)
    (x : RBT) (p2 : Path), splice_min t acc = some (yc, yk, yv, x, p2) →
    ∀ (acc' : Path), splice_min t (acc ++ acc') = some (yc, yk, yv, x, p2 ++ acc') := by
  intro t
  induction t with
  | nilS => intro acc yc yk yv x p2 h; simp [splice_min] at h
  | node c nk nv l r ihl ihr =>
    intro acc yc yk yv x p2 h acc'
    cases l with
    | nilS =>
      simp only [splice_min] at h
      cases h
      simp [splice_min]
    | node lc lk lv ll lr =>
      have h' : splice_min (node lc lk lv ll lr)
          (⟨Dir.left, c, nk, nv, r⟩ :: acc) = some (yc, yk, yv, x, p2) := h
      have := ihl _ _ _ _ _ _ h' acc'
      rw [List.cons_append] at this
      exact this

/-- A well-formed subtree splits into a well-formed minimum node and a
well-formed context for its hole. -/
theorem splice_min_okp : ∀ (t : RBT) (acc : Path) (yc : Color) (yk yv : Nat)
    (x : RBT) (p2 : Path) (n m : Nat), splice_min t acc = some (yc, yk, yv, x, p2) →
    OkT t n → OkP acc n m → (isRed t = true → firstBlack acc) →
    ∃ ny, OkT (node yc yk yv nilS x) ny ∧ OkP p2 ny m ∧
      (yc = RED → firstBlack p2) := by
  intro t
  induction t with
  | nilS => intro acc yc yk yv x p2 n m h; simp [splice_min] at h
  | node c nk nv l r ihl ihr =>
    intro acc yc yk yv x p2 n m h ht hacc hred
    cases l with
    | nilS =>
      simp only [splice_min] at h
      cases h
      refine ⟨n, ht, hacc, ?_⟩
      intro hc
      subst hc
      exact hred rfl
    | node lc lk lv ll lr =>
      have h' : splice_min (node lc lk lv ll lr)
          (⟨Dir.left, c, nk, nv, r⟩ :: acc) = some (yc, yk, yv, x, p2) := h
      cases c with
      | BLACK =>
        obtain ⟨n0, hn, hl, hr⟩ := OkT_black_inv ht
        subst hn
        exact ihl _ _ _ _ _ _ _ _ h' hl (OkP.consB hr hacc) (fun _ => rfl)
      | RED =>
        obtain ⟨hl, hr, hlb, hrb⟩ := OkT_red_inv ht
        exact ihl _ _ _ _ _ _ _ _ h' hl (OkP.consR hr hrb hacc (hred rfl))
          (by intro hc; rw [hlb] at hc; cases hc)

theorem splice_min_isSome : ∀ (l : RBT) (c : Color) (k v : Nat) (r : RBT) (acc : Path),
    (splice_min (node c k v l r) acc).isSome = true := by
  intro l
  induction l with
  | nilS => intro c k v r acc; simp [splice_min]
  | node lc lk lv ll lr ihl ihr =>
    intro c k v r acc
    show (splice_min (node lc lk lv ll lr) (⟨Dir.left, c, k, v, r⟩ :: acc)).isSome = true
    exact ihl lc lk lv lr _

/-- `_remove(z)` preserves the color invariants of the whole tree. -/
theorem rb_delete_ok (z : RBT) (p : Path) (n m : Nat)
    (hz : OkT z n) (hp : OkP p n m) (hred : isRed z = true → firstBlack p)
    (hlb : lastBlack p) :
    ∃ m', OkT (rb_delete z p) m' ∧ isRed (rb_delete z p) = false := by
  cases z with
  | nilS =>
    have h0 : n = 0 := OkT_nilS_inv hz
    subst h0
    show ∃ m', OkT (plug nilS p) m' ∧ isRed (plug nilS p) = false
    exact ⟨m, plug_ok _ hp OkT.nil (by simp), isRed_plug hlb rfl⟩
  | node zc zk zv zl zr =>
    cases zl with
    | nilS =>
      cases zc with
      | BLACK =>
        obtain ⟨n0, hn0, hl, hr⟩ := OkT_black_inv hz
        have h00 : n0 = 0 := OkT_nilS_inv hl
        subst h00
        rw [hn0] at hp
        have heq : rb_delete (node BLACK zk zv nilS zr) p = delete_fixup zr p := by
          simp [rb_delete]
        rw [heq]
        exact delete_fixup_ok p.length p (le_refl _) zr 0 m hr hp hlb
      | RED =>
        obtain ⟨hl, hr, _, hrb⟩ := OkT_red_inv hz
        have h0 : n = 0 := OkT_nilS_inv hl
        subst h0
        have heq : rb_delete (node RED zk zv nilS zr) p = plug zr p := by
          simp [rb_delete]
        rw [heq]
        exact ⟨m, plug_ok _ hp hr (by intro hc; rw [hrb] at hc; cases hc),
          isRed_plug hlb hrb⟩
    | node lc lk lv ll lr =>
      cases zr with
      | nilS =>
        cases zc with
        | BLACK =>
          obtain ⟨n0, hn0, hl, hr⟩ := OkT_black_inv hz
          have h00 : n0 = 0 := OkT_nilS_inv hr
          subst h00
          rw [hn0] at hp
          have heq : rb_delete (node BLACK zk zv (node lc lk lv ll lr) nilS) p =
              delete_fixup (node lc lk lv ll lr) p := by
            simp [rb_delete]
          rw [heq]
          exact delete_fixup_ok p.length p (le_refl _) _ 0 m hl hp hlb
        | RED =>
          obtain ⟨hl, hr, hlb2, _⟩ := OkT_red_inv hz
          have h0 : n = 0 := OkT_nilS_inv hr
          subst h0
          have heq : rb_delete (node RED zk zv (node lc lk lv ll lr) nilS) p =
              plug (node lc lk lv ll lr) p := by
            simp [rb_delete]
          rw [heq]
          exact ⟨m, plug_ok _ hp hl (by intro hc; rw [hlb2] at hc; cases hc),
            isRed_plug hlb hlb2⟩
      | node rc rk rv rl rr =>
        have hsome := splice_min_isSome rl rc rk rv rr []
        cases hsp : splice_min (node rc rk rv rl rr) [] with
        | none => rw [hsp] at hsome; cases hsome
        | some res =>
          obtain ⟨yc, yk, yv, x, p2⟩ := res
          have happ := splice_min_append _ _ _ _ _ _ _ hsp
            (⟨Dir.right, zc, yk, yv, node lc lk lv ll lr⟩ :: p)
          rw [List.nil_append] at happ
          have hzfp : lastBlack (⟨Dir.right, zc, yk, yv, node lc lk lv ll lr⟩ :: p) := by
            cases p with
            | nil =>
              cases zc with
              | BLACK => exact rfl
              | RED => cases hred rfl
            | cons g p' => exact hlb
          have hlbfull : lastBlack
              (p2 ++ ⟨Dir.right, zc, yk, yv, node lc lk lv ll lr⟩ :: p) :=
            lastBlack_append p2 hzfp
          have hstep : ∃ nzr, OkT (node rc rk rv rl rr) nzr ∧
              OkP (⟨Dir.right, zc, yk, yv, node lc lk lv ll lr⟩ :: p) nzr m ∧
              (isRed (node rc rk rv rl rr) = true →
                firstBlack (⟨Dir.right, zc, yk, yv, node lc lk lv ll lr⟩ :: p)) := by
            cases zc with
            | BLACK =>
              obtain ⟨n0, hn0, hl, hr⟩ := OkT_black_inv hz
              rw [hn0] at hp
              exact ⟨n0, hr, OkP.consB hl hp, fun _ => rfl⟩
            | RED =>
              obtain ⟨hl, hr, hlb2, hrb2⟩ := OkT_red_inv hz
              exact ⟨n, hr, OkP.consR hl hlb2 hp (hred rfl),
                by intro hc; rw [hrb2] at hc; cases hc⟩
          obtain ⟨nzr, hzr, hctx, hredzr⟩ := hstep
          obtain ⟨ny, hy, hp2, hyred⟩ :=
            splice_min_okp _ _ _ _ _ _ _ _ _ happ hzr hctx hredzr
          cases yc with
          | BLACK =>
            obtain ⟨ny0, hny, hyl, hyr⟩ := OkT_black_inv hy
            have h0 : ny0 = 0 := OkT_nilS_inv hyl
            subst h0
            rw [hny] at hp2
            have heq : rb_delete (node zc zk zv (node lc lk lv ll lr)
                (node rc rk rv rl rr)) p =
                delete_fixup x
                  (p2 ++ ⟨Dir.right, zc, yk, yv, node lc lk lv ll lr⟩ :: p) := by
              simp [rb_delete, hsp]
            rw [heq]
            exact delete_fixup_ok _ _ (le_refl _) x 0 m hyr hp2 hlbfull
          | RED =>
            obtain ⟨hyl, hyr, _, hyrb⟩ := OkT_red_inv hy
            have h0 : ny = 0 := OkT_nilS_inv hyl
            subst h0
            have heq : rb_delete (node zc zk zv (node lc lk lv ll lr)
                (node rc rk rv rl rr)) p =
                plug x (p2 ++ ⟨Dir.right, zc, yk, yv, node lc lk lv ll lr⟩ :: p) := by
              simp [rb_delete, hsp]
            rw [heq]
            exact ⟨m, plug_ok _ hp2 hyr (by intro hc; rw [hyrb] at hc; cases hc),
              isRed_plug hlbfull hyrb⟩

end RBTree

namespace RBTree

open Color RBT

/-- The red-black shape invariant of a reachable tree: black root (the
sentinel counts as black) and internally consistent colors and black
heights. -/
def ValidRB (t : RBT) : Prop := isRed t = false ∧ ∃ n, OkT t n

theorem insert_valid (s : TreeState) (k v : Nat) (h : ValidRB s.root) :
    ValidRB ((insert s k v).1).root := by
  obtain ⟨hb, n, hok⟩ := h
  cases hd : descend s.root k [] with
  | none => simp only [insert, hd]; exact ⟨hb, n, hok⟩
  | some p =>
    simp only [insert, hd]
    have hokp : OkP p 0 n :=
      descend_okp k s.root [] p n n hd hok OkP.nil
        (by intro hc; rw [hb] at hc; cases hc)
    have hleaf : OkT (node RED k v nilS nilS) 0 := OkT.red OkT.nil OkT.nil rfl rfl
    obtain ⟨m', hm, hred⟩ :=
      insert_fixup_ok p.length p (le_refl _) _ 0 n hleaf rfl hokp
    exact ⟨hred, m', hm⟩

theorem remove_valid (s : TreeState) (k : Nat) (h : ValidRB s.root) :
    ValidRB ((remove s k).1).root := by
  obtain ⟨hb, n, hok⟩ := h
  cases hf : find_path s.root k [] with
  | none => simp only [remove, hf]; exact ⟨hb, n, hok⟩
  | some zp =>
    obtain ⟨z, p⟩ := zp
    simp only [remove, hf]
    obtain ⟨n', hz, hp, hzred⟩ :=
      find_path_okt k s.root [] z p n n hf hok OkP.nil
        (by intro hc; rw [hb] at hc; cases hc)
    have hlb : lastBlack p :=
      find_path_lastBlack k s.root [] z p hf trivial (fun _ => hb)
    obtain ⟨m', hm, hred⟩ := rb_delete_ok z p n' n hz hp hzred hlb
    exact ⟨hred, m', hm⟩

theorem valid_foldl (ops : List OpR) : ∀ s : TreeState, ValidRB s.root →
    ValidRB ((ops.foldl applyOpR s).root) := by
  induction ops with
  | nil => exact fun s hs => hs
  | cons op ops ih =>
    intro s hs
    rw [List.foldl_cons]
    cases op with
    | ins k v => exact ih _ (insert_valid s k v hs)
    | del k => exact ih _ (remove_valid s k hs)

theorem OkT_noRedRed {t : RBT} {n : Nat} (h : OkT t n) : noRedRed t := by
  induction h with
  | nil => trivial
  | red h1 h2 h3 h4 ih1 ih2 =>
    show (RED = RED → isRed _ = false ∧ isRed _ = false) ∧ _ ∧ _
    exact ⟨fun _ => ⟨h3, h4⟩, ih1, ih2⟩
  | black h1 h2 ih1 ih2 =>
    show (BLACK = RED → isRed _ = false ∧ isRed _ = false) ∧ _ ∧ _
    exact ⟨(fun hc => nomatch hc), ih1, ih2⟩

theorem OkT_bcounts {t : RBT} {n : Nat} (h : OkT t n) :
    ∀ b ∈ bcounts t, b = n := by
  induction h with
  | nil => intro b hb; simpa [bcounts] using hb
  | red h1 h2 h3 h4 ih1 ih2 =>
    intro b hb
    simp only [bcounts, List.mem_map, List.mem_append] at hb
    obtain ⟨c, hc, hbc⟩ := hb
    simp at hbc
    rcases hc with hc | hc
    · have := ih1 c hc; omega
    · have := ih2 c hc; omega
  | black h1 h2 ih1 ih2 =>
    intro b hb
    simp only [bcounts, List.mem_map, List.mem_append] at hb
    obtain ⟨c, hc, hbc⟩ := hb
    simp at hbc
    rcases hc with hc | hc
    · have := ih1 c hc; omega
    · have := ih2 c hc; omega

/-- **C8.**  For every sequence of `insert` and `remove` operations applied
to an initially empty Red-Black tree, the resulting tree satisfies the
red-black invariants: the root is not RED (the empty tree's sentinel root
counts as BLACK), no RED node has a RED child, and every path from the
root to a sentinel leaf carries the same number of BLACK nodes. -/
theorem rb_invariants_all_sequences (ops : List OpR) :
    isRed (runOpsR ops).root = false ∧ noRedRed (runOpsR ops).root ∧
      ∃ n, ∀ b ∈ bcounts (runOpsR ops).root, b = n := by
  have h : ValidRB (runOpsR ops).root :=
    valid_foldl ops mkTree ⟨rfl, 0, OkT.nil⟩
  obtain ⟨hb, n, hok⟩ := h
  exact ⟨hb, OkT_noRedRed hok, n, OkT_bcounts hok⟩

end RBTree
